import Mathlib

/-!
# Verification of the Access Forensics SKU-A executor core (`src/ect.js`)

This file gives a shallow embedding, in Lean 4, of the forensic-integrity
core of the SKU-A executor: the canonical JSON serializer
(`stableStringify`), the note-redaction pass (`sanitizeNote`), the
capture-mode load gate, the selector stabilization / strict-resolution
policy, the step execution engine, and the sealing pipeline
(manifest + packet hash).  Machine integers are modelled as `Nat` with
explicit reduction mod 2^32 where the source relies on 32-bit arithmetic
(SHA-256).  Fallible code is modelled with `Except`/`Option`.

The theorems at the end of the file settle the frozen claims C1..C10
about the specification of this program.
-/

namespace SKUA

/-! ## Bytes, ASCII and UTF-8 -/

/-- A byte string, each entry intended to be `< 256`. -/
abbrev Bytes := List Nat

/-- ASCII lowercasing of a single character (used both by the model of
`String.prototype.toLowerCase` on ASCII data and by the case-insensitive
regex matching of the redaction engine). -/
def asciiLower (c : Char) : Char :=
  if 'A' ≤ c ∧ c ≤ 'Z' then Char.ofNat (c.toNat + 32) else c

/-- ASCII-lowercase every character of a string (model of
`String.prototype.toLowerCase` for the ASCII inputs the executor deals
with). -/
def jsToLowerCase (s : String) : String :=
  String.mk (s.data.map asciiLower)

/-- UTF-8 encoding of one code point. -/
def utf8Char (n : Nat) : Bytes :=
  if n < 128 then [n]
  else if n < 2048 then [192 + n / 64, 128 + n % 64]
  else if n < 65536 then [224 + n / 4096, 128 + (n / 64) % 64, 128 + n % 64]
  else [240 + n / 262144, 128 + (n / 4096) % 64, 128 + (n / 64) % 64, 128 + n % 64]

/-- UTF-8 encoding of a string (model of `Buffer.from(s, "utf-8")`). -/
def utf8Encode (s : String) : Bytes :=
  (s.data.map (fun c => utf8Char c.toNat)).flatten

/-! ## SHA-256 (model of node's `crypto.createHash("sha256")`)

A direct implementation of FIPS 180-4 over `Nat`, all words reduced
mod 2^32. -/

/-- Truncate to a 32-bit word. -/
def w32 (n : Nat) : Nat := n % 4294967296

/-- 32-bit right rotation. -/
def rotr32 (k x : Nat) : Nat := w32 ((x >>> k) ||| (x <<< (32 - k)))

/-- 32-bit bitwise complement (argument assumed `< 2^32`). -/
def not32 (x : Nat) : Nat := 4294967295 - x

def shaCh (x y z : Nat) : Nat := (x &&& y) ^^^ (not32 x &&& z)

def shaMaj (x y z : Nat) : Nat := (x &&& y) ^^^ (x &&& z) ^^^ (y &&& z)

def bSig0 (x : Nat) : Nat := rotr32 2 x ^^^ rotr32 13 x ^^^ rotr32 22 x

def bSig1 (x : Nat) : Nat := rotr32 6 x ^^^ rotr32 11 x ^^^ rotr32 25 x

def sSig0 (x : Nat) : Nat := rotr32 7 x ^^^ rotr32 18 x ^^^ (x >>> 3)

def sSig1 (x : Nat) : Nat := rotr32 17 x ^^^ rotr32 19 x ^^^ (x >>> 10)

/-- SHA-256 round constants (FIPS 180-4 `K`, written in decimal). -/
def shaK : List Nat :=
  [1116352408, 1899447441, 3049323471, 3921009573, 961987163, 1508970993,
   2453635748, 2870763221, 3624381080, 310598401, 607225278, 1426881987,
   1925078388, 2162078206, 2614888103, 3248222580, 3835390401, 4022224774,
   264347078, 604807628, 770255983, 1249150122, 1555081692, 1996064986,
   2554220882, 2821834349, 2952996808, 3210313671, 3336571891, 3584528711,
   113926993, 338241895, 666307205, 773529912, 1294757372, 1396182291,
   1695183700, 1986661051, 2177026350, 2456956037, 2730485921, 2820302411,
   3259730800, 3345764771, 3516065817, 3600352804, 4094571909, 275423344,
   430227734, 506948616, 659060556, 883997877, 958139571, 1322822218,
   1537002063, 1747873779, 1955562222, 2024104815, 2227730452, 2361852424,
   2428436474, 2756734187, 3204031479, 3329325298]

/-- SHA-256 initial hash value (FIPS 180-4 `H⁰`, written in decimal). -/
def shaH0 : List Nat :=
  [1779033703, 3144134277, 1013904242, 2773480762,
   1359893119, 2600822924, 528734635, 1541459225]

/-- Split a byte list into big-endian 32-bit words. -/
def bytesToWords : Bytes → List Nat
  | b0 :: b1 :: b2 :: b3 :: rest => (((b0 * 256 + b1) * 256 + b2) * 256 + b3) :: bytesToWords rest
  | _ => []

/-- Extend the 16-word message schedule by `k` additional words. -/
def extendSchedule (w : List Nat) : Nat → List Nat
  | 0 => w
  | k + 1 =>
    let t := w.length
    let next := w32 (sSig1 (w.getD (t - 2) 0) + w.getD (t - 7) 0 +
                     sSig0 (w.getD (t - 15) 0) + w.getD (t - 16) 0)
    extendSchedule (w ++ [next]) k

/-- One round of the SHA-256 compression function on state
`[a,b,c,d,e,f,g,h]`. -/
def shaRound (st : List Nat) (kw : Nat × Nat) : List Nat :=
  match st with
  | [a, b, c, d, e, f, g, h] =>
    let t1 := w32 (h + bSig1 e + shaCh e f g + kw.1 + kw.2)
    let t2 := w32 (bSig0 a + shaMaj a b c)
    [w32 (t1 + t2), a, b, c, w32 (d + t1), e, f, g]
  | other => other

/-- Process one 64-byte block. -/
def shaBlock (h : List Nat) (block : Bytes) : List Nat :=
  let ws := extendSchedule (bytesToWords block) 48
  let st := (shaK.zip ws).foldl shaRound h
  (h.zip st).map (fun p => w32 (p.1 + p.2))

/-- Big-endian bytes of a `Nat` in `k` bytes. -/
def natBE (k n : Nat) : Bytes :=
  match k with
  | 0 => []
  | j + 1 => natBE j (n / 256) ++ [n % 256]

/-- SHA-256 padding: `0x80`, zeros to 56 mod 64, then the 64-bit
big-endian bit length. -/
def shaPad (msg : Bytes) : Bytes :=
  msg ++ [128] ++ List.replicate ((64 - (msg.length + 9) % 64) % 64) 0 ++ natBE 8 (8 * msg.length)

/-- Split into 64-byte chunks (`k` bounds the number of chunks, so the
recursion is structural and kernel-reducible). -/
def chunksAux : Nat → Bytes → List Bytes
  | 0, _ => []
  | _, [] => []
  | k + 1, l => l.take 64 :: chunksAux k (l.drop 64)

/-- Split into 64-byte chunks. -/
def chunks64 (l : Bytes) : List Bytes := chunksAux ((l.length + 63) / 64) l

/-- SHA-256 digest (32 bytes). -/
def sha256 (msg : Bytes) : Bytes :=
  (((chunks64 (shaPad msg)).foldl shaBlock shaH0).map (natBE 4)).flatten

/-- Lowercase hexadecimal digit. -/
def hexDigitChar (n : Nat) : Char :=
  if n < 10 then Char.ofNat (48 + n) else Char.ofNat (87 + n)

/-- Two lowercase hex digits of a byte. -/
def byteHex (b : Nat) : List Char := [hexDigitChar (b / 16 % 16), hexDigitChar (b % 16)]

/-- Lowercase-hex SHA-256 of a byte string (model of
`crypto.createHash("sha256").update(buf).digest("hex")`, i.e. the
source's `sha256Bytes`). -/
def sha256Hex (msg : Bytes) : String :=
  String.mk ((sha256 msg).map byteHex).flatten

/-- Sanity check of the SHA-256 implementation against the standard
test vector for the empty message. -/
theorem sha256Hex_empty :
    sha256Hex [] = "e3b0c44298fc1c149afbf4c8996fb92427ae41e4649b934ca495991b7852b855" := by
  decide

/-- Sanity check against the standard test vector for "abc". -/
theorem sha256Hex_abc :
    sha256Hex (utf8Encode "abc") =
      "ba7816bf8f01cfea414140de5dae2223b00361a396177a9cb410ff61f20015ad" := by
  decide

/-! ## Model of `String.prototype.localeCompare`

`ect.js` sorts manifest paths and object keys with
`(a, b) => a.localeCompare(b)`.  Under node's default (root/`en`) ICU
collation, for the ASCII path/key alphabet the executor produces, two
strings compare primarily by their case-folded letters (so `"a" < "B"`),
and a pure case difference is broken with the lowercase form first
(`"a" < "A"`).  We model this as a lexicographic comparison of the pair
(case-folded code points, case-flipped code points); the model is exact
for all comparisons that are decided at an ASCII letter or digit
position, which covers every comparison the executor performs on its
own output paths and manifest keys.  Note this is *not* byte
(code-point) order: `"GEN"` sorts after `"a1"` here, while byte order
puts `"GEN"` first. -/

/-- Case-folded code points of a string (primary collation key). -/
def lowerKey (s : String) : List Nat := s.data.map (fun c => (asciiLower c).toNat)

/-- Case-flipped code points (tie-breaking key: larger code point first,
which puts lowercase before uppercase). -/
def flipKey (s : String) : List Nat := s.data.map (fun c => 1114112 - c.toNat)

/-- Strict lexicographic order on lists of naturals. -/
def listLtNat : List Nat → List Nat → Bool
  | [], [] => false
  | [], _ :: _ => true
  | _ :: _, [] => false
  | a :: as, b :: bs => if a < b then true else if b < a then false else listLtNat as bs

/-- `a` strictly precedes `b` under the executor's `localeCompare`
comparator. -/
def jsLocaleLt (a b : String) : Bool :=
  if lowerKey a = lowerKey b then listLtNat (flipKey a) (flipKey b)
  else listLtNat (lowerKey a) (lowerKey b)

/-- Non-strict version of `jsLocaleLt`. -/
def jsLocaleLe (a b : String) : Bool := jsLocaleLt a b || a == b

/-- Byte-lexicographic (UTF-8 code unit) order on strings.  This is the
order named by the specification ("sort entries by path,
byte-lexicographically"); it is **not** the comparator the code uses, and
is defined here only to compare the two. -/
def byteLexLe (a b : String) : Bool :=
  listLtNat (utf8Encode a) (utf8Encode b) || a == b

theorem listLtNat_irrefl : ∀ l : List Nat, listLtNat l l = false := by
  intro l
  induction l with
  | nil => rfl
  | cons a as ih => simp [listLtNat, ih]

theorem listLtNat_cons_iff {x y : Nat} {xs ys : List Nat} :
    listLtNat (x :: xs) (y :: ys) = true ↔ x < y ∨ (x = y ∧ listLtNat xs ys = true) := by
  show (if x < y then true else if y < x then false else listLtNat xs ys) = true ↔ _
  split
  · rename_i h; simp [h]
  · split
    · rename_i h1 h2
      simp [h1, show x ≠ y by omega]
    · rename_i h1 h2
      have hxy : x = y := by omega
      simp [h1, hxy]

theorem listLtNat_trans : ∀ {a b c : List Nat},
    listLtNat a b = true → listLtNat b c = true → listLtNat a c = true := by
  intro a
  induction a with
  | nil =>
    intro b c hab hbc
    cases b with
    | nil => exact absurd hab (by simp [listLtNat])
    | cons y ys =>
      cases c with
      | nil => exact absurd hbc (by simp [listLtNat])
      | cons z zs => simp [listLtNat]
  | cons x xs ih =>
    intro b c hab hbc
    cases b with
    | nil => exact absurd hab (by simp [listLtNat])
    | cons y ys =>
      cases c with
      | nil => exact absurd hbc (by simp [listLtNat])
      | cons z zs =>
        rw [listLtNat_cons_iff] at hab hbc ⊢
        rcases hab with hab | ⟨hab1, hab2⟩
        · rcases hbc with hbc | ⟨hbc1, hbc2⟩
          · exact .inl (by omega)
          · exact .inl (by omega)
        · rcases hbc with hbc | ⟨hbc1, hbc2⟩
          · exact .inl (by omega)
          · exact .inr ⟨by omega, ih hab2 hbc2⟩

theorem listLtNat_conn : ∀ {a b : List Nat},
    listLtNat a b = false → listLtNat b a = false → a = b := by
  intro a
  induction a with
  | nil =>
    intro b hab _
    cases b with
    | nil => rfl
    | cons y ys => exact absurd hab (by simp [listLtNat])
  | cons x xs ih =>
    intro b hab hba
    cases b with
    | nil => exact absurd hba (by simp [listLtNat])
    | cons y ys =>
      have hab' : ¬ (x < y ∨ (x = y ∧ listLtNat xs ys = true)) := by
        rw [← listLtNat_cons_iff]; simp [hab]
      have hba' : ¬ (y < x ∨ (y = x ∧ listLtNat ys xs = true)) := by
        rw [← listLtNat_cons_iff]; simp [hba]
      push_neg at hab' hba'
      have hxy : x = y := by omega
      subst hxy
      have h1 : listLtNat xs ys = false := by simpa using hab'.2 rfl
      have h2 : listLtNat ys xs = false := by simpa using hba'.2 rfl
      rw [ih h1 h2]

theorem char_toNat_lt (c : Char) : c.toNat < 1114112 := by
  have h := c.valid
  rcases h with h | ⟨h1, h2⟩
  · exact Nat.lt_trans h (by norm_num)
  · exact h2

theorem char_toNat_injective {c d : Char} (h : c.toNat = d.toNat) : c = d :=
  Char.eq_of_val_eq (UInt32.eq_of_toBitVec_eq (BitVec.eq_of_toNat_eq h))

theorem flipChars_inj : ∀ (x y : List Char),
    x.map (fun c => 1114112 - c.toNat) = y.map (fun c => 1114112 - c.toNat) → x = y := by
  intro x
  induction x with
  | nil =>
    intro y hy
    cases y with
    | nil => rfl
    | cons z zs => simp at hy
  | cons c cs ih =>
    intro y hy
    cases y with
    | nil => simp at hy
    | cons d ds =>
      simp only [List.map_cons, List.cons.injEq] at hy
      have hc := char_toNat_lt c
      have hdn := char_toNat_lt d
      have heq : c.toNat = d.toNat := by omega
      rw [char_toNat_injective heq, ih ds hy.2]

theorem flipKey_inj {a b : String} (h : flipKey a = flipKey b) : a = b := by
  have hd : a.data = b.data := flipChars_inj a.data b.data h
  cases a; cases b; exact congrArg String.mk hd

theorem jsLocaleLt_asymm {a b : String} (h : jsLocaleLt a b = true) :
    jsLocaleLt b a = false := by
  unfold jsLocaleLt at *
  split at h
  · rename_i heq
    rw [heq]
    simp only [if_pos rfl]
    cases hba : listLtNat (flipKey b) (flipKey a)
    · rfl
    · exact absurd (listLtNat_trans h hba) (by simp [listLtNat_irrefl])
  · rename_i hne
    have : lowerKey b ≠ lowerKey a := fun hh => hne hh.symm
    rw [if_neg this]
    cases hba : listLtNat (lowerKey b) (lowerKey a)
    · rfl
    · exact absurd (listLtNat_trans h hba) (by simp [listLtNat_irrefl])

theorem jsLocaleLt_trans {a b c : String} (hab : jsLocaleLt a b = true)
    (hbc : jsLocaleLt b c = true) : jsLocaleLt a c = true := by
  unfold jsLocaleLt at *
  split at hab <;> split at hbc
  · rename_i h1 h2
    rw [h1, h2, if_pos rfl]
    exact listLtNat_trans hab hbc
  · rename_i h1 h2
    rw [h1, if_neg h2]
    exact hbc
  · rename_i h1 h2
    rw [h2] at h1 hab
    rw [if_neg h1]
    exact hab
  · rename_i h1 h2
    have hlt := listLtNat_trans hab hbc
    have hne : lowerKey a ≠ lowerKey c := by
      intro hh
      rw [hh] at hab
      exact absurd (listLtNat_trans hab hbc) (by simp [listLtNat_irrefl])
    rw [if_neg hne]
    exact hlt

theorem jsLocaleLe_total (a b : String) :
    jsLocaleLe a b = true ∨ jsLocaleLe b a = true := by
  by_cases hab : jsLocaleLt a b = true
  · exact .inl (by simp [jsLocaleLe, hab])
  · by_cases hba : jsLocaleLt b a = true
    · exact .inr (by simp [jsLocaleLe, hba])
    · left
      have hab' : jsLocaleLt a b = false := by simpa using hab
      have hba' : jsLocaleLt b a = false := by simpa using hba
      unfold jsLocaleLt at hab' hba'
      have heq : a = b := by
        by_cases hl : lowerKey a = lowerKey b
        · rw [if_pos hl] at hab'
          rw [if_pos hl.symm] at hba'
          exact flipKey_inj (listLtNat_conn hab' hba')
        · rw [if_neg hl] at hab'
          rw [if_neg (fun hh => hl hh.symm)] at hba'
          exact absurd (listLtNat_conn hab' hba') hl
      simp [jsLocaleLe, heq]

theorem jsLocaleLe_trans {a b c : String} (hab : jsLocaleLe a b = true)
    (hbc : jsLocaleLe b c = true) : jsLocaleLe a c = true := by
  simp only [jsLocaleLe, Bool.or_eq_true, beq_iff_eq] at *
  rcases hab with hab | rfl
  · rcases hbc with hbc | rfl
    · exact .inl (jsLocaleLt_trans hab hbc)
    · exact .inl hab
  · exact hbc

theorem jsLocaleLe_antisymm {a b : String} (hab : jsLocaleLe a b = true)
    (hba : jsLocaleLe b a = true) : a = b := by
  simp only [jsLocaleLe, Bool.or_eq_true, beq_iff_eq] at *
  rcases hab with hab | rfl
  · rcases hba with hba | rfl
    · exact absurd hba (by simp [jsLocaleLt_asymm hab])
    · rfl
  · rfl

/-! ## JSON values and `JSON.stringify(v, null, 2)` -/

/-- A JSON-serializable tree (the acyclic fragment of the executor's
value domain).  Numbers are restricted to integers, which covers every
number the executor serializes into sealed artifacts (sizes, counts,
indices, lengths). -/
inductive JTree where
  | jnull
  | jbool (b : Bool)
  | jnum (n : Int)
  | jstr (s : String)
  | jarr (elems : List JTree)
  | jobj (fields : List (String × JTree))

mutual

/-- Structural equality on JSON trees. -/
def jtEq : JTree → JTree → Bool
  | .jnull, .jnull => true
  | .jbool a, .jbool b => a == b
  | .jnum a, .jnum b => a == b
  | .jstr a, .jstr b => a == b
  | .jarr a, .jarr b => jtEqL a b
  | .jobj a, .jobj b => jtEqF a b
  | _, _ => false

def jtEqL : List JTree → List JTree → Bool
  | [], [] => true
  | a :: as, b :: bs => jtEq a b && jtEqL as bs
  | _, _ => false

def jtEqF : List (String × JTree) → List (String × JTree) → Bool
  | [], [] => true
  | (k, v) :: as, (k', v') :: bs => k == k' && jtEq v v' && jtEqF as bs
  | _, _ => false

end

theorem jtEq_iff : ∀ a b, jtEq a b = true ↔ a = b := by
  refine jtEq.induct
    (fun a b => jtEq a b = true ↔ a = b)
    (fun a b => jtEqF a b = true ↔ a = b)
    (fun a b => jtEqL a b = true ↔ a = b)
    ?_ ?_ ?_ ?_ ?_ ?_ ?_ ?_ ?_ ?_ ?_ ?_ ?_
  · simp [jtEq]
  · intro a b; simp [jtEq]
  · intro a b; simp [jtEq]
  · intro a b; simp [jtEq]
  · intro a b ih; simp [jtEq, ih]
  · intro a b ih; simp [jtEq, ih]
  · intro t x h1 h2 h3 h4 h5 h6
    cases t <;> cases x <;>
      first
        | exact (h1 rfl rfl).elim
        | exact (h2 _ _ rfl rfl).elim
        | exact (h3 _ _ rfl rfl).elim
        | exact (h4 _ _ rfl rfl).elim
        | exact (h5 _ _ rfl rfl).elim
        | exact (h6 _ _ rfl rfl).elim
        | simp [jtEq]
  · simp [jtEqL]
  · intro a as b bs ih1 ih2; simp [jtEqL, ih1, ih2]
  · intro t x h1 h2
    cases t <;> cases x <;>
      first
        | exact (h1 rfl rfl).elim
        | exact (h2 _ _ _ _ rfl rfl).elim
        | simp [jtEqL]
  · simp [jtEqF]
  · intro k v as k' v' bs ih1 ih2; simp [jtEqF, ih1, ih2]
  · intro t x h1 h2
    cases t <;> cases x <;>
      first
        | exact (h1 rfl rfl).elim
        | (rename_i p as p' bs; exact (h2 p.1 p.2 as p'.1 p'.2 bs rfl rfl).elim)
        | simp [jtEqF]

instance : DecidableEq JTree := fun a b => decidable_of_iff _ (jtEq_iff a b)

/-- Decimal digits of a natural number (`fuel`-bounded so the recursion
is structural and kernel-reducible). -/
def natDecAux : Nat → Nat → List Char
  | 0, _ => []
  | _, 0 => []
  | fuel + 1, n => natDecAux fuel (n / 10) ++ [Char.ofNat (48 + n % 10)]

/-- Decimal rendering of a natural number. -/
def natDec (n : Nat) : List Char :=
  if n = 0 then ['0'] else natDecAux (n + 1) n

/-- JS decimal rendering of an integer. -/
def intDec (n : Int) : List Char :=
  if n < 0 then '-' :: natDec n.natAbs else natDec n.natAbs

/-- `JSON.stringify` escaping of one character. -/
def escChar (c : Char) : List Char :=
  if c = '"' then ['\\', '"']
  else if c = '\\' then ['\\', '\\']
  else if c.toNat = 8 then ['\\', 'b']
  else if c.toNat = 9 then ['\\', 't']
  else if c.toNat = 10 then ['\\', 'n']
  else if c.toNat = 12 then ['\\', 'f']
  else if c.toNat = 13 then ['\\', 'r']
  else if c.toNat < 32 then
    ['\\', 'u', '0', '0', hexDigitChar (c.toNat / 16), hexDigitChar (c.toNat % 16)]
  else [c]

/-- A double-quoted, escaped JSON string literal. -/
def quoteStr (s : String) : List Char :=
  '"' :: (s.data.map escChar).flatten ++ ['"']

/-- Indentation for depth `d` under `JSON.stringify(v, null, 2)`. -/
def jind (d : Nat) : List Char := List.replicate (2 * d) ' '

/-- Is `c` an ASCII decimal digit? -/
def isDigitChar (c : Char) : Bool := 48 ≤ c.toNat && c.toNat ≤ 57

/-- Numeric value of a digit string. -/
def digitsVal (l : List Char) : Nat := l.foldl (fun acc c => acc * 10 + (c.toNat - 48)) 0

/-- Is `s` a canonical array-index property key (per ECMA-262: a
canonical numeric string below 2^32 - 1)?  JS objects enumerate such
keys first, in ascending numeric order, regardless of insertion order;
`JSON.stringify` follows that enumeration order. -/
def isArrayIndexKey (s : String) : Bool :=
  s.data ≠ [] && s.data.all isDigitChar &&
    (s.data.head? ≠ some '0' || s == "0") && digitsVal s.data < 4294967295

/-- ECMA-262 own-property enumeration order of an object literal whose
fields were inserted in the given list order: array-index keys first in
ascending numeric order, then the remaining keys in insertion order. -/
def enumOrder (fields : List (String × JTree)) : List (String × JTree) :=
  List.insertionSort (fun a b => digitsVal a.1.data ≤ digitsVal b.1.data)
      (fields.filter (fun f => isArrayIndexKey f.1)) ++
    fields.filter (fun f => ¬ isArrayIndexKey f.1)

mutual

/-- Rewrite every object's field list into the order `JSON.stringify`
will actually emit (the ECMA-262 enumeration order of the object that
holds those fields in that insertion order). -/
def enumFix : JTree → JTree
  | .jarr es => .jarr (enumFixList es)
  | .jobj fs => .jobj (enumOrder (enumFixFields fs))
  | .jnull => .jnull
  | .jbool b => .jbool b
  | .jnum n => .jnum n
  | .jstr s => .jstr s

def enumFixList : List JTree → List JTree
  | [] => []
  | t :: ts => enumFix t :: enumFixList ts

def enumFixFields : List (String × JTree) → List (String × JTree)
  | [] => []
  | (k, v) :: fs => (k, enumFix v) :: enumFixFields fs

end

/-- Join rendered lines with `",\n"` separators. -/
def joinComma : List (List Char) → List Char
  | [] => []
  | [l] => l
  | l :: ls => l ++ ',' :: '\n' :: joinComma ls

mutual

/-- Serialize a `JTree` whose object fields are already in emission
order, in the exact text format of `JSON.stringify(v, null, 2)` at
nesting depth `d`. -/
def serJ (d : Nat) : JTree → List Char
  | .jnull => 'n' :: 'u' :: 'l' :: 'l' :: []
  | .jbool true => 't' :: 'r' :: 'u' :: 'e' :: []
  | .jbool false => 'f' :: 'a' :: 'l' :: 's' :: 'e' :: []
  | .jnum n => intDec n
  | .jstr s => quoteStr s
  | .jarr es =>
    if es.isEmpty then ['[', ']']
    else '[' :: '\n' :: (joinComma (serItems (d + 1) es) ++ '\n' :: (jind d ++ [']']))
  | .jobj fs =>
    if fs.isEmpty then ['\x7b', '\x7d']
    else '\x7b' :: '\n' :: (joinComma (serFields (d + 1) fs) ++ '\n' :: (jind d ++ ['\x7d']))

/-- Rendered array items, one indented line each. -/
def serItems (d : Nat) : List JTree → List (List Char)
  | [] => []
  | e :: es => (jind d ++ serJ d e) :: serItems d es

/-- Rendered object fields, one indented `"key": value` line each. -/
def serFields (d : Nat) : List (String × JTree) → List (List Char)
  | [] => []
  | f :: fs => (jind d ++ quoteStr f.1 ++ ':' :: ' ' :: serJ d f.2) :: serFields d fs

end

/-- `JSON.stringify(v, null, 2)` on a tree value. -/
def jsonStringify (t : JTree) : String := String.mk (serJ 0 (enumFix t))

/-- Model of the source's `writeJson` payload:
`JSON.stringify(obj, null, 2) + "\n"`. -/
def writeJsonStr (t : JTree) : String := jsonStringify t ++ "\n"

/-! ## `stableStringify` on trees

`stableStringify(value, indent = 2)` (ect.js:173-190) recursively
rebuilds objects with keys sorted by `localeCompare`, then
`JSON.stringify`s the result with indent 2 and appends `"\n"`.  On
acyclic, unshared (tree-shaped) values the traversal never trips the
`WeakSet` cycle guard, and is modelled here directly on `JTree`; the
general heap model (shared references, cycles) follows later and is
related to this one. -/

/-- Key order used by `Object.keys(v).sort((a, b) => a.localeCompare(b))`. -/
def fieldLe (a b : String × JTree) : Prop := jsLocaleLe a.1 b.1 = true

instance : DecidableRel fieldLe := fun a b => by
  unfold fieldLe; infer_instance

mutual

/-- The `sorter` pass of `stableStringify` on a tree: sort every
object's keys with `localeCompare`, keep array order.  (The source
sorts the keys first and then recurses into the values in sorted order;
recursing first and then sorting is the same function since sorting
only permutes fields and compares keys.) -/
def sortJ : JTree → JTree
  | .jarr es => .jarr (sortJList es)
  | .jobj fs => .jobj (List.insertionSort fieldLe (sortJFields fs))
  | .jnull => .jnull
  | .jbool b => .jbool b
  | .jnum n => .jnum n
  | .jstr s => .jstr s

def sortJList : List JTree → List JTree
  | [] => []
  | t :: ts => sortJ t :: sortJList ts

def sortJFields : List (String × JTree) → List (String × JTree)
  | [] => []
  | (k, v) :: fs => (k, sortJ v) :: sortJFields fs

end

/-- `stableStringify(t, 2)` for a tree-shaped value. -/
def stableStringifyT (t : JTree) : String :=
  String.mk (serJ 0 (enumFix (sortJ t))) ++ "\n"

/-! ## Redaction engine (`NOTE_BANNED_PATTERNS` / `sanitizeNote`)

The banned-term regexes of ect.js:79-91 all have the shape
`/\b … \b/gi` where `…` is built from case-insensitive letter literals,
an optional hyphen (`-?`), optional whitespace (`\s*`) and an optional
ordered alternation (`(s|ed|ure)?`).  They are modelled with a small
pattern DSL whose matcher reproduces the JS regex engine's ordered,
greedy backtracking semantics for exactly these constructs.  The `i`
flag (without `u`) is ASCII case folding on these ASCII patterns; `\b`
is a transition between `[A-Za-z0-9_]` and anything else. -/

/-- JS `\w` (word character): `[A-Za-z0-9_]`. -/
def isWordChar (c : Char) : Bool :=
  ('a' ≤ c && c ≤ 'z') || ('A' ≤ c && c ≤ 'Z') || ('0' ≤ c && c ≤ '9') || c == '_'

/-- JS `\s` (whitespace, per ECMA-262). -/
def isJsSpace (c : Char) : Bool :=
  c.toNat ∈ [9, 10, 11, 12, 13, 32, 160, 5760, 8232, 8233, 8239, 8287, 12288, 65279] ||
    (8192 ≤ c.toNat && c.toNat ≤ 8202)

/-- Case-insensitive match of a text character against a lowercase
pattern character. -/
def patCharEq (textC patC : Char) : Bool := asciiLower textC == patC

/-- One element of a banned-term pattern. -/
inductive PatElem where
  | lit (w : List Char)
  | wsStar
  | optDash
  | optAlts (alts : List (List Char))

/-- A banned-term pattern: the element sequence between the two `\b`
anchors. -/
abbrev Pat := List PatElem

/-- Strip a case-insensitive literal from the head of the text. -/
def stripLit : List Char → List Char → Option (List Char)
  | [], s => some s
  | _ :: _, [] => none
  | p :: ps, c :: cs => if patCharEq c p then stripLit ps cs else none

/-- The trailing `\b` check: the previous consumed character is always a
word character for these patterns, so the boundary holds iff the next
character is absent or not a word character. -/
def boundaryAfter : List Char → Bool
  | [] => true
  | c :: _ => !isWordChar c

/-- Length of the leading whitespace run. -/
def countWs : List Char → Nat
  | [] => 0
  | c :: cs => if isJsSpace c then countWs cs + 1 else 0

mutual

/-- Match the remaining pattern elements at the head of `s`, returning
the rest of the text after the match (including the trailing `\b`
check).  Alternations and `\s*` backtrack in the JS engine's order:
alternation branches are tried left to right before the empty option,
and `\s*` is greedy. -/
def matchElems : List PatElem → List Char → Option (List Char)
  | [], s => if boundaryAfter s then some s else none
  | .lit w :: ps, s =>
    match stripLit w s with
    | some s' => matchElems ps s'
    | none => none
  | .optDash :: ps, s =>
    match s with
    | [] => matchElems ps []
    | c :: s' =>
      if c = '-' then
        match matchElems ps s' with
        | some r => some r
        | none => matchElems ps (c :: s')
      else matchElems ps (c :: s')
  | .optAlts alts :: ps, s => tryAlts alts ps s
  | .wsStar :: ps, s => tryWs (countWs s) ps s
termination_by ps _ => (sizeOf ps, 0)

/-- Try alternation branches in order, then the empty option. -/
def tryAlts : List (List Char) → List PatElem → List Char → Option (List Char)
  | [], ps, s => matchElems ps s
  | a :: as, ps, s =>
    match stripLit a s with
    | some s' =>
      match matchElems ps s' with
      | some r => some r
      | none => tryAlts as ps s
    | none => tryAlts as ps s
termination_by alts ps _ => (sizeOf ps + 1, sizeOf alts)

/-- Greedy `\s*`: try consuming `k` whitespace characters, longest
first. -/
def tryWs : Nat → List PatElem → List Char → Option (List Char)
  | 0, ps, s => matchElems ps s
  | k + 1, ps, s =>
    match matchElems ps (s.drop (k + 1)) with
    | some r => some r
    | none => tryWs k ps s
termination_by k ps _ => (sizeOf ps + 1, k)

end

/-- The eleven banned patterns of `NOTE_BANNED_PATTERNS`, in source
order.  (`fail(s|ed|ure)?` and `pass(ed|es)?` carry their suffix
alternations; `title\s*iii` its whitespace; `non-?compliant` its
optional hyphen.) -/
def patWcag : Pat := [.lit ['w', 'c', 'a', 'g']]
def patAda : Pat := [.lit ['a', 'd', 'a']]
def patTitleIii : Pat := [.lit ['t', 'i', 't', 'l', 'e'], .wsStar, .lit ['i', 'i', 'i']]
def patCompliant : Pat := [.lit ['c', 'o', 'm', 'p', 'l', 'i', 'a', 'n', 't']]
def patNonCompliant : Pat :=
  [.lit ['n', 'o', 'n'], .optDash, .lit ['c', 'o', 'm', 'p', 'l', 'i', 'a', 'n', 't']]
def patViolation : Pat := [.lit ['v', 'i', 'o', 'l', 'a', 't', 'i', 'o', 'n']]
def patViolates : Pat := [.lit ['v', 'i', 'o', 'l', 'a', 't', 'e', 's']]
def patInaccessible : Pat := [.lit ['i', 'n', 'a', 'c', 'c', 'e', 's', 's', 'i', 'b', 'l', 'e']]
def patBarrier : Pat := [.lit ['b', 'a', 'r', 'r', 'i', 'e', 'r']]
def patFail : Pat := [.lit ['f', 'a', 'i', 'l'], .optAlts [['s'], ['e', 'd'], ['u', 'r', 'e']]]
def patPass : Pat := [.lit ['p', 'a', 's', 's'], .optAlts [['e', 'd'], ['e', 's']]]

/-- `NOTE_BANNED_PATTERNS`, in source order. -/
def NOTE_BANNED_PATTERNS : List Pat :=
  [patWcag, patAda, patTitleIii, patCompliant, patNonCompliant, patViolation,
   patViolates, patInaccessible, patBarrier, patFail, patPass]

/-- A whole-pattern match at the current position: the leading `\b`
requires the previous character not to be a word character (`prevW` is
the wordness of the previous character; at the start of the text it is
`false`). -/
def matchHere (p : Pat) (prevW : Bool) (s : List Char) : Option (List Char) :=
  if prevW then none else matchElems p s

/-- `re.test(s)`: is there a match at any position?  `prevW` carries the
wordness of the character before the current position. -/
def testPat (p : Pat) (prevW : Bool) : List Char → Bool
  | [] => false
  | c :: cs => (matchHere p prevW (c :: cs)).isSome || testPat p (isWordChar c) cs

/-- The replacement text `"[REDACTED]"`. -/
def redactedR : List Char := ['[', 'R', 'E', 'D', 'A', 'C', 'T', 'E', 'D', ']']

/-- Does the pattern start with a nonempty literal?  (True of all eleven
banned patterns; it guarantees every match consumes at least one
character.) -/
def firstLitB : Pat → Bool
  | .lit (_ :: _) :: _ => true
  | _ => false

theorem stripLit_suffix {w s r : List Char} (h : stripLit w s = some r) : r <:+ s := by
  induction w generalizing s with
  | nil => simp [stripLit] at h; simp [h]
  | cons p ps ih =>
    cases s with
    | nil => simp [stripLit] at h
    | cons c cs =>
      simp only [stripLit] at h
      split at h
      · exact (ih h).trans (List.suffix_cons c cs)
      · exact absurd h (by simp)

theorem stripLit_length {w s r : List Char} (h : stripLit w s = some r) :
    r.length + w.length = s.length := by
  induction w generalizing s with
  | nil => simp [stripLit] at h; simp [h]
  | cons p ps ih =>
    cases s with
    | nil => simp [stripLit] at h
    | cons c cs =>
      simp only [stripLit] at h
      split at h
      · have := ih h; simp only [List.length_cons]; omega
      · exact absurd h (by simp)

/-- Any successful match leaves a suffix of the input. -/
theorem matchElems_suffix :
    ∀ ps s r, matchElems ps s = some r → r <:+ s := by
  refine matchElems.induct
    (fun ps s => ∀ r, matchElems ps s = some r → r <:+ s)
    (fun k ps s => ∀ r, tryWs k ps s = some r → r <:+ s)
    (fun alts ps s => ∀ r, tryAlts alts ps s = some r → r <:+ s)
    ?_ ?_ ?_ ?_ ?_ ?_ ?_ ?_ ?_ ?_ ?_ ?_ ?_ ?_ ?_ ?_ ?_
  · intro s hb r h
    simp [matchElems, hb] at h
    simp [h]
  · intro s hb r h
    simp [matchElems, hb] at h
  · intro w ps s s' hs ih r h
    simp only [matchElems, hs] at h
    exact (ih r h).trans (stripLit_suffix hs)
  · intro w ps s hs r h
    simp [matchElems, hs] at h
  · intro ps ih r h
    simp only [matchElems] at h
    exact ih r h
  · intro ps tail s' hm ih r h
    simp only [matchElems, hm, if_pos] at h
    have hr : s' = r := by simpa using h
    exact hr ▸ ((ih s' hm).trans (List.suffix_cons '-' tail))
  · intro ps tail hm ih1 ih2 r h
    simp only [matchElems, hm, if_pos] at h
    exact ih2 r h
  · intro ps c tail hc ih r h
    simp only [matchElems, if_neg hc] at h
    exact ih r h
  · intro alts ps s ih r h
    simp only [matchElems] at h
    exact ih r h
  · intro ps s ih r h
    simp only [matchElems] at h
    exact ih r h
  · intro ps s ih r h
    simp only [tryWs] at h
    exact ih r h
  · intro k ps s s' hm ih r h
    simp only [tryWs, hm] at h
    have hr : s' = r := by simpa using h
    exact hr ▸ (ih s' hm).trans (List.drop_suffix (k + 1) s)
  · intro k ps s hm ih ihk r h
    simp only [tryWs, hm] at h
    exact ihk r h
  · intro ps s ih r h
    simp only [tryAlts] at h
    exact ih r h
  · intro a as ps s s' hs s'' hm ih r h
    simp only [tryAlts, hs, hm] at h
    have hr : s'' = r := by simpa using h
    exact hr ▸ (ih s'' hm).trans (stripLit_suffix hs)
  · intro a as ps s s' hs hm ih ihas r h
    simp only [tryAlts, hs, hm] at h
    exact ihas r h
  · intro a as ps s hs ih r h
    simp only [tryAlts, hs] at h
    exact ih r h

theorem matchElems_length {ps : Pat} {s r : List Char} (h : matchElems ps s = some r) :
    r.length ≤ s.length :=
  (matchElems_suffix ps s r h).length_le

/-- With a leading nonempty literal, every match consumes at least one
character. -/
theorem matchHere_shrink {p : Pat} (hp : firstLitB p = true) {prevW : Bool} {s r : List Char}
    (h : matchHere p prevW s = some r) : r.length < s.length := by
  unfold matchHere at h
  split at h
  · exact absurd h (by simp)
  · match p, hp with
    | .lit (c :: w) :: ps, _ =>
      simp only [matchElems] at h
      split at h
      · rename_i s' hs
        have h1 := matchElems_length h
        have h2 := stripLit_length hs
        simp only [List.length_cons] at h2
        omega
      · exact absurd h (by simp)

/-- `String.prototype.replace` with a global regex: scan left to right,
replace each (necessarily nonempty) match with `"[REDACTED]"`, resume
after the match; `prevW` tracks the wordness of the previous character
of the *original* string, which is what the regex engine's `\b` sees. -/
def scanRep (p : Pat) (hp : firstLitB p = true) (prevW : Bool) (s : List Char) : List Char :=
  match s with
  | [] => []
  | c :: cs =>
    match h : matchHere p prevW (c :: cs) with
    | some r => redactedR ++ scanRep p hp true r
    | none => c :: scanRep p hp (isWordChar c) cs
termination_by s.length
decreasing_by
  · exact matchHere_shrink hp h
  · simp

/-- All eleven banned patterns start with a nonempty literal. -/
theorem bannedFirstLit : ∀ p ∈ NOTE_BANNED_PATTERNS, firstLitB p = true := by decide

/-- One pass of the `for (const re of NOTE_BANNED_PATTERNS)` loop body:
`if (re.test(s)) { s = s.replace(re, "[REDACTED]"); redacted = true; }`.
(Note `re.test` and `re[Symbol.replace]` leave `lastIndex` at 0 on the
paths taken here, so the global-regex state never leaks between calls.) -/
def sanitizeStage (acc : List Char × Bool) (p : {q : Pat // q ∈ NOTE_BANNED_PATTERNS}) :
    List Char × Bool :=
  if testPat p.1 false acc.1 then (scanRep p.1 (bannedFirstLit p.1 p.2) false acc.1, true)
  else acc

/-- The full redaction pass over a note's characters; the boolean
reports whether any substitution occurred (and hence whether the
`compliance_redaction` console event is emitted). -/
def sanitizeText (s : List Char) : List Char × Bool :=
  NOTE_BANNED_PATTERNS.attach.foldl sanitizeStage (s, false)

/-- `sanitizeNote(note, consoleLog)` (ect.js:196-220): falsy notes pass
through as `null`; otherwise every banned pattern is replaced and a
single audit flag records whether any redaction occurred. -/
def sanitizeNote (note : Option String) : Option String × Bool :=
  match note with
  | none => (none, false)
  | some n =>
    if n = "" then (none, false)
    else
      let r := sanitizeText n.data
      (some (String.mk r.1), r.2)

/-! ## JS values, plan structures, config policies -/

/-- The fragment of the JS value domain a parsed flow plan can put in a
scalar field. -/
inductive JsVal where
  | vUndef
  | vNull
  | vBool (b : Bool)
  | vNum (n : Int)
  | vStr (s : String)
deriving DecidableEq

/-- JS truthiness. -/
def jsTruthy : JsVal → Bool
  | .vUndef => false
  | .vNull => false
  | .vBool b => b
  | .vNum n => n ≠ 0
  | .vStr s => s ≠ ""

/-- JS `String(v)` on scalars. -/
def jsToString : JsVal → String
  | .vUndef => "undefined"
  | .vNull => "null"
  | .vBool true => "true"
  | .vBool false => "false"
  | .vNum n => String.mk (intDec n)
  | .vStr s => s

/-- Decimal string of a natural number. -/
def natStr (n : Nat) : String := String.mk (natDec n)

/-- One step of a flow plan (the JSON fields `ect.js` reads; a field
holds `none` when absent). -/
structure Step where
  type : Option String := none
  selector : Option String := none
  timeout_ms : Option Nat := none
  allegation_id : Option String := none
  note : Option String := none
  allow_multiple_matches : Option JsVal := none
  goal_text : Option JsVal := none
  text : Option String := none
  val : Option String := none
  key : Option String := none
  count : Option Nat := none
  delay_ms : Option Nat := none
  deltaY : Option Int := none
deriving DecidableEq

/-- An `allegations` array entry. -/
structure Allegation where
  id : Option String := none
  label : Option String := none
deriving DecidableEq

/-- A flow plan as parsed from JSON (fields `ect.js` reads). -/
structure Flow where
  flow_id : Option String := none
  start_url : Option String := none
  steps : Option (List Step) := none
  goal_text : JsVal := .vUndef
  capture_mode : JsVal := .vUndef
  visual_only : JsVal := .vUndef
  case_label : Option String := none
  protocol_version : Option String := none
  allegations : List Allegation := []
  goal_selector : Option String := none
  goal_expectation : Option String := none
  goal : Option String := none
  goal_timeout_ms : Option Nat := none
deriving DecidableEq

/-- `String((s && s.type) || "")`. -/
def stepTypeStr (s : Step) : String := s.type.getD ""

/-- `s && s.selector ? String(s.selector) : null` (the empty string is
falsy). -/
def selOf (s : Step) : Option String :=
  match s.selector with
  | some t => if t = "" then none else some t
  | none => none

/-- `s && s.note ? s.note : null`. -/
def noteOf (s : Step) : Option String :=
  match s.note with
  | some t => if t = "" then none else some t
  | none => none

def NAV_TIMEOUT_MS : Nat := 30000
def STEP_TIMEOUT_MS : Nat := 10000
def STABILIZE_MS : Nat := 150
def RETAIN_RAW : Bool := true
def RAW_RETENTION_DAYS : Nat := 180

/-- `Number((s && s.timeout_ms) || STEP_TIMEOUT_MS)` (zero is falsy). -/
def tmOf (s : Step) : Nat :=
  match s.timeout_ms with
  | some n => if n = 0 then STEP_TIMEOUT_MS else n
  | none => STEP_TIMEOUT_MS

/-- Interactive step types (ect.js:94). -/
def INTERACTIVE_STEPS : List String := ["click_selector", "type_selector", "fill", "press", "tab"]

/-- Passive capture allowed step types (ect.js:97). -/
def PASSIVE_ALLOWED_STEPS : List String :=
  ["wait_selector", "scroll", "assert_text_present", "assert_url_contains"]

/-- `String.prototype.trim` (JS whitespace). -/
def jsTrim (s : String) : String :=
  String.mk (((s.data.dropWhile isJsSpace).reverse.dropWhile isJsSpace).reverse)

/-- Is `c` in `[a-z0-9]`? -/
def isTokChar (c : Char) : Bool := ('a' ≤ c && c ≤ 'z') || ('0' ≤ c && c ≤ '9')

/-- Collapse each consecutive run of underscores to one underscore. -/
def squashUnderscores : List Char → List Char
  | [] => []
  | '_' :: '_' :: rest => squashUnderscores ('_' :: rest)
  | c :: cs => c :: squashUnderscores cs

/-- `safeToken` (ect.js:112-119): trim, lowercase, replace runs of
`[^a-z0-9]` with `_`, strip outer underscores, default `"gen"`. -/
def safeToken (s : Option String) : String :=
  let t := jsTrim (jsToLowerCase (s.getD ""))
  let mapped := t.data.map (fun c => if isTokChar c then c else '_')
  let collapsed := squashUnderscores mapped
  let stripped := ((collapsed.dropWhile (· == '_')).reverse.dropWhile (· == '_')).reverse
  if stripped = [] then "gen" else String.mk stripped

/-- ASCII uppercasing (model of `String.prototype.toUpperCase` on the
ASCII ids the executor compares). -/
def jsToUpperCase (s : String) : String :=
  String.mk (s.data.map (fun c => if 'a' ≤ c ∧ c ≤ 'z' then Char.ofNat (c.toNat - 32) else c))

/-- `canonicalFolderForAllegation` (ect.js:126-131). -/
def canonicalFolderForAllegation (rawId : Option String) : String :=
  let raw := jsTrim (rawId.getD "")
  if raw = "" then "GEN"
  else if jsToUpperCase raw = "GEN" then "GEN"
  else safeToken (some raw)

/-- `canonicalAllegationId` (ect.js:138-143). -/
def canonicalAllegationId (rawId : Option String) : String :=
  let raw := jsTrim (rawId.getD "")
  if raw = "" then "GEN"
  else if jsToUpperCase raw = "GEN" then "GEN"
  else raw

/-- `pad3` for numeric step indices. -/
def pad3 (n : Nat) : String :=
  let d := natDec n
  String.mk (List.replicate (3 - d.length) '0' ++ d)

/-! ## Load phase: schema checks and the capture-mode gate
(ect.js:330-397) -/

/-- The load-time fatal exits (`process.exit(1)` before any run
directory or browser exists). -/
inductive LoadErr where
  | badFlowId
  | badStartUrl
  | badSteps
  | goalTextForbidden
  | badCaptureMode
  | passiveForbiddenStep (t : String)
  | qualityGateNoInteractive
deriving DecidableEq

/-- The effective capture mode:
`String(flow.capture_mode || (flow.visual_only === true ? "passive" : "interactive")).toLowerCase()`.
Note `||` falls back on *any* falsy `capture_mode` (absent, empty
string, `0`, `false`, `null`). -/
def captureModeOf (flow : Flow) : String :=
  jsToLowerCase (jsToString
    (if jsTruthy flow.capture_mode then flow.capture_mode
     else .vStr (if flow.visual_only = .vBool true then "passive" else "interactive")))

/-- The load phase of `main`: schema checks, the flow-level `goal_text`
ban, capture-mode derivation and validation, the passive allow-list
check, and the interactive quality gate — all before any browser
launch. -/
def loadGate (flow : Flow) : Except LoadErr (String × List Step) :=
  if (flow.flow_id.getD "") = "" then .error .badFlowId
  else if (flow.start_url.getD "") = "" then .error .badStartUrl
  else
    match flow.steps with
    | none => .error .badSteps
    | some steps =>
      if flow.goal_text ≠ .vUndef ∧ flow.goal_text ≠ .vNull then .error .goalTextForbidden
      else
        let mode := captureModeOf flow
        if mode ≠ "passive" ∧ mode ≠ "interactive" then .error .badCaptureMode
        else if mode = "passive" then
          match steps.find? (fun s => ¬ PASSIVE_ALLOWED_STEPS.contains (stepTypeStr s)) with
          | some s => .error (.passiveForbiddenStep (stepTypeStr s))
          | none => .ok (mode, steps)
        else
          if steps.any (fun s => INTERACTIVE_STEPS.contains (stepTypeStr s)) then
            .ok (mode, steps)
          else .error .qualityGateNoInteractive

/-! ## The external page-automation provider and run state

The browser/page is out of scope (§6 of the spec): the engine consumes
it through a capability record.  `counts sel i` is the match count the
`i`-th `locator.count()` call of the run observes for `sel` (the page
may change between reads); `visible sel j` is the best-effort
`isVisible` answer for the `j`-th matched element. -/

/-- A provider action primitive invoked by a step. -/
inductive PageAction where
  | click (selector : String)
  | fillAct (selector : String) (value : String)
  | keyPress (key : String)
  | wheel (dy : Int)
deriving DecidableEq

/-- The abstract provider. -/
structure PageEnv where
  now : Nat → String
  url : String
  counts : String → Nat → Nat
  visible : String → Nat → Bool
  waitVisibleOk : String → Bool
  errWaitVisible : String → String
  actionOk : PageAction → Bool
  errAction : PageAction → String
  textPresent : String → Bool
  launchOk : Bool
  launchErr : String
  gotoOk : Bool
  gotoErr : String
  screenshotOk : Nat → Bool
  screenshotErr : Nat → String
  screenshotBytes : Nat → Bytes
  htmlOk : Nat → Bool
  axOk : Nat → Bool
  chromiumVersion : String
  envMetaPre : List (String × JTree)
  envMetaPost : List (String × JTree)
  startIso : String

/-- Ghost observation of the engine's behaviour (which strict
resolutions succeeded, which provider actions were attempted), used to
state ordering properties. -/
inductive TraceEv where
  | resolvedOne (selector : String)
  | acted (a : PageAction)
deriving DecidableEq

/-- A numeric step index or the distinguished `"GOAL"` label. -/
inductive StepIx where
  | num (n : Nat)
  | goal
deriving DecidableEq

/-- An `interactionLog` entry (timestamps carried as opaque provider
strings). -/
structure LogEntry where
  step_index : StepIx
  allegation_id : String
  action : String
  result : String
  error_message : Option String
  note : Option String
  url : String
  timestamp_utc : String
deriving DecidableEq

/-- An `evidenceIndex` record. -/
structure EvidenceRec where
  step_index : Nat
  allegation_id : String
  folder : String
  label : Option String
  filename : String
  rel_path : String
  raw_html : Option String
  raw_ax : Option String
  timestamp_utc : String
deriving DecidableEq

/-- A file of the deliverable tree (path relative to
`Deliverable_Packet/`). -/
structure FsFile where
  path : String
  content : Bytes
deriving DecidableEq

/-- The deliverable tree. -/
abbrev Fs := List FsFile

/-- Write (create or overwrite) a file. -/
def fsWrite (fs : Fs) (p : String) (b : Bytes) : Fs :=
  if fs.any (fun f => f.path = p) then
    fs.map (fun f => if f.path = p then ⟨p, b⟩ else f)
  else fs ++ [⟨p, b⟩]

/-- Look up a file's bytes. -/
def fsRead (fs : Fs) (p : String) : Option Bytes :=
  (fs.find? (fun f => f.path = p)).map (·.content)

/-- Mutable run state threaded through the engine (`consoleLog`
entries are heterogeneous objects and are held as JSON trees). -/
structure RunState where
  clock : Nat := 0
  reads : Nat := 0
  stepIndex : Nat := 0
  consoleLog : List JTree := []
  interactionLog : List LogEntry := []
  evidenceIndex : List EvidenceRec := []
  trace : List TraceEv := []
  files : Fs := []
deriving DecidableEq

/-- Take a timestamp (`nowIso()`). -/
def tick (env : PageEnv) (st : RunState) : String × RunState :=
  (env.now st.clock, { st with clock := st.clock + 1 })

def pushConsole (st : RunState) (ev : JTree) : RunState :=
  { st with consoleLog := st.consoleLog ++ [ev] }

def pushLog (st : RunState) (e : LogEntry) : RunState :=
  { st with interactionLog := st.interactionLog ++ [e] }

def pushTrace (st : RunState) (e : TraceEv) : RunState :=
  { st with trace := st.trace ++ [e] }

/-- The errors a step can raise (the spec's error taxonomy maps onto
these: `notFound` is `NotFoundError`, `ambiguity` is `AmbiguityError`,
`policyViolation` is `PolicyViolation`, `unstable`/`noVisibleMatch` are
`StabilityError`, provider failures are `ActionError`, and the goal
constructors are `GoalError`).  Each carries the data its source
message interpolates. -/
inductive ExecErr where
  | policyViolation (msg : String)
  | missingSelector (what : String)
  | notFound (selector : String)
  | ambiguity (selector : String) (count : Nat)
  | unstable (selector : String) (first final : Nat)
  | noVisibleMatch (selector : String) (count : Nat)
  | providerError (msg : String)
  | missingText (what : String)
  | textNotFound (t : String)
  | urlMismatch (expected got : String)
  | unknownType (t : String)
  | goalAmbiguity (selector : String) (count : Nat)
  | goalMismatch (selector : String) (expectation : String) (count : Nat)
deriving DecidableEq

/-- The message string of each thrown `Error`, as built by the source. -/
def execErrMessage : ExecErr → String
  | .policyViolation m => m
  | .missingSelector w => w
  | .notFound sel => "Selector \"" ++ sel ++ "\" not found (0 matches)."
  | .ambiguity sel c =>
    "Ambiguity Error: Selector \"" ++ sel ++ "\" matched " ++ natStr c ++
      " elements (final count). Execution halted to prevent arbitrary interaction."
  | .unstable sel a b =>
    "wait_selector stability requirement not met: Selector \"" ++ sel ++
      "\" count changed during stabilization window (first=" ++ natStr a ++
      ", final=" ++ natStr b ++ ")."
  | .noVisibleMatch sel c =>
    "wait_selector allow_multiple_matches requires at least one visible match. Selector \"" ++
      sel ++ "\" had " ++ natStr c ++ " stable attached matches, visible matches = 0."
  | .providerError m => m
  | .missingText w => w
  | .textNotFound t => "Timed out waiting for text: " ++ t
  | .urlMismatch e g => "URL mismatch. Expected \"" ++ e ++ "\", got \"" ++ g ++ "\""
  | .unknownType t => "Unknown step type: " ++ t
  | .goalAmbiguity sel c =>
    "Goal Failed: Selector \"" ++ sel ++ "\" matched " ++ natStr c ++ " elements (ambiguity)."
  | .goalMismatch sel e c =>
    "Goal Failed: Selector \"" ++ sel ++ "\" did not match expectation \"" ++ e ++
      "\" (Final Count: " ++ natStr c ++ ")"

/-! ## Selector stabilization, strict resolution and `wait_selector`
(ect.js:586-727) -/

/-- The two samples of a stabilization window. -/
structure Sample where
  first : Nat
  final : Nat
deriving DecidableEq

/-- Is the sample unstable? -/
def Sample.unstable (s : Sample) : Bool := s.first ≠ s.final

/-- `stabilizedCount`: a best-effort attached wait (no observable
effect), a first count, a fixed 150 ms window, a second count; on
disagreement log an instability console event and an `instability_log`
interaction entry, but do not fail. -/
def stabilizedCount (env : PageEnv) (st : RunState) (sel : String) (aid : String) :
    Sample × RunState :=
  let c1 := env.counts sel st.reads
  let c2 := env.counts sel (st.reads + 1)
  let st := { st with reads := st.reads + 2 }
  let sample : Sample := ⟨c1, c2⟩
  if c1 ≠ c2 then
    let (ts1, st) := tick env st
    let st := pushConsole st (.jobj
      [("timestamp_utc", .jstr ts1), ("type", .jstr "selector_instability"),
       ("selector", .jstr sel), ("first_count", .jnum c1), ("final_count", .jnum c2),
       ("window_ms", .jnum STABILIZE_MS)])
    let (ts2, st) := tick env st
    let st := pushLog st
      { step_index := .num st.stepIndex, allegation_id := aid,
        action := "instability_log", result := "info", error_message := none,
        note := some ("Selector instability logged. selector=\"" ++ sel ++ "\" first=" ++
          natStr c1 ++ " final=" ++ natStr c2 ++ " window_ms=" ++ natStr STABILIZE_MS),
        url := env.url, timestamp_utc := ts2 }
    (sample, st)
  else (sample, st)

/-- `strictSingle`: decide on the final sample; 0 matches is a
`NotFoundError`, more than one an `AmbiguityError`; exactly one match
resolves to the first (only) element. -/
def strictSingle (env : PageEnv) (st : RunState) (sel : Option String) (aid : String) :
    Except ExecErr String × RunState :=
  match sel with
  | none => (.error (.missingSelector "Step requires selector"), st)
  | some sel =>
    let (sample, st) := stabilizedCount env st sel aid
    if sample.final = 0 then (.error (.notFound sel), st)
    else if sample.final > 1 then (.error (.ambiguity sel sample.final), st)
    else (.ok sel, pushTrace st (.resolvedOne sel))

/-- `anyVisibleMatch`: bounded best-effort visibility check over at most
`maxToCheck` matched elements. -/
def anyVisibleMatch (env : PageEnv) (st : RunState) (sel : String) (maxToCheck : Nat) :
    Bool × RunState :=
  let c := env.counts sel st.reads
  let st := { st with reads := st.reads + 1 }
  ((List.range (min c maxToCheck)).any (env.visible sel), st)

/-- `waitSelector` (ect.js:657-727).  Without the override flag this is
strict resolution plus a visibility wait.  With the flag: zero matches
still fails; a policy-override audit event (console + interaction log)
records the selector, observed count and stability classification; the
count must be stable across the window and at least one match visible. -/
def waitSelector (env : PageEnv) (st : RunState) (sel : Option String) (timeout : Nat)
    (allowMultiple : Bool) (aid : String) : Except ExecErr Unit × RunState :=
  match sel with
  | none => (.error (.missingSelector "wait_selector requires selector"), st)
  | some sel =>
    if ¬ allowMultiple then
      match strictSingle env st (some sel) aid with
      | (.error e, st) => (.error e, st)
      | (.ok loc, st) =>
        if env.waitVisibleOk loc then (.ok (), st)
        else (.error (.providerError (env.errWaitVisible loc)), st)
    else
      let (sample, st) := stabilizedCount env st sel aid
      if sample.final = 0 then (.error (.notFound sel), st)
      else
        let stabilityText :=
          if sample.unstable then
            "unstable (" ++ natStr sample.first ++ " -> " ++ natStr sample.final ++ ")"
          else "stable"
        let (ts1, st) := tick env st
        let st := pushConsole st (.jobj
          [("timestamp_utc", .jstr ts1), ("type", .jstr "policy_override"),
           ("override_type", .jstr "wait_selector_allow_multiple_matches"),
           ("step_index", .jnum st.stepIndex), ("allegation_id", .jstr aid),
           ("selector", .jstr sel), ("observed_count", .jnum sample.final),
           ("stability", .jstr stabilityText)])
        let (ts2, st) := tick env st
        let st := pushLog st
          { step_index := .num st.stepIndex, allegation_id := aid,
            action := "policy_override", result := "info", error_message := none,
            note := some ("wait_selector override used (allow_multiple_matches:true). selector=\"" ++
              sel ++ "\" final_count=" ++ natStr sample.final ++ " stability=\"" ++
              stabilityText ++ "\""),
            url := env.url, timestamp_utc := ts2 }
        if sample.unstable then (.error (.unstable sel sample.first sample.final), st)
        else
          let (vis, st) := anyVisibleMatch env st sel 25
          if ¬ vis then (.error (.noVisibleMatch sel sample.final), st)
          else (.ok (), st)

/-! ## Step execution (ect.js:729-811) -/

/-- Does the needle occur at the head of the haystack? -/
def startsWithL : List Char → List Char → Bool
  | [], _ => true
  | _ :: _, [] => false
  | a :: as, b :: bs => a == b && startsWithL as bs

/-- `String.prototype.includes`. -/
def containsSub (needle : List Char) : List Char → Bool
  | [] => startsWithL needle []
  | hay@(_ :: rest) => startsWithL needle hay || containsSub needle rest

/-- Attempt one provider action: record the attempt, succeed or raise
an `ActionError` with the provider's message. -/
def doAction (env : PageEnv) (st : RunState) (a : PageAction) :
    Except ExecErr Unit × RunState :=
  let st := pushTrace st (.acted a)
  if env.actionOk a then (.ok (), st)
  else (.error (.providerError (env.errAction a)), st)

/-- `tab`: `count` presses of the Tab key. -/
def tabPresses (env : PageEnv) (st : RunState) : Nat → Except ExecErr Unit × RunState
  | 0 => (.ok (), st)
  | n + 1 =>
    match doAction env st (.keyPress "Tab") with
    | (.ok _, st) => tabPresses env st n
    | (.error e, st) => (.error e, st)

/-- `executeStep(s)`: the two per-step policy re-validations (the
override flag is legal only on `wait_selector`; `goal_text` is banned),
then the per-type behaviour. -/
def executeStep (env : PageEnv) (st : RunState) (s : Step) :
    Except ExecErr Unit × RunState :=
  let t := stepTypeStr s
  let sel := selOf s
  let timeout := tmOf s
  let aidRaw := canonicalAllegationId s.allegation_id
  if s.allow_multiple_matches ≠ none ∧ t ≠ "wait_selector" then
    (.error (.policyViolation
      ("Policy Violation: allow_multiple_matches is only permitted for wait_selector. Found on step type \"" ++
        t ++ "\".")), st)
  else if s.goal_text ≠ none ∧ s.goal_text ≠ some .vNull then
    (.error (.policyViolation
      "Policy Violation: goal_text is forbidden in this protocol version. Remove goal_text from steps."), st)
  else if t = "wait_selector" then
    let allowMulti := s.allow_multiple_matches = some (.vBool true)
    waitSelector env st sel timeout allowMulti aidRaw
  else if t = "click_selector" then
    match strictSingle env st sel aidRaw with
    | (.error e, st) => (.error e, st)
    | (.ok loc, st) => doAction env st (.click loc)
  else if t = "type_selector" ∨ t = "fill" then
    match strictSingle env st sel aidRaw with
    | (.error e, st) => (.error e, st)
    | (.ok loc, st) =>
      let v := match s.text with
        | some tx => tx
        | none => s.val.getD ""
      doAction env st (.fillAct loc v)
  else if t = "press" then
    let k := match s.key with
      | some kk => if kk = "" then "Enter" else kk
      | none => "Enter"
    doAction env st (.keyPress k)
  else if t = "tab" then
    let n := match s.count with
      | some c => if c = 0 then 1 else c
      | none => 1
    tabPresses env st n
  else if t = "scroll" then
    let dy := match s.deltaY with
      | some d => if d = 0 then 500 else d
      | none => 500
    doAction env st (.wheel dy)
  else if t = "assert_text_present" then
    let tx := s.text.getD ""
    if tx = "" then (.error (.missingText "assert_text_present requires text"), st)
    else if env.textPresent tx then (.ok (), st)
    else (.error (.textNotFound tx), st)
  else if t = "assert_url_contains" then
    let expected := s.text.getD ""
    if expected = "" then (.error (.missingText "assert_url_contains requires text"), st)
    else if containsSub expected.data env.url.data then (.ok (), st)
    else (.error (.urlMismatch expected env.url), st)
  else (.error (.unknownType t), st)

/-- `captureEvidence(label, allegationId)` (ect.js:519-584): a
screenshot into the allegation's exhibit folder (failure logged, not
fatal), raw HTML / AX captures into the raw archive (outside the
deliverable), and an evidence-index record. -/
def captureEvidence (env : PageEnv) (st : RunState) (label : Option String)
    (aidRaw : String) : RunState :=
  let aid := canonicalAllegationId (some aidRaw)
  let folder := canonicalFolderForAllegation (some aid)
  let stepStr := pad3 st.stepIndex
  let name := "screenshot_step_" ++ stepStr ++ ".png"
  let rel := "02_Exhibits/" ++ folder ++ "/" ++ name
  let st :=
    if env.screenshotOk st.stepIndex then
      { st with files := fsWrite st.files rel (env.screenshotBytes st.stepIndex) }
    else
      let (ts, st) := tick env st
      pushConsole st (.jobj
        [("timestamp_utc", .jstr ts), ("type", .jstr "evidence_error"),
         ("message", .jstr ("Screenshot failed: " ++ env.screenshotErr st.stepIndex))])
  let relHtml := if env.htmlOk st.stepIndex then
      some ("_raw/screenshots/html/step_" ++ stepStr ++ ".html") else none
  let st :=
    if env.htmlOk st.stepIndex then st
    else
      let (ts, st) := tick env st
      pushConsole st (.jobj
        [("timestamp_utc", .jstr ts), ("type", .jstr "evidence_error"),
         ("message", .jstr "HTML capture failed: capture error")])
  let relAx := some ("_raw/screenshots/ax/step_" ++ stepStr ++ ".json")
  let (ts, st) := tick env st
  { st with evidenceIndex := st.evidenceIndex ++
      [{ step_index := st.stepIndex, allegation_id := aid, folder := folder,
         label := label, filename := name, rel_path := rel,
         raw_html := relHtml, raw_ax := relAx, timestamp_utc := ts }] }

/-- One iteration of the `for (const s of flow.steps)` loop
(ect.js:857-888): bump the step index, sanitize the note (emitting the
redaction audit event if anything was redacted), execute, always
capture evidence, append the interaction-log entry, and report the
step's error if any. -/
def runStep (env : PageEnv) (st : RunState) (s : Step) : RunState × Option ExecErr :=
  let st := { st with stepIndex := st.stepIndex + 1 }
  let aidRaw := canonicalAllegationId s.allegation_id
  let original := noteOf s
  let sanitized := sanitizeNote original
  let st :=
    if sanitized.2 then
      let (ts, st) := tick env st
      pushConsole st (.jobj
        [("timestamp_utc", .jstr ts), ("type", .jstr "compliance_redaction"),
         ("message", .jstr "A note contained banned inference terminology and was redacted."),
         ("original_length", .jnum ((original.getD "").length))])
    else st
  let (res, st) := executeStep env st s
  let st := captureEvidence env st
    (some (if stepTypeStr s = "" then "step" else stepTypeStr s)) aidRaw
  let (ts, st) := tick env st
  let stepErr := match res with
    | .ok _ => none
    | .error e => some e
  let st := pushLog st
    { step_index := .num st.stepIndex, allegation_id := aidRaw,
      action := stepTypeStr s,
      result := if stepErr.isSome then "error" else "success",
      error_message := stepErr.map execErrMessage,
      note := sanitized.1, url := env.url, timestamp_utc := ts }
  (st, stepErr)

/-- The step loop: strictly sequential, halting at the first failing
step (the loop body rethrows, so later steps never execute). -/
def runPlanSteps (env : PageEnv) (st : RunState) :
    List Step → RunState × Option String
  | [] => (st, none)
  | s :: rest =>
    match runStep env st s with
    | (st, some e) =>
      (st, some ("Failed at step " ++ natStr st.stepIndex ++ ": " ++ execErrMessage e))
    | (st, none) => runPlanSteps env st rest

/-- The optional terminal goal check (ect.js:891-948): strict
stabilized count on `goal_selector`; ambiguity (>1) is distinct from an
expectation mismatch; evidence files keep the numeric index while the
log entry uses `"GOAL"`. -/
def runGoalPhase (env : PageEnv) (flow : Flow) (st : RunState) :
    RunState × Option String :=
  match flow.goal_selector with
  | none => (st, none)
  | some gsel =>
    if flow.goal_text ≠ .vUndef ∧ flow.goal_text ≠ .vNull then
      (st, some "Policy Violation: goal_text is forbidden in this protocol version.")
    else
      let st := { st with stepIndex := st.stepIndex + 1 }
      let expectation := jsToLowerCase ((fun e => if e = "" then "present" else e)
        (flow.goal_expectation.getD ""))
      let goalLabel := match flow.goal with
        | some g => if g = "" then "Goal Verification" else g
        | none => "Goal Verification"
      let (sample, st) := stabilizedCount env st gsel "GEN"
      let goalErr : Option ExecErr :=
        if sample.final > 1 then some (.goalAmbiguity gsel sample.final)
        else if ¬ ((expectation = "present" ∧ sample.final = 1) ∨
                   (expectation = "absent" ∧ sample.final = 0)) then
          some (.goalMismatch gsel expectation sample.final)
        else none
      let st := captureEvidence env st (some goalLabel) "GEN"
      let (ts, st) := tick env st
      let st := pushLog st
        { step_index := .goal, allegation_id := "GEN", action := "verify_goal",
          result := if goalErr.isSome then "error" else "success",
          error_message := goalErr.map execErrMessage,
          note := flow.goal.map (fun g => "Goal: " ++ g),
          url := env.url, timestamp_utc := ts }
      (st, goalErr.map execErrMessage)

/-! ## Persisted artifacts: JSON encodings, report, banner, README -/

def optStrTree : Option String → JTree
  | none => .jnull
  | some s => .jstr s

def stepIxTree : StepIx → JTree
  | .num n => .jnum n
  | .goal => .jstr "GOAL"

/-- The JSON object an interaction-log entry is written as
(field insertion order as in the source's object literals). -/
def logEntryTree (e : LogEntry) : JTree :=
  .jobj [("step_index", stepIxTree e.step_index), ("allegation_id", .jstr e.allegation_id),
         ("action", .jstr e.action), ("result", .jstr e.result),
         ("error_message", optStrTree e.error_message), ("note", optStrTree e.note),
         ("url", .jstr e.url), ("timestamp_utc", .jstr e.timestamp_utc)]

/-- The JSON object an evidence-index record is written as. -/
def evidenceRecTree (e : EvidenceRec) : JTree :=
  .jobj [("step_index", .jnum e.step_index), ("allegation_id", .jstr e.allegation_id),
         ("folder", .jstr e.folder), ("label", optStrTree e.label),
         ("filename", .jstr e.filename), ("rel_path", .jstr e.rel_path),
         ("raw_html", optStrTree e.raw_html), ("raw_ax", optStrTree e.raw_ax),
         ("timestamp_utc", .jstr e.timestamp_utc)]

/-- `runMetadata` as written to `03_Verification/run_metadata.json`. -/
def runMetadataTree (env : PageEnv) (runId protocolVersion flowId startUrl captureMode
    startedAt : String) (finishedAt : Option String) (status : String)
    (error : Option String) (chromium : Option String) : JTree :=
  .jobj
    [("run_id", .jstr runId), ("protocol_version", .jstr protocolVersion),
     ("flow_id", .jstr flowId), ("start_url", .jstr startUrl),
     ("capture_mode", .jstr captureMode), ("started_at_utc", .jstr startedAt),
     ("finished_at_utc", optStrTree finishedAt), ("status", .jstr status),
     ("error", optStrTree error), ("retain_raw_policy", .jbool RETAIN_RAW),
     ("raw_retention_days", .jnum RAW_RETENTION_DAYS),
     ("quality_gate", .jobj
       [("capture_mode", .jstr captureMode),
        ("passive_allowed_steps", .jarr (PASSIVE_ALLOWED_STEPS.map .jstr)),
        ("interactive_steps", .jarr (INTERACTIVE_STEPS.map .jstr))]),
     ("stabilization", .jobj
       [("window_ms", .jnum STABILIZE_MS),
        ("policy", .jstr "Log instability, decide on final count, do not fail solely due to change (except where explicitly required).")]),
     ("environment", .jobj (env.envMetaPre ++
       [("chromium_version", optStrTree chromium)] ++ env.envMetaPost))]

/-- The `00_README.txt` text. -/
def readmeText : String :=
  String.intercalate "\n"
    ["EVIDENCE PACKET INSTRUCTIONS", "",
     "1. Integrity Verification",
     "   Calculate the SHA-256 hash of '03_Verification/manifest.json'.",
     "   Compare it to the content of '03_Verification/packet_hash.txt'.",
     "   They must match exactly.", "",
     "2. Contents",
     "   01_Report: Factual execution report and logs.",
     "   02_Exhibits: Screenshots grouped by allegation folder.",
     "   03_Verification: Cryptographic sealing data (manifest + packet hash + status banner).", "",
     "3. Native Artifacts",
     "   Native forensic files (HAR, Trace, Video, HTML, AX) are preserved separately in the '_raw' archive",
     "   for " ++ natStr RAW_RETENTION_DAYS ++ " days. Release requires a separate engagement.", "",
     "4. Status Banner",
     "   '03_Verification/STATUS.txt' is informational and not required for hash verification.", ""]

/-- The `03_Verification/STATUS.txt` banner. -/
def statusBanner (status captureMode runId startedAt finishedAt : String)
    (error : Option String) : String :=
  String.intercalate "\n"
    ["RUN STATUS: " ++ jsToUpperCase status,
     "CAPTURE MODE: " ++ jsToUpperCase captureMode,
     "RUN ID: " ++ runId,
     "START (UTC): " ++ startedAt,
     "END (UTC): " ++ finishedAt,
     (match error with
      | some e => "ERROR: " ++ e
      | none => "ERROR: (none)"),
     "",
     "NOTE: This file is informational and is not required for integrity verification.",
     "Integrity verification is performed using manifest.json and packet_hash.txt only.",
     ""]

/-- Displayed index: `pad3` for numbers, the raw label (`"GOAL"`)
otherwise. -/
def ixDisplay : StepIx → String
  | .num n => pad3 n
  | .goal => "GOAL"

/-- First-occurrence-order deduplication (JS `Map` key order). -/
def uniqAux (seen : List String) : List String → List String
  | [] => []
  | x :: xs => if seen.contains x then uniqAux seen xs else x :: uniqAux (x :: seen) xs

/-- `renderExecutionReportTxt` (ect.js:222-323). -/
def renderExecutionReportTxt (env : PageEnv) (protocolVersion runId : String) (flow : Flow)
    (captureMode startedAt finishedAt : String) (status : String) (error : Option String)
    (interactionLog : List LogEntry) (evidenceIndex : List EvidenceRec) : String :=
  let statusText := if status = "success" then "SUCCESS" else "INCOMPLETE/ERROR"
  let allegationOrder :=
    (flow.allegations.map (fun a => canonicalAllegationId a.id)).filter (· ≠ "")
  let labelFor := fun (aid : String) =>
    match (flow.allegations.filter (fun a => canonicalAllegationId a.id = aid)).getLast? with
    | some a => a.label.getD ""
    | none => ""
  let allKeys := uniqAux [] (interactionLog.map (·.allegation_id))
  let o1 := allegationOrder.filter (fun a => allKeys.contains a)
  let o2 := if allKeys.contains "GEN" ∧ ¬ o1.contains "GEN" then o1 ++ ["GEN"] else o1
  let ordered := o2 ++ allKeys.filter (fun k => ¬ o2.contains k)
  let overrides := interactionLog.filter (fun e => e.action = "policy_override")
  let headerLines :=
    ["Record of Procedural Execution",
     "Protocol Version: " ++ protocolVersion, "",
     "1.0 Execution Context",
     "This document records a mechanical procedural execution against the target website.",
     "No legal analysis, interpretation, or opinion is expressed herein.", "",
     "Run ID:\t" ++ runId,
     "Flow ID:\t" ++ flow.flow_id.getD "",
     "Target URL:\t" ++ flow.start_url.getD "",
     "Capture Mode:\t" ++ jsToUpperCase captureMode,
     "Start Time (UTC):\t" ++ startedAt,
     "End Time (UTC):\t" ++ finishedAt,
     "Final Status:\t" ++ statusText] ++
    (match error with
     | some e => ["Error Detail:\t" ++ e]
     | none => []) ++ [""]
  let overrideLines :=
    ["1.1 Policy Overrides"] ++
    (if overrides.isEmpty then ["None recorded."]
     else "The following explicit plan-directed overrides were recorded:" ::
       overrides.map (fun o =>
         jsTrim ("- Step " ++ ixDisplay o.step_index ++ ": " ++ o.note.getD ""))) ++ [""]
  let stepsLines :=
    ["2.0 Record of Steps (Grouped by Allegation)",
     "Each entry records the action taken and the observable outcome.", ""] ++
    (ordered.map (fun aid =>
      let entries := interactionLog.filter (fun e => e.allegation_id = aid)
      if entries.isEmpty then []
      else
        let label := labelFor aid
        let header := if aid = "GEN" then "GEN (General)"
          else aid ++ (if label = "" then "" else " (" ++ label ++ ")")
        ("ALLEGATION BUCKET: " ++ header) ::
          entries.map (fun e =>
            "[" ++ ixDisplay e.step_index ++ "] Action: " ++ e.action ++ " | Result: " ++
              e.result ++
              (match e.note with
               | some n => " | Note: " ++ n
               | none => "") ++
              (match e.error_message with
               | some m => " | Error: " ++ m
               | none => "")) ++ [""])).flatten
  let exhibitLines :=
    ["3.0 Exhibit Inventory",
     "Screenshots were captured as part of the execution record. Exhibits are grouped by allegation folder.",
     ""] ++
    evidenceIndex.map (fun ev =>
      "[" ++ canonicalAllegationId (some ev.allegation_id) ++ "] Step " ++
        pad3 ev.step_index ++ ": " ++ ev.rel_path) ++
    ["", "4.0 Verification", "Hash verification instructions are provided in 00_README.txt.", ""]
  String.intercalate "\n" (headerLines ++ overrideLines ++ stepsLines ++ exhibitLines)

/-! ## Sealing pipeline (ect.js:1044-1066)

The walk collects every file under the deliverable root (the two seal
outputs do not exist yet when the walk runs), then the entries are
sorted with `localeCompare` on the path, canonically serialized, and
the packet hash of the manifest's exact bytes is written,
newline-terminated. -/

/-- Comparator of `manifest.files.sort((a, b) => a.path.localeCompare(b.path))`. -/
def fileLe (a b : FsFile) : Prop := jsLocaleLe a.path b.path = true

instance : DecidableRel fileLe := fun a b => by
  unfold fileLe; infer_instance

/-- One `{path, sha256, size_bytes}` manifest entry. -/
def manifestFileEntry (f : FsFile) : JTree :=
  .jobj [("path", .jstr f.path), ("sha256", .jstr (sha256Hex f.content)),
         ("size_bytes", .jnum f.content.length)]

/-- The manifest object: `{run_id, created_at_utc, files}` with the
walked entries sorted by path. -/
def manifestTree (runId createdAt : String) (walk : Fs) : JTree :=
  .jobj [("run_id", .jstr runId), ("created_at_utc", .jstr createdAt),
         ("files", .jarr ((List.insertionSort fileLe walk).map manifestFileEntry))]

/-- Serialize the manifest canonically and write the two seal files. -/
def sealPacket (runId createdAt : String) (walk : Fs) : Fs × String × String :=
  let mStr := stableStringifyT (manifestTree runId createdAt walk)
  let pHash := sha256Hex (utf8Encode mStr)
  (fsWrite (fsWrite walk "03_Verification/manifest.json" (utf8Encode mStr))
     "03_Verification/packet_hash.txt" (utf8Encode (pHash ++ "\n")),
   mStr, pHash)

/-- Relation "path `a` sorts no later than path `b`" under the
executor's comparator. -/
def pathLe (a b : String) : Prop := jsLocaleLe a b = true

instance : DecidableRel pathLe := fun a b => by unfold pathLe; infer_instance

instance : IsTotal String pathLe := ⟨jsLocaleLe_total⟩

instance : IsTrans String pathLe := ⟨fun _ _ _ => jsLocaleLe_trans⟩

instance : IsAntisymm String pathLe := ⟨fun _ _ => jsLocaleLe_antisymm⟩

instance : IsTotal FsFile fileLe := ⟨fun a b => jsLocaleLe_total a.path b.path⟩

instance : IsTrans FsFile fileLe := ⟨fun _ _ _ => jsLocaleLe_trans⟩

/-- Read a field of a JSON object. -/
def objGet (k : String) : JTree → Option JTree
  | .jobj fs => (fs.find? (fun f => f.1 = k)).map (·.2)
  | _ => none

/-- The `files` array of a manifest object. -/
def manifestFilesArr (m : JTree) : List JTree :=
  match objGet "files" m with
  | some (.jarr es) => es
  | _ => []

/-- The `path` fields of a manifest's `files` array, in array order. -/
def manifestFilesPaths (m : JTree) : List String :=
  (manifestFilesArr m).map (fun e =>
    match objGet "path" e with
    | some (.jstr p) => p
    | _ => "")

theorem fsRead_map_same (fs : Fs) (p : String) (b : Bytes) :
    fsRead (fs.map (fun f => if f.path = p then ⟨p, b⟩ else f)) p =
      if fs.any (fun f => f.path = p) then some b else none := by
  induction fs with
  | nil => simp [fsRead]
  | cons f fs ih =>
    by_cases hf : f.path = p
    · simp [fsRead, List.find?, hf]
    · simp only [List.map_cons, if_neg hf, fsRead, List.find?, List.any_cons] at ih ⊢
      simp only [hf, decide_eq_true_eq, if_neg hf]
      simp only [decide_False, Bool.false_or]
      exact ih
  
theorem fsRead_append_one (fs : Fs) (p : String) (b : Bytes)
    (h : fs.any (fun f => f.path = p) = false) :
    fsRead (fs ++ [⟨p, b⟩]) p = some b := by
  induction fs with
  | nil => simp [fsRead, List.find?]
  | cons f fs ih =>
    simp only [List.any_cons, Bool.or_eq_false_iff, decide_eq_false_iff_not] at h
    simp only [List.cons_append, fsRead, List.find?]
    simp only [h.1, decide_False]
    exact ih (by simp [h.2])

theorem fsRead_fsWrite_same (fs : Fs) (p : String) (b : Bytes) :
    fsRead (fsWrite fs p b) p = some b := by
  unfold fsWrite
  split
  · rename_i hany
    rw [fsRead_map_same, if_pos (by simpa using hany)]
  · rename_i hnone
    exact fsRead_append_one fs p b (by simpa using hnone)

theorem fsRead_map_other (fs : Fs) (p q : String) (b : Bytes) (h : q ≠ p) :
    fsRead (fs.map (fun f => if f.path = p then ⟨p, b⟩ else f)) q = fsRead fs q := by
  induction fs with
  | nil => simp [fsRead]
  | cons f fs ih =>
    by_cases hf : f.path = p
    · have hq : ¬ f.path = q := by rw [hf]; exact fun hh => h hh.symm
      simp only [List.map_cons, if_pos hf, fsRead, List.find?] at ih ⊢
      have : ¬ (p = q) := fun hh => h hh.symm
      simp only [this, hq, decide_False]
      exact ih
    · simp only [List.map_cons, if_neg hf, fsRead, List.find?] at ih ⊢
      by_cases hq : f.path = q
      · simp [hq]
      · simp only [hq, decide_False]
        exact ih

theorem fsRead_append_other (fs : Fs) (p q : String) (b : Bytes) (h : q ≠ p) :
    fsRead (fs ++ [⟨p, b⟩]) q = fsRead fs q := by
  induction fs with
  | nil =>
    have : ¬ (p = q) := fun hh => h hh.symm
    simp [fsRead, List.find?, this]
  | cons f fs ih =>
    simp only [List.cons_append, fsRead, List.find?] at ih ⊢
    by_cases hq : f.path = q
    · simp [hq]
    · simp only [hq, decide_False]
      exact ih

theorem fsRead_fsWrite_other (fs : Fs) (p q : String) (b : Bytes) (h : q ≠ p) :
    fsRead (fsWrite fs p b) q = fsRead fs q := by
  unfold fsWrite
  split
  · exact fsRead_map_other fs p q b h
  · exact fsRead_append_other fs p q b h

/-- The lowercase hexadecimal alphabet. -/
def hexAlphabet : List Char := "0123456789abcdef".data

theorem hexDigitChar_mem {n : Nat} (h : n < 16) : hexDigitChar n ∈ hexAlphabet := by
  interval_cases n <;> decide

/-- Every character of a `sha256Hex` digest is a lowercase hex digit. -/
theorem sha256Hex_lowercase (msg : Bytes) :
    ∀ c ∈ (sha256Hex msg).data, c ∈ hexAlphabet := by
  intro c hc
  simp only [sha256Hex, String.mk, List.mem_flatten] at hc
  obtain ⟨l, hl, hcl⟩ := hc
  simp only [List.mem_map] at hl
  obtain ⟨b, _, rfl⟩ := hl
  simp only [byteHex, List.mem_cons, List.mem_singleton] at hcl
  rcases hcl with rfl | rfl | h
  · exact hexDigitChar_mem (Nat.mod_lt _ (by norm_num))
  · exact hexDigitChar_mem (Nat.mod_lt _ (by norm_num))
  · exact absurd h (List.not_mem_nil c)

/-- Hex digits encode to single UTF-8 bytes other than the newline. -/
theorem utf8_hex_no_newline (s : String) (h : ∀ c ∈ s.data, c ∈ hexAlphabet) :
    10 ∉ utf8Encode s := by
  intro hmem
  simp only [utf8Encode, List.mem_flatten] at hmem
  obtain ⟨l, hl, h10⟩ := hmem
  simp only [List.mem_map] at hl
  obtain ⟨c, hc, rfl⟩ := hl
  have := h c hc
  fin_cases this <;> simp_all [utf8Char]

theorem utf8Encode_append (a b : String) :
    utf8Encode (a ++ b) = utf8Encode a ++ utf8Encode b := by
  simp [utf8Encode, String.data_append]

theorem utf8Encode_newline : utf8Encode "\n" = [10] := by decide

/-! ## `main` (ect.js:329-1074) -/

/-- The result of a run that got past the load gate: always a sealed
deliverable. -/
structure SealedRun where
  runId : String
  status : String
  runError : Option String
  state : RunState
  files : Fs
  manifestStr : String
  packetHash : String
  exitCode : Nat

/-- A whole invocation: either a load-time fatal exit (no run directory,
no browser) or a sealed run. -/
inductive MainResult where
  | fatal (e : LoadErr)
  | sealed (r : SealedRun)

/-- Is this invocation a fatal load-time exit? -/
def MainResult.isFatal : MainResult → Bool
  | .fatal _ => true
  | .sealed _ => false

/-- Write a file into the run state's deliverable tree. -/
def stWrite (st : RunState) (p : String) (b : Bytes) : RunState :=
  { st with files := fsWrite st.files p b }

/-- The try-block of `main` after setup: launch, navigate (step 001),
run the plan steps, run the goal check; returns the final status, the
run error, and the state.  Any failure stops the phase with status
`"error"`, and control always proceeds to the finally-phase. -/
def runPhase (env : PageEnv) (flow : Flow) (steps : List Step) (st : RunState) :
    String × Option String × RunState :=
  if ¬ env.launchOk then ("error", some env.launchErr, st)
  else if ¬ env.gotoOk then ("error", some env.gotoErr, { st with stepIndex := 1 })
  else
    let st := { st with stepIndex := 1 }
    let st := captureEvidence env st (some "Initial Load") "GEN"
    let (ts, st) := tick env st
    let st := pushLog st
      { step_index := .num 1, allegation_id := "GEN", action := "goto",
        result := "success", error_message := none, note := none,
        url := env.url, timestamp_utc := ts }
    match runPlanSteps env st steps with
    | (st, some err) => ("error", some err, st)
    | (st, none) =>
      match runGoalPhase env flow st with
      | (st, some gerr) => ("error", some gerr, st)
      | (st, none) => ("success", none, st)

/-- The finally-phase (ect.js:954-1073): finalize metadata, write the
status banner, the logs, the report — then walk the deliverable tree,
seal it, and exit non-zero iff the run errored.  This phase is
reachable from every exit of the try-block. -/
def finalizePhase (env : PageEnv) (flow : Flow) (runId protocolVersion captureMode
    startedAt : String) (chromium : Option String) (status : String)
    (runError : Option String) (st : RunState) : SealedRun :=
  let (finishedAt, st) := tick env st
  let st := stWrite st "03_Verification/STATUS.txt"
    (utf8Encode (statusBanner status captureMode runId startedAt finishedAt runError))
  let st := stWrite st "01_Report/interaction_log.json"
    (utf8Encode (writeJsonStr (.jarr (st.interactionLog.map logEntryTree))))
  let st := stWrite st "01_Report/evidence_index.json"
    (utf8Encode (writeJsonStr (.jarr (st.evidenceIndex.map evidenceRecTree))))
  let overrides := st.interactionLog.filter (fun e => e.action = "policy_override")
  let st := stWrite st "01_Report/policy_overrides.json"
    (utf8Encode (writeJsonStr (.jarr (overrides.map logEntryTree))))
  let st := stWrite st "03_Verification/console.json"
    (utf8Encode (writeJsonStr (.jarr st.consoleLog)))
  let st := stWrite st "03_Verification/run_metadata.json"
    (utf8Encode (writeJsonStr (runMetadataTree env runId protocolVersion
      (flow.flow_id.getD "") (flow.start_url.getD "") captureMode startedAt
      (some finishedAt) status runError chromium)))
  let st := stWrite st "01_Report/Execution_Report.txt"
    (utf8Encode (renderExecutionReportTxt env protocolVersion runId flow captureMode
      startedAt finishedAt status runError st.interactionLog st.evidenceIndex))
  let (createdAt, st) := tick env st
  let (files2, mStr, pHash) := sealPacket runId createdAt st.files
  { runId := runId, status := status, runError := runError,
    state := { st with files := files2 }, files := files2,
    manifestStr := mStr, packetHash := pHash,
    exitCode := if status = "error" then 1 else 0 }

/-- The whole executor `main`: load gate (fatal exits), setup writes,
the try-phase, and the unconditional finally-phase sealing. -/
def runMain (env : PageEnv) (flow : Flow) : MainResult :=
  match loadGate flow with
  | .error e => .fatal e
  | .ok (captureMode, steps) =>
    let protocolVersion := match flow.protocol_version with
      | some p => if p = "" then "SKU-A v3.5 (Hardened, Locked)" else p
      | none => "SKU-A v3.5 (Hardened, Locked)"
    let timestamp := String.mk
      (env.startIso.data.filter (fun c => ¬ (c = '-' ∨ c = ':' ∨ c = '.')))
    let caseLabel := match flow.case_label with
      | some c => if c = "" then "case" else c
      | none => "case"
    let runId := timestamp ++ "_" ++ safeToken (some caseLabel) ++ "_" ++
      safeToken flow.flow_id
    let st : RunState := {}
    let (startedAt, st) := tick env st
    let st := stWrite st "03_Verification/run_metadata.json"
      (utf8Encode (writeJsonStr (runMetadataTree env runId protocolVersion
        (flow.flow_id.getD "") (flow.start_url.getD "") captureMode startedAt
        none "running" none none)))
    let st := stWrite st "00_README.txt" (utf8Encode readmeText)
    let chromium := if env.launchOk then some env.chromiumVersion else none
    let pr := runPhase env flow steps st
    .sealed (finalizePhase env flow runId protocolVersion captureMode startedAt
      chromium pr.1 pr.2.1 pr.2.2)

/-- A concrete provider used to witness the engine theorems on closed
inputs. -/
def wEnv : PageEnv where
  now := fun n => "T" ++ natStr n
  url := "https://example.com/page"
  counts := fun _ _ => 1
  visible := fun _ _ => true
  waitVisibleOk := fun _ => true
  errWaitVisible := fun _ => "visibility wait timed out"
  actionOk := fun _ => true
  errAction := fun _ => "provider action failed"
  textPresent := fun _ => true
  launchOk := true
  launchErr := "browser launch failed"
  gotoOk := true
  gotoErr := "navigation failed"
  screenshotOk := fun _ => true
  screenshotErr := fun _ => "screenshot failed"
  screenshotBytes := fun n => [n % 256]
  htmlOk := fun _ => true
  axOk := fun _ => true
  chromiumVersion := "120.0.0.0"
  envMetaPre := [("node_version", .jstr "v20.0.0"), ("playwright_version", .jstr "1.40.0")]
  envMetaPost := [("os_type", .jstr "Linux"), ("os_release", .jstr "6.1"),
    ("os_platform", .jstr "linux"), ("os_arch", .jstr "x64"),
    ("timezone_reported", .jstr "UTC"), ("locale_reported", .jstr "en-US")]
  startIso := "2026-01-02T03:04:05.678Z"

/-- A minimal passive flow that passes the load gate. -/
def wFlowPassive : Flow where
  flow_id := some "f1"
  start_url := some "https://example.com"
  steps := some []
  capture_mode := .vStr "passive"

/-! ## Claim C1: the sealing phase always runs and links
`packet_hash.txt` to the exact bytes of `manifest.json` -/

theorem finalizePhase_status {env : PageEnv} {flow : Flow} {runId pv cm sa : String}
    {chrom : Option String} {status : String} {runErr : Option String} {st : RunState} :
    (finalizePhase env flow runId pv cm sa chrom status runErr st).status = status := by
  unfold finalizePhase
  simp only [sealPacket]

theorem finalizePhase_hash_link {env : PageEnv} {flow : Flow} {runId pv cm sa : String}
    {chrom : Option String} {status : String} {runErr : Option String} {st : RunState} :
    (finalizePhase env flow runId pv cm sa chrom status runErr st).packetHash =
      sha256Hex (utf8Encode
        (finalizePhase env flow runId pv cm sa chrom status runErr st).manifestStr) := by
  unfold finalizePhase
  simp only [sealPacket]

theorem finalizePhase_read_manifest {env : PageEnv} {flow : Flow} {runId pv cm sa : String}
    {chrom : Option String} {status : String} {runErr : Option String} {st : RunState} :
    fsRead (finalizePhase env flow runId pv cm sa chrom status runErr st).files
        "03_Verification/manifest.json" =
      some (utf8Encode
        (finalizePhase env flow runId pv cm sa chrom status runErr st).manifestStr) := by
  unfold finalizePhase
  simp only [sealPacket]
  rw [fsRead_fsWrite_other _ _ _ _ (by decide), fsRead_fsWrite_same]

theorem finalizePhase_read_hash {env : PageEnv} {flow : Flow} {runId pv cm sa : String}
    {chrom : Option String} {status : String} {runErr : Option String} {st : RunState} :
    fsRead (finalizePhase env flow runId pv cm sa chrom status runErr st).files
        "03_Verification/packet_hash.txt" =
      some (utf8Encode
        ((finalizePhase env flow runId pv cm sa chrom status runErr st).packetHash ++ "
")) := by
  unfold finalizePhase
  simp only [sealPacket]
  rw [fsRead_fsWrite_same]

theorem runPhase_status (env : PageEnv) (flow : Flow) (steps : List Step) (st : RunState) :
    (runPhase env flow steps st).1 = "success" ∨ (runPhase env flow steps st).1 = "error" := by
  unfold runPhase
  split
  · exact .inr rfl
  · split
    · exact .inr rfl
    · simp only [tick]
      split
      · exact .inr rfl
      · split
        · exact .inr rfl
        · exact .inl rfl

/-- C1: for every run of the executor that starts (passes the load
gate), successful or failed, the final sealing phase executes:
`03_Verification/manifest.json` and `03_Verification/packet_hash.txt`
are written, and the content of `packet_hash.txt` is exactly the
lowercase hexadecimal SHA-256 of the exact serialized bytes of
`manifest.json`, followed by a single newline (the hash itself
contains no newline byte). -/
theorem C1_seal_always_executes (env : PageEnv) (flow : Flow)
    (mode : String) (steps : List Step) (hload : loadGate flow = .ok (mode, steps)) :
    ∃ r : SealedRun, runMain env flow = .sealed r ∧
      (r.status = "success" ∨ r.status = "error") ∧
      fsRead r.files "03_Verification/manifest.json" = some (utf8Encode r.manifestStr) ∧
      fsRead r.files "03_Verification/packet_hash.txt" =
        some (utf8Encode r.packetHash ++ [10]) ∧
      r.packetHash = sha256Hex (utf8Encode r.manifestStr) ∧
      (∀ c ∈ r.packetHash.data, c ∈ hexAlphabet) ∧
      10 ∉ utf8Encode r.packetHash := by
  unfold runMain
  rw [hload]
  refine ⟨_, rfl, ?_, ?_, ?_, ?_, ?_, ?_⟩
  · rw [finalizePhase_status]
    exact runPhase_status env flow steps _
  · exact finalizePhase_read_manifest
  · rw [finalizePhase_read_hash, utf8Encode_append, utf8Encode_newline]
  · exact finalizePhase_hash_link
  · rw [finalizePhase_hash_link]
    exact sha256Hex_lowercase _
  · rw [finalizePhase_hash_link]
    apply utf8_hex_no_newline
    exact sha256Hex_lowercase _

/-- C1 witness: the load-gate hypothesis holds for the concrete passive
flow, and the sealing conclusion follows at that input. -/
theorem C1_witness :
    loadGate wFlowPassive = .ok ("passive", []) ∧
    (∃ r : SealedRun, runMain wEnv wFlowPassive = .sealed r ∧
      (r.status = "success" ∨ r.status = "error") ∧
      fsRead r.files "03_Verification/manifest.json" = some (utf8Encode r.manifestStr) ∧
      fsRead r.files "03_Verification/packet_hash.txt" =
        some (utf8Encode r.packetHash ++ [10]) ∧
      r.packetHash = sha256Hex (utf8Encode r.manifestStr) ∧
      (∀ c ∈ r.packetHash.data, c ∈ hexAlphabet) ∧
      10 ∉ utf8Encode r.packetHash) :=
  ⟨rfl, C1_seal_always_executes wEnv wFlowPassive "passive" [] rfl⟩

/-! ## Claim C3: manifest coverage, exclusion, and sort order

The coverage and exclusion parts hold.  The claimed *byte-lexicographic*
order does not: the code sorts with `localeCompare`, under which
`02_Exhibits/a1/…` precedes `02_Exhibits/GEN/…`, while byte order puts
`GEN` (0x47…) before `a1` (0x61…).  Such path pairs occur in real runs
(the `GEN` bucket always holds the initial-load screenshot, and any
lower-case allegation folder sorts around it differently under the two
orders). -/

/-- The walked deliverable files of a run with one `GEN` exhibit and one
allegation-`a1` exhibit. -/
def c3Walk : Fs :=
  [⟨"02_Exhibits/GEN/screenshot_step_001.png", [137]⟩,
   ⟨"02_Exhibits/a1/screenshot_step_002.png", [66]⟩]

/-- C3 counterexample: on `c3Walk` the manifest's files array lists
`02_Exhibits/a1/…` *before* `02_Exhibits/GEN/…`, and that adjacent pair
is out of byte-lexicographic order — so the files array is not sorted
by path in byte-lexicographic order, contrary to the claim. -/
theorem C3_counterexample :
    manifestFilesPaths (manifestTree "r1" "t1" c3Walk) =
      ["02_Exhibits/a1/screenshot_step_002.png", "02_Exhibits/GEN/screenshot_step_001.png"] ∧
    byteLexLe "02_Exhibits/a1/screenshot_step_002.png"
        "02_Exhibits/GEN/screenshot_step_001.png" = false := by
  decide

/-- C3 (amended): for every sealed run, the files array of
`manifest.json` contains one `{path, sha256, size_bytes}` entry for
every file under the deliverable root except `manifest.json` and
`packet_hash.txt` themselves, and the entries are sorted by path in the
executor's `localeCompare` order (case-insensitive-primary collation) —
not byte-lexicographic order. -/
theorem C3_manifest_files (runId createdAt : String) (walk : Fs)
    (h : ∀ f ∈ walk, f.path ≠ "03_Verification/manifest.json" ∧
      f.path ≠ "03_Verification/packet_hash.txt") :
    (manifestFilesPaths (manifestTree runId createdAt walk)).Perm (walk.map (·.path)) ∧
    List.Sorted pathLe (manifestFilesPaths (manifestTree runId createdAt walk)) ∧
    "03_Verification/manifest.json" ∉ manifestFilesPaths (manifestTree runId createdAt walk) ∧
    "03_Verification/packet_hash.txt" ∉ manifestFilesPaths (manifestTree runId createdAt walk) ∧
    ∀ f ∈ walk, manifestFileEntry f ∈ manifestFilesArr (manifestTree runId createdAt walk) := by
  have harr : manifestFilesArr (manifestTree runId createdAt walk) =
      (List.insertionSort fileLe walk).map manifestFileEntry := rfl
  have hpaths : manifestFilesPaths (manifestTree runId createdAt walk) =
      (List.insertionSort fileLe walk).map (·.path) := by
    show ((List.insertionSort fileLe walk).map manifestFileEntry).map _ =
      (List.insertionSort fileLe walk).map (·.path)
    rw [List.map_map]
    rfl
  have hperm : (manifestFilesPaths (manifestTree runId createdAt walk)).Perm
      (walk.map (·.path)) := by
    rw [hpaths]
    exact (List.perm_insertionSort fileLe walk).map (·.path)
  refine ⟨hperm, ?_, ?_, ?_, ?_⟩
  · rw [hpaths]
    have hs := List.sorted_insertionSort fileLe walk
    exact List.pairwise_map.mpr hs
  · intro hmem
    rw [hperm.mem_iff] at hmem
    obtain ⟨f, hf, hfp⟩ := List.mem_map.mp hmem
    exact (h f hf).1 hfp
  · intro hmem
    rw [hperm.mem_iff] at hmem
    obtain ⟨f, hf, hfp⟩ := List.mem_map.mp hmem
    exact (h f hf).2 hfp
  · intro f hf
    rw [harr]
    exact List.mem_map_of_mem manifestFileEntry ((List.mem_insertionSort fileLe).mpr hf)

/-- C3 witness: the amended theorem applied at the concrete walked
tree `c3Walk`, whose hypothesis holds. -/
theorem C3_witness :
    (∀ f ∈ c3Walk, f.path ≠ "03_Verification/manifest.json" ∧
      f.path ≠ "03_Verification/packet_hash.txt") ∧
    ((manifestFilesPaths (manifestTree "r1" "t1" c3Walk)).Perm (c3Walk.map (·.path)) ∧
     List.Sorted pathLe (manifestFilesPaths (manifestTree "r1" "t1" c3Walk)) ∧
     "03_Verification/manifest.json" ∉ manifestFilesPaths (manifestTree "r1" "t1" c3Walk) ∧
     "03_Verification/packet_hash.txt" ∉ manifestFilesPaths (manifestTree "r1" "t1" c3Walk) ∧
     ∀ f ∈ c3Walk, manifestFileEntry f ∈ manifestFilesArr (manifestTree "r1" "t1" c3Walk)) :=
  ⟨by decide, C3_manifest_files "r1" "t1" c3Walk (by decide)⟩

/-! ## Claim C10: capture-mode derivation

The default-from-`visual_only` half of the claim holds.  The validation
half does not: `flow.capture_mode || …` falls back to the legacy
default on *any* falsy `capture_mode`, so an explicitly provided empty
string — which is not `"passive"`/`"interactive"` after lowercasing and
should be fatal per the claim — is silently treated as omitted. -/

/-- A flow that provides `capture_mode: ""` explicitly. -/
def c10Flow : Flow where
  flow_id := some "f1"
  start_url := some "https://example.com"
  steps := some [{ type := some "click_selector", selector := some "#b" }]
  capture_mode := .vStr ""

/-- C10 counterexample: `c10Flow` provides a `capture_mode` that is not
`"passive"` or `"interactive"` after lowercasing, yet the load gate does
not exit fatally — it falls back to the `visual_only` default and
proceeds in interactive mode. -/
theorem C10_counterexample :
    c10Flow.capture_mode = .vStr "" ∧
    jsToLowerCase (jsToString c10Flow.capture_mode) ≠ "passive" ∧
    jsToLowerCase (jsToString c10Flow.capture_mode) ≠ "interactive" ∧
    captureModeOf c10Flow = "interactive" ∧
    loadGate c10Flow =
      .ok ("interactive", [{ type := some "click_selector", selector := some "#b" }]) :=
  ⟨rfl, by decide, by decide, rfl, rfl⟩

/-- C10 (amended): when a flow plan's `capture_mode` is falsy (omitted,
or provided as the empty string or another falsy value), the effective
mode defaults from the legacy `visual_only` field — passive exactly when
`visual_only === true`, interactive otherwise.  A truthy `capture_mode`
is stringified and lowercased before validation, and any truthy value
other than `"passive"`/`"interactive"` after lowercasing is a fatal
load-time error. -/
theorem C10_capture_mode_derivation (flow : Flow) :
    (¬ jsTruthy flow.capture_mode →
      captureModeOf flow =
        (if flow.visual_only = .vBool true then "passive" else "interactive")) ∧
    (jsTruthy flow.capture_mode →
      captureModeOf flow = jsToLowerCase (jsToString flow.capture_mode)) ∧
    (flow.flow_id.getD "" ≠ "" → flow.start_url.getD "" ≠ "" →
      (∃ st, flow.steps = some st) →
      (flow.goal_text = .vUndef ∨ flow.goal_text = .vNull) →
      captureModeOf flow ≠ "passive" → captureModeOf flow ≠ "interactive" →
      loadGate flow = .error .badCaptureMode) := by
  refine ⟨?_, ?_, ?_⟩
  · intro h
    unfold captureModeOf
    rw [if_neg (by simpa using h)]
    split <;> rfl
  · intro h
    unfold captureModeOf
    rw [if_pos h]
  · intro h1 h2 h3 h4 h5 h6
    obtain ⟨st, hst⟩ := h3
    unfold loadGate
    have hgt : ¬ (flow.goal_text ≠ .vUndef ∧ flow.goal_text ≠ .vNull) := by
      rcases h4 with h | h <;> simp [h]
    simp only [if_neg (by simpa using h1), if_neg (by simpa using h2), hst]
    rw [if_neg hgt, if_pos ⟨h5, h6⟩]

/-- C10 witness: a truthy but invalid `capture_mode` is a fatal
load-time error, via the amended theorem. -/
theorem C10_witness :
    captureModeOf { c10Flow with capture_mode := .vStr "Bogus" } = "bogus" ∧
    loadGate { c10Flow with capture_mode := .vStr "Bogus" } = .error .badCaptureMode :=
  ⟨rfl, (C10_capture_mode_derivation _).2.2 (by decide) (by decide)
    ⟨_, rfl⟩ (.inl rfl) (by decide) (by decide)⟩

/-! ## Claim C6: the capture-mode gate runs at plan load, before any
browser is launched -/

/-- A load-gate failure short-circuits `main`: the result is a fatal
exit and no run (no browser phase, no sealing) happens. -/
theorem runMain_fatal_of_loadGate_error (env : PageEnv) (flow : Flow) (e : LoadErr)
    (h : loadGate flow = .error e) : runMain env flow = .fatal e := by
  unfold runMain
  rw [h]

/-- C6: capture-mode validation is decided by the load gate, before any
browser is launched: a passive-mode plan containing a step whose type is
outside the passive allow-set exits fatally (naming such a type), and an
interactive-mode plan with no step of an interactive type exits fatally
as a quality-gate failure.  In both cases `runMain` returns the fatal
load exit for every provider environment, so no browser interaction can
occur. -/
theorem C6_capture_mode_gate (flow : Flow) (steps : List Step)
    (h1 : flow.flow_id.getD "" ≠ "") (h2 : flow.start_url.getD "" ≠ "")
    (h3 : flow.steps = some steps)
    (h4 : flow.goal_text = .vUndef ∨ flow.goal_text = .vNull) :
    (captureModeOf flow = "passive" →
      (∃ s ∈ steps, ¬ PASSIVE_ALLOWED_STEPS.contains (stepTypeStr s)) →
      ∃ t, ¬ PASSIVE_ALLOWED_STEPS.contains t ∧
        loadGate flow = .error (.passiveForbiddenStep t) ∧
        ∀ env, runMain env flow = .fatal (.passiveForbiddenStep t)) ∧
    (captureModeOf flow = "interactive" →
      (∀ s ∈ steps, ¬ INTERACTIVE_STEPS.contains (stepTypeStr s)) →
      loadGate flow = .error .qualityGateNoInteractive ∧
        ∀ env, runMain env flow = .fatal .qualityGateNoInteractive) := by
  have hgt : ¬ (flow.goal_text ≠ .vUndef ∧ flow.goal_text ≠ .vNull) := by
    rcases h4 with h | h <;> simp [h]
  constructor
  · intro hm hbad
    have hfind : (steps.find? (fun s => ¬ PASSIVE_ALLOWED_STEPS.contains (stepTypeStr s))).isSome := by
      rw [List.find?_isSome]
      obtain ⟨s, hs, hns⟩ := hbad
      exact ⟨s, hs, by simpa using hns⟩
    obtain ⟨s0, hs0⟩ := Option.isSome_iff_exists.mp hfind
    have hpred := List.find?_some hs0
    refine ⟨stepTypeStr s0, by simpa using hpred, ?_⟩
    have hload : loadGate flow = .error (.passiveForbiddenStep (stepTypeStr s0)) := by
      unfold loadGate
      simp only [if_neg (by simpa using h1), if_neg (by simpa using h2), h3]
      rw [if_neg hgt, if_neg (by rw [hm]; simp), if_pos hm, hs0]
    exact ⟨hload, fun env => runMain_fatal_of_loadGate_error env flow _ hload⟩
  · intro hm hnone
    have hany : steps.any (fun s => INTERACTIVE_STEPS.contains (stepTypeStr s)) = false := by
      rw [List.any_eq_false]
      intro s hs
      simpa using hnone s hs
    have hload : loadGate flow = .error .qualityGateNoInteractive := by
      unfold loadGate
      simp only [if_neg (by simpa using h1), if_neg (by simpa using h2), h3]
      rw [if_neg hgt, if_neg (by rw [hm]; simp), if_neg (by rw [hm]; simp), hany]
      rfl
    exact ⟨hload, fun env => runMain_fatal_of_loadGate_error env flow _ hload⟩

/-- A state-changing step. -/
def c6Step : Step := { type := some "click_selector", selector := some "#b" }

/-- A passive-mode flow carrying a state-changing step. -/
def c6Flow : Flow where
  flow_id := some "f1"
  start_url := some "https://example.com"
  steps := some [c6Step]
  capture_mode := .vStr "passive"

/-- C6 witness: the passive gate fires on a concrete passive plan with a
`click_selector` step. -/
theorem C6_witness :
    (captureModeOf c6Flow = "passive" ∧
     ∃ s ∈ [c6Step], ¬ PASSIVE_ALLOWED_STEPS.contains (stepTypeStr s)) ∧
    ∃ t, ¬ PASSIVE_ALLOWED_STEPS.contains t ∧
      loadGate c6Flow = .error (.passiveForbiddenStep t) ∧
      ∀ env, runMain env c6Flow = .fatal (.passiveForbiddenStep t) :=
  ⟨⟨rfl, ⟨c6Step, by simp, by decide⟩⟩,
   (C6_capture_mode_gate c6Flow [c6Step] (by decide) (by decide) rfl (.inl rfl)).1 rfl
     ⟨c6Step, by simp, by decide⟩⟩

/-! ## Claim C2: strict resolution decides on the final sample and
halts the run -/

/-- The sample of a stabilization window is the pair of the two counts
read, independent of the instability logging. -/
theorem stabilizedCount_fst (env : PageEnv) (st : RunState) (sel aid : String) :
    (stabilizedCount env st sel aid).1 =
      ⟨env.counts sel st.reads, env.counts sel (st.reads + 1)⟩ := by
  simp only [stabilizedCount, tick]
  split <;> rfl

/-- Stabilization sampling never records resolution/action trace
events. -/
theorem stabilizedCount_trace (env : PageEnv) (st : RunState) (sel aid : String) :
    (stabilizedCount env st sel aid).2.trace = st.trace := by
  simp only [stabilizedCount, tick, pushConsole, pushLog]
  split <;> rfl

theorem strictSingle_notFound (env : PageEnv) (st : RunState) (sel aid : String)
    (h : env.counts sel (st.reads + 1) = 0) :
    (strictSingle env st (some sel) aid).1 = .error (.notFound sel) := by
  unfold strictSingle
  simp only []
  rcases hsc : stabilizedCount env st sel aid with ⟨sample, st2⟩
  have hf := stabilizedCount_fst env st sel aid
  rw [hsc] at hf
  simp only at hf
  simp [hf, h]

theorem strictSingle_ambiguity (env : PageEnv) (st : RunState) (sel aid : String)
    (h : 1 < env.counts sel (st.reads + 1)) :
    (strictSingle env st (some sel) aid).1 =
      .error (.ambiguity sel (env.counts sel (st.reads + 1))) := by
  unfold strictSingle
  simp only []
  rcases hsc : stabilizedCount env st sel aid with ⟨sample, st2⟩
  have hf := stabilizedCount_fst env st sel aid
  rw [hsc] at hf
  simp only at hf
  simp [hf, show env.counts sel (st.reads + 1) ≠ 0 by omega, h]

theorem strictSingle_one (env : PageEnv) (st : RunState) (sel aid : String)
    (h : env.counts sel (st.reads + 1) = 1) :
    (strictSingle env st (some sel) aid).1 = .ok sel ∧
    .resolvedOne sel ∈ (strictSingle env st (some sel) aid).2.trace := by
  unfold strictSingle
  simp only []
  rcases hsc : stabilizedCount env st sel aid with ⟨sample, st2⟩
  have hf := stabilizedCount_fst env st sel aid
  rw [hsc] at hf
  simp only at hf
  simp [hf, h, pushTrace]

/-- `strictSingle` either fails leaving the state exactly as the
stabilization window left it, or resolves to the selector and appends
exactly the `resolvedOne` trace event. -/
theorem strictSingle_cases (env : PageEnv) (st : RunState) (sel aid : String) :
    (∃ e, strictSingle env st (some sel) aid =
      (.error e, (stabilizedCount env st sel aid).2)) ∨
    strictSingle env st (some sel) aid =
      (.ok sel, pushTrace (stabilizedCount env st sel aid).2 (.resolvedOne sel)) := by
  unfold strictSingle
  simp only []
  rcases hsc : stabilizedCount env st sel aid with ⟨sample, st2⟩
  by_cases h0 : sample.final = 0
  · exact Or.inl ⟨.notFound sel, by simp [h0]⟩
  · by_cases h1 : sample.final > 1
    · exact Or.inl ⟨.ambiguity sel sample.final, by simp [h0, h1]⟩
    · exact Or.inr (by simp [h0, h1])

/-- `doAction` records the attempted action in the trace whatever the
provider answers. -/
theorem doAction_snd (env : PageEnv) (st : RunState) (a : PageAction) :
    (doAction env st a).2 = pushTrace st (.acted a) := by
  simp only [doAction]
  split <;> rfl

/-- Evidence capture never touches the resolution/action trace. -/
theorem captureEvidence_trace (env : PageEnv) (st : RunState) (l : Option String)
    (aid : String) : (captureEvidence env st l aid).trace = st.trace := by
  simp only [captureEvidence, tick, pushConsole]
  split <;> split <;> rfl

/-- The loop body's error is exactly the executed step's error: if
`executeStep` fails at every state whose provider read counter equals
the incoming one (the pre-execution bookkeeping never reads the page),
then `runStep` reports that error. -/
theorem runStep_err (env : PageEnv) (st : RunState) (s : Step) (e : ExecErr)
    (h : ∀ st1 : RunState, st1.reads = st.reads →
      (executeStep env st1 s).1 = Except.error e) :
    (runStep env st s).2 = some e := by
  simp only [runStep, tick, pushConsole, pushLog]
  rw [h _ (by split <;> rfl)]

/-- Trace events recorded by the executed step survive the loop body's
bookkeeping. -/
theorem runStep_trace (env : PageEnv) (st : RunState) (s : Step) (ev : TraceEv)
    (h : ∀ st1 : RunState, st1.reads = st.reads →
      ev ∈ (executeStep env st1 s).2.trace) :
    ev ∈ (runStep env st s).1.trace := by
  simp only [runStep, tick, pushConsole, pushLog]
  rw [captureEvidence_trace]
  exact h _ (by split <;> rfl)

/-- A failing step halts the loop: the result on `s :: rest` does not
mention `rest`, so no subsequent step executes. -/
theorem runPlanSteps_halt (env : PageEnv) (st : RunState) (s : Step)
    (rest : List Step) (e : ExecErr) (h : (runStep env st s).2 = some e) :
    runPlanSteps env st (s :: rest) =
      ((runStep env st s).1,
        some ("Failed at step " ++ natStr (runStep env st s).1.stepIndex ++ ": " ++
          execErrMessage e)) := by
  unfold runPlanSteps
  rcases hr : runStep env st s with ⟨st2, err⟩
  rw [hr] at h
  simp only at h
  subst h
  rfl

/-- `executeStep` on the four strict step types reports strict
resolution's `NotFoundError` when the final stabilization sample is 0. -/
theorem executeStep_notFound (env : PageEnv) (st : RunState) (s : Step) (sel : String)
    (hty : stepTypeStr s = "click_selector" ∨ stepTypeStr s = "type_selector" ∨
           stepTypeStr s = "fill" ∨ stepTypeStr s = "wait_selector")
    (hamm : s.allow_multiple_matches = none) (hgt : s.goal_text = none)
    (hsel : selOf s = some sel)
    (h : env.counts sel (st.reads + 1) = 0) :
    (executeStep env st s).1 = Except.error (ExecErr.notFound sel) := by
  have hss := strictSingle_notFound env st sel (canonicalAllegationId s.allegation_id) h
  rcases hsc : strictSingle env st (some sel) (canonicalAllegationId s.allegation_id)
    with ⟨r, st2⟩
  rw [hsc] at hss
  simp only at hss
  subst hss
  rcases hty with hty | hty | hty | hty <;>
    simp [executeStep, hty, hamm, hgt, hsel, hsc, waitSelector]

/-- `executeStep` on the four strict step types reports strict
resolution's `AmbiguityError` — carrying the selector and the matched
count — when the final stabilization sample exceeds 1. -/
theorem executeStep_ambiguity (env : PageEnv) (st : RunState) (s : Step) (sel : String)
    (hty : stepTypeStr s = "click_selector" ∨ stepTypeStr s = "type_selector" ∨
           stepTypeStr s = "fill" ∨ stepTypeStr s = "wait_selector")
    (hamm : s.allow_multiple_matches = none) (hgt : s.goal_text = none)
    (hsel : selOf s = some sel)
    (h : 1 < env.counts sel (st.reads + 1)) :
    (executeStep env st s).1 =
      Except.error (ExecErr.ambiguity sel (env.counts sel (st.reads + 1))) := by
  have hss := strictSingle_ambiguity env st sel (canonicalAllegationId s.allegation_id) h
  rcases hsc : strictSingle env st (some sel) (canonicalAllegationId s.allegation_id)
    with ⟨r, st2⟩
  rw [hsc] at hss
  simp only at hss
  subst hss
  rcases hty with hty | hty | hty | hty <;>
    simp [executeStep, hty, hamm, hgt, hsel, hsc, waitSelector]

/-- `executeStep` on the four strict step types records a successful
strict resolution when the final stabilization sample is exactly 1. -/
theorem executeStep_resolved (env : PageEnv) (st : RunState) (s : Step) (sel : String)
    (hty : stepTypeStr s = "click_selector" ∨ stepTypeStr s = "type_selector" ∨
           stepTypeStr s = "fill" ∨ stepTypeStr s = "wait_selector")
    (hamm : s.allow_multiple_matches = none) (hgt : s.goal_text = none)
    (hsel : selOf s = some sel)
    (h : env.counts sel (st.reads + 1) = 1) :
    TraceEv.resolvedOne sel ∈ (executeStep env st s).2.trace := by
  obtain ⟨hok, hmem⟩ := strictSingle_one env st sel (canonicalAllegationId s.allegation_id) h
  rcases hsc : strictSingle env st (some sel) (canonicalAllegationId s.allegation_id)
    with ⟨r, st2⟩
  rw [hsc] at hok hmem
  simp only at hok hmem
  subst hok
  rcases hty with hty | hty | hty | hty
  · simp only [executeStep, hty, hamm, hgt, hsel]
    simp only [hsc]
    simp [doAction_snd, pushTrace, hmem]
  · simp only [executeStep, hty, hamm, hgt, hsel]
    simp only [hsc]
    simp [doAction_snd, pushTrace, hmem]
  · simp only [executeStep, hty, hamm, hgt, hsel]
    simp only [hsc]
    simp [doAction_snd, pushTrace, hmem]
  · simp only [executeStep, hty, hamm, hgt, hsel]
    simp only [waitSelector, hsc]
    rw [if_neg (by simp), if_neg (by simp), if_pos trivial, if_pos (by decide)]
    split <;> exact hmem

/-- C2: under strict resolution — used by `click_selector`,
`type_selector`, `fill`, and `wait_selector` without the override flag —
the decision is made on the *final* stabilization sample
(`env.counts sel (st.reads + 1)`; the first sample is unconstrained): a
final count of 0 fails the step with `NotFoundError`; a final count
greater than 1 fails it with `AmbiguityError` carrying the selector and
the matched count; in either case the run transitions to error at that
step and the step loop's result on `s :: rest` does not depend on
`rest`, so no subsequent plan step executes.  A final count of exactly 1
proceeds: strict resolution succeeds and records its `resolvedOne`
event. -/
theorem C2_strict_resolution (env : PageEnv) (st : RunState) (s : Step)
    (rest : List Step) (sel : String)
    (hty : stepTypeStr s = "click_selector" ∨ stepTypeStr s = "type_selector" ∨
           stepTypeStr s = "fill" ∨ stepTypeStr s = "wait_selector")
    (hamm : s.allow_multiple_matches = none)
    (hgt : s.goal_text = none)
    (hsel : selOf s = some sel) :
    (env.counts sel (st.reads + 1) = 0 →
      (runStep env st s).2 = some (.notFound sel) ∧
      runPlanSteps env st (s :: rest) =
        ((runStep env st s).1,
          some ("Failed at step " ++ natStr (runStep env st s).1.stepIndex ++ ": " ++
            execErrMessage (.notFound sel)))) ∧
    (1 < env.counts sel (st.reads + 1) →
      (runStep env st s).2 = some (.ambiguity sel (env.counts sel (st.reads + 1))) ∧
      runPlanSteps env st (s :: rest) =
        ((runStep env st s).1,
          some ("Failed at step " ++ natStr (runStep env st s).1.stepIndex ++ ": " ++
            execErrMessage (.ambiguity sel (env.counts sel (st.reads + 1)))))) ∧
    (env.counts sel (st.reads + 1) = 1 →
      TraceEv.resolvedOne sel ∈ (runStep env st s).1.trace) := by
  refine ⟨fun h => ?_, fun h => ?_, fun h => ?_⟩
  · have herr : (runStep env st s).2 = some (.notFound sel) :=
      runStep_err env st s _ (fun st1 hr =>
        executeStep_notFound env st1 s sel hty hamm hgt hsel (by rw [hr]; exact h))
    exact ⟨herr, runPlanSteps_halt env st s rest _ herr⟩
  · have herr : (runStep env st s).2 = some (.ambiguity sel (env.counts sel (st.reads + 1))) :=
      runStep_err env st s _ (fun st1 hr => by
        have := executeStep_ambiguity env st1 s sel hty hamm hgt hsel (by rw [hr]; exact h)
        rw [this, hr])
    exact ⟨herr, runPlanSteps_halt env st s rest _ herr⟩
  · exact runStep_trace env st s _ (fun st1 hr =>
      executeStep_resolved env st1 s sel hty hamm hgt hsel (by rw [hr]; exact h))

/-! ## Claim C5: the relaxed wait (`allow_multiple_matches:true`)

Zero final matches does still fail — but the count-0 throw happens
*before* the policy-override audit event is pushed (ect.js:683-705), so
that use of the relaxed mode leaves no audit record, contrary to the
claim's "every use is recorded" wording.  With a final count ≥ 1 the
audit event (console + interaction log) is recorded, and the wait is
accepted exactly when the window is stable and the bounded best-effort
visibility check finds a visible match. -/

/-- The state of the stabilization window never moves the step index. -/
theorem stabilizedCount_stepIndex (env : PageEnv) (st : RunState) (sel aid : String) :
    (stabilizedCount env st sel aid).2.stepIndex = st.stepIndex := by
  simp only [stabilizedCount, tick, pushConsole, pushLog]
  split <;> rfl

/-- The stabilization window performs exactly two provider reads. -/
theorem stabilizedCount_reads (env : PageEnv) (st : RunState) (sel aid : String) :
    (stabilizedCount env st sel aid).2.reads = st.reads + 2 := by
  simp only [stabilizedCount, tick, pushConsole, pushLog]
  split <;> rfl

/-- A provider that always reports 0 matches. -/
def c5Env : PageEnv := { wEnv with counts := fun _ _ => 0 }

/-- C5 counterexample: a relaxed wait (`allow_multiple_matches:true`)
on a selector whose final count is 0 fails with `NotFoundError` and
records *no* policy-override audit event: the console log and the
interaction log both stay empty, so this use of the relaxed mode is not
auditable in the sealed output. -/
theorem C5_counterexample :
    (waitSelector c5Env {} (some "#w") 10000 true "GEN").1 =
      Except.error (.notFound "#w") ∧
    (waitSelector c5Env {} (some "#w") 10000 true "GEN").2.consoleLog = [] ∧
    (waitSelector c5Env {} (some "#w") 10000 true "GEN").2.interactionLog = [] :=
  ⟨rfl, rfl, rfl⟩

/-- C5 (amended): for a relaxed `wait_selector`
(`allow_multiple_matches:true`), a final stabilization count of 0 fails
with `NotFoundError` and leaves the state exactly as the stabilization
window left it — in particular no policy-override audit event is
recorded for that use.  A final count ≥ 1 records the policy-override
audit event in both the console log (selector, observed count,
stability classification) and the interaction log, and the wait is
accepted exactly when the count was stable across the window and the
bounded best-effort visibility check (at most 25 matches) finds a
visible one. -/
theorem C5_relaxed_wait (env : PageEnv) (st : RunState) (sel aid : String)
    (timeout : Nat) :
    (env.counts sel (st.reads + 1) = 0 →
      waitSelector env st (some sel) timeout true aid =
        (Except.error (.notFound sel), (stabilizedCount env st sel aid).2)) ∧
    (1 ≤ env.counts sel (st.reads + 1) →
      (∃ ts,
        JTree.jobj
          [("timestamp_utc", .jstr ts), ("type", .jstr "policy_override"),
           ("override_type", .jstr "wait_selector_allow_multiple_matches"),
           ("step_index", .jnum st.stepIndex), ("allegation_id", .jstr aid),
           ("selector", .jstr sel),
           ("observed_count", .jnum (env.counts sel (st.reads + 1))),
           ("stability", .jstr
             (if env.counts sel st.reads ≠ env.counts sel (st.reads + 1) then
               "unstable (" ++ natStr (env.counts sel st.reads) ++ " -> " ++
                 natStr (env.counts sel (st.reads + 1)) ++ ")"
              else "stable"))]
          ∈ (waitSelector env st (some sel) timeout true aid).2.consoleLog) ∧
      (∃ ts,
        ({ step_index := .num st.stepIndex, allegation_id := aid,
           action := "policy_override", result := "info", error_message := none,
           note := some ("wait_selector override used (allow_multiple_matches:true). selector=\"" ++
             sel ++ "\" final_count=" ++ natStr (env.counts sel (st.reads + 1)) ++
             " stability=\"" ++
             (if env.counts sel st.reads ≠ env.counts sel (st.reads + 1) then
               "unstable (" ++ natStr (env.counts sel st.reads) ++ " -> " ++
                 natStr (env.counts sel (st.reads + 1)) ++ ")"
              else "stable") ++ "\""),
           url := env.url, timestamp_utc := ts } : LogEntry)
          ∈ (waitSelector env st (some sel) timeout true aid).2.interactionLog) ∧
      ((waitSelector env st (some sel) timeout true aid).1 = Except.ok () ↔
        (env.counts sel st.reads = env.counts sel (st.reads + 1) ∧
         (List.range (min (env.counts sel (st.reads + 2)) 25)).any
           (env.visible sel) = true))) := by
  rcases hsc : stabilizedCount env st sel aid with ⟨sample, st2⟩
  have hf := stabilizedCount_fst env st sel aid
  have hstep := stabilizedCount_stepIndex env st sel aid
  have hreads := stabilizedCount_reads env st sel aid
  rw [hsc] at hf hstep hreads
  simp only at hf hstep hreads
  subst hf
  refine ⟨fun h0 => ?_, fun h1 => ?_⟩
  · simp only [waitSelector, hsc]
    simp [h0]
  · have h0 : ¬ (env.counts sel (st.reads + 1) = 0) := by omega
    by_cases hu : env.counts sel st.reads = env.counts sel (st.reads + 1)
    · refine ⟨⟨env.now st2.clock, ?_⟩, ⟨env.now (st2.clock + 1), ?_⟩, ?_⟩
      · simp only [waitSelector, hsc]
        simp [h0, hu, Sample.unstable, anyVisibleMatch, tick, pushConsole, pushLog, hstep]
        split <;> simp
      · simp only [waitSelector, hsc]
        simp [h0, hu, Sample.unstable, anyVisibleMatch, tick, pushConsole, pushLog, hstep]
        split <;> simp
      · simp only [waitSelector, hsc]
        simp [h0, hu, Sample.unstable, anyVisibleMatch, tick, pushConsole, pushLog, hreads]
        split
        · rename_i hC
          constructor
          · intro h
            exact absurd h (by simp)
          · rintro ⟨x, ⟨hx1, hx2⟩, hxv⟩
            simp [hC x hx1 hx2] at hxv
        · rename_i hC
          push_neg at hC
          simp only [ne_eq, Bool.not_eq_false] at hC
          constructor
          · intro h
            obtain ⟨x, hx1, hx2, hxv⟩ := hC
            exact ⟨x, ⟨hx1, hx2⟩, hxv⟩
          · intro h
            rfl
    · refine ⟨⟨env.now st2.clock, ?_⟩, ⟨env.now (st2.clock + 1), ?_⟩, ?_⟩
      · simp only [waitSelector, hsc]
        simp [h0, hu, Sample.unstable, anyVisibleMatch, tick, pushConsole, pushLog, hstep]
      · simp only [waitSelector, hsc]
        simp [h0, hu, Sample.unstable, anyVisibleMatch, tick, pushConsole, pushLog, hstep]
      · simp only [waitSelector, hsc]
        simp [h0, hu, Sample.unstable, anyVisibleMatch, tick, pushConsole, pushLog]

/-! ## Claim C8: which state-changing steps resolve strictly before
acting

`click_selector`, `type_selector` and `fill` do run strict resolution
before their action primitive.  But the program's own interactive
classification (`INTERACTIVE_STEPS`, ect.js:94) also contains `press`
and `tab`, and those two branches of `executeStep` invoke the key-press
primitive directly — no selector, no strict resolution. -/

/-- A bare `press` step (an interactive, state-changing type). -/
def c8Step : Step := { type := some "press", key := some "Enter" }

/-- C8 counterexample: `press` is in the program's interactive
classification, yet executing it invokes the key-press action primitive
with no prior strict resolution: the step succeeds, the trace gains the
action event, and no `resolvedOne` event for any selector is ever
recorded. -/
theorem C8_counterexample :
    "press" ∈ INTERACTIVE_STEPS ∧
    executeStep wEnv {} c8Step =
      (Except.ok (), pushTrace {} (.acted (.keyPress "Enter"))) ∧
    (∀ sel, TraceEv.resolvedOne sel ∉ (executeStep wEnv {} c8Step).2.trace) := by
  refine ⟨by decide, rfl, ?_⟩
  intro sel hmem
  rw [show (executeStep wEnv {} c8Step).2.trace =
    [TraceEv.acted (.keyPress "Enter")] from rfl] at hmem
  simp at hmem

/-- C8 (amended): for the selector-driven state-changing step types —
`click_selector`, `type_selector`, `fill` — the action primitive is
invoked only after strict resolution of the step's selector succeeds:
either the step fails with the trace untouched (no action attempted),
or the trace gains exactly the successful resolution event followed by
the action event.  `press` and `tab`, though classified interactive,
take no selector and act without resolution (see the counterexample). -/
theorem C8_action_after_resolution (env : PageEnv) (st : RunState) (s : Step)
    (sel : String)
    (hty : stepTypeStr s = "click_selector" ∨ stepTypeStr s = "type_selector" ∨
           stepTypeStr s = "fill")
    (hamm : s.allow_multiple_matches = none) (hgt : s.goal_text = none)
    (hsel : selOf s = some sel) :
    ((executeStep env st s).2.trace = st.trace ∧
      ∃ e, (executeStep env st s).1 = Except.error e) ∨
    (∃ a : PageAction, (executeStep env st s).2.trace =
      st.trace ++ [TraceEv.resolvedOne sel, TraceEv.acted a]) := by
  have htr : (stabilizedCount env st sel (canonicalAllegationId s.allegation_id)).2.trace
      = st.trace := stabilizedCount_trace env st sel _
  rcases strictSingle_cases env st sel (canonicalAllegationId s.allegation_id)
    with ⟨e, hsc⟩ | hsc
  · left
    rcases hty with hty | hty | hty <;>
      exact ⟨by simp [executeStep, hty, hamm, hgt, hsel, hsc, htr],
             e, by simp [executeStep, hty, hamm, hgt, hsel, hsc]⟩
  · right
    rcases hty with hty | hty | hty
    · exact ⟨.click sel, by
        simp [executeStep, hty, hamm, hgt, hsel, hsc, doAction_snd, pushTrace, htr]⟩
    · rcases hst : s.text with _ | tx
      · exact ⟨.fillAct sel (s.val.getD ""), by
          simp [executeStep, hty, hamm, hgt, hsel, hsc, hst, doAction_snd, pushTrace, htr]⟩
      · exact ⟨.fillAct sel tx, by
          simp [executeStep, hty, hamm, hgt, hsel, hsc, hst, doAction_snd, pushTrace, htr]⟩
    · rcases hst : s.text with _ | tx
      · exact ⟨.fillAct sel (s.val.getD ""), by
          simp [executeStep, hty, hamm, hgt, hsel, hsc, hst, doAction_snd, pushTrace, htr]⟩
      · exact ⟨.fillAct sel tx, by
          simp [executeStep, hty, hamm, hgt, hsel, hsc, hst, doAction_snd, pushTrace, htr]⟩

/-- A plain click step for the C8 witness. -/
def c8ClickStep : Step := { type := some "click_selector", selector := some "#a" }

/-- C8 witness: the amended theorem's hypotheses hold for the concrete
click step, and its action-only-after-resolution conclusion follows. -/
theorem C8_witness :
    (stepTypeStr c8ClickStep = "click_selector" ∨
     stepTypeStr c8ClickStep = "type_selector" ∨ stepTypeStr c8ClickStep = "fill") ∧
    c8ClickStep.allow_multiple_matches = none ∧ c8ClickStep.goal_text = none ∧
    selOf c8ClickStep = some "#a" ∧
    (((executeStep wEnv {} c8ClickStep).2.trace = ({} : RunState).trace ∧
       ∃ e, (executeStep wEnv {} c8ClickStep).1 = Except.error e) ∨
     (∃ a : PageAction, (executeStep wEnv {} c8ClickStep).2.trace =
       ({} : RunState).trace ++ [TraceEv.resolvedOne "#a", TraceEv.acted a])) :=
  ⟨Or.inl rfl, rfl, rfl, by decide,
   C8_action_after_resolution wEnv {} c8ClickStep "#a" (Or.inl rfl) rfl rfl (by decide)⟩

/-! ## Claim C4: the override flag outside `wait_selector` aborts the
run before any page action -/

/-- C4: a step that carries `allow_multiple_matches` (with any value)
and whose type is not `wait_selector` raises a `PolicyViolation`
immediately: `executeStep` returns the violation with the state — and
so the resolution/action trace — exactly as it was, so no page action
was attempted for that step; the step loop reports the violation as the
run's error and its result on `s :: rest` does not depend on `rest`, so
the whole run aborts with no subsequent step executed. -/
theorem C4_override_flag_abort (env : PageEnv) (st : RunState) (s : Step)
    (rest : List Step) (v : JsVal)
    (hflag : s.allow_multiple_matches = some v)
    (hty : stepTypeStr s ≠ "wait_selector") :
    executeStep env st s =
      (Except.error (ExecErr.policyViolation
        ("Policy Violation: allow_multiple_matches is only permitted for wait_selector. Found on step type \"" ++
          stepTypeStr s ++ "\".")), st) ∧
    (runStep env st s).2 = some (ExecErr.policyViolation
      ("Policy Violation: allow_multiple_matches is only permitted for wait_selector. Found on step type \"" ++
        stepTypeStr s ++ "\".")) ∧
    runPlanSteps env st (s :: rest) =
      ((runStep env st s).1,
        some ("Failed at step " ++ natStr (runStep env st s).1.stepIndex ++ ": " ++
          execErrMessage (ExecErr.policyViolation
            ("Policy Violation: allow_multiple_matches is only permitted for wait_selector. Found on step type \"" ++
              stepTypeStr s ++ "\".")))) := by
  have hex : ∀ st1 : RunState, executeStep env st1 s =
      (Except.error (ExecErr.policyViolation
        ("Policy Violation: allow_multiple_matches is only permitted for wait_selector. Found on step type \"" ++
          stepTypeStr s ++ "\".")), st1) := by
    intro st1
    simp only [executeStep]
    rw [if_pos ⟨by simp [hflag], hty⟩]
  have herr : (runStep env st s).2 = some (ExecErr.policyViolation
      ("Policy Violation: allow_multiple_matches is only permitted for wait_selector. Found on step type \"" ++
        stepTypeStr s ++ "\".")) :=
    runStep_err env st s _ (fun st1 _ => by rw [hex st1])
  exact ⟨hex st, herr, runPlanSteps_halt env st s rest _ herr⟩

/-- A click step that illegally carries the override flag. -/
def c4Step : Step :=
  { type := some "click_selector", selector := some "#b",
    allow_multiple_matches := some (.vBool true) }

/-- C4 witness: the hypotheses hold for the concrete flagged click
step, and the violating run aborts at that step. -/
theorem C4_witness :
    c4Step.allow_multiple_matches = some (.vBool true) ∧
    stepTypeStr c4Step ≠ "wait_selector" ∧
    (executeStep wEnv {} c4Step =
      (Except.error (ExecErr.policyViolation
        ("Policy Violation: allow_multiple_matches is only permitted for wait_selector. Found on step type \"" ++
          stepTypeStr c4Step ++ "\".")), {}) ∧
     (runStep wEnv {} c4Step).2 = some (ExecErr.policyViolation
       ("Policy Violation: allow_multiple_matches is only permitted for wait_selector. Found on step type \"" ++
         stepTypeStr c4Step ++ "\".")) ∧
     runPlanSteps wEnv {} (c4Step :: [c4Step]) =
       ((runStep wEnv {} c4Step).1,
         some ("Failed at step " ++ natStr (runStep wEnv {} c4Step).1.stepIndex ++ ": " ++
           execErrMessage (ExecErr.policyViolation
             ("Policy Violation: allow_multiple_matches is only permitted for wait_selector. Found on step type \"" ++
               stepTypeStr c4Step ++ "\"."))))) :=
  ⟨rfl, by decide,
   C4_override_flag_abort wEnv {} c4Step [c4Step] (.vBool true) rfl (by decide)⟩

/-- A concrete strict step (a click) for the C2 witness. -/
def c2Step : Step := { type := some "click_selector", selector := some "#btn" }

/-- A provider whose match count is always 0. -/
def c2Env : PageEnv := { wEnv with counts := fun _ _ => 0 }

/-- C2 witness: the strict-step hypotheses hold for the concrete click
step, and on a provider that always reports 0 matches the run fails at
that step with `NotFoundError` and a pending second step never
executes. -/
theorem C2_witness :
    ((stepTypeStr c2Step = "click_selector" ∨ stepTypeStr c2Step = "type_selector" ∨
      stepTypeStr c2Step = "fill" ∨ stepTypeStr c2Step = "wait_selector") ∧
     c2Step.allow_multiple_matches = none ∧ c2Step.goal_text = none ∧
     selOf c2Step = some "#btn") ∧
    (c2Env.counts "#btn" (({} : RunState).reads + 1) = 0 →
      (runStep c2Env {} c2Step).2 = some (.notFound "#btn") ∧
      runPlanSteps c2Env {} (c2Step :: [c2Step]) =
        ((runStep c2Env {} c2Step).1,
          some ("Failed at step " ++ natStr (runStep c2Env {} c2Step).1.stepIndex ++ ": " ++
            execErrMessage (.notFound "#btn")))) :=
  ⟨⟨Or.inl rfl, rfl, rfl, by decide⟩,
   (C2_strict_resolution c2Env {} c2Step [c2Step] "#btn"
     (Or.inl rfl) rfl rfl (by decide)).1⟩

/-! ## Claim C9: redaction is idempotent

Scanning with `"[REDACTED]"` replacements can never create a new banned
match: every banned pattern starts with a literal lowercase letter other
than `r` (so no match can begin inside `[REDACTED]` or at a bracket),
every match consumes only word characters, whitespace and hyphens (so no
match can cross a bracket), and every match ends in a word character
while the character a replacement block follows is never a word
character (so no match can end flush against a block). -/

/-- The characters a banned-pattern match can consume. -/
def okChar (c : Char) : Bool := isWordChar c || isJsSpace c || c == '-'

/-- Is `c` a lowercase ASCII letter? -/
def isLowerAZ (c : Char) : Bool := 'a' ≤ c && c ≤ 'z'

/-- Structural well-formedness of the banned patterns' element lists:
literals and alternation branches are nonempty lowercase words, and the
optional elements (`\s*`, `-?`) are always followed by a literal. -/
def wfElems : Pat → Bool
  | [] => true
  | .lit w :: ps => !w.isEmpty && w.all isLowerAZ && wfElems ps
  | .optAlts alts :: ps =>
    alts.all (fun a => !a.isEmpty && a.all isLowerAZ) && wfElems ps
  | .wsStar :: ps =>
    (match ps with | .lit (_ :: _) :: _ => true | _ => false) && wfElems ps
  | .optDash :: ps =>
    (match ps with | .lit (_ :: _) :: _ => true | _ => false) && wfElems ps

/-- The banned patterns' global shape: a leading nonempty lowercase
literal not starting with `r`, and well-formed elements throughout. -/
def bannedShape : Pat → Bool
  | .lit (l :: w) :: ps => isLowerAZ l && l != 'r' && wfElems (.lit (l :: w) :: ps)
  | _ => false

/-- All eleven banned patterns have the global shape. -/
theorem bannedShape_all : ∀ p ∈ NOTE_BANNED_PATTERNS, bannedShape p = true := by decide

/-- A character matched case-insensitively against a lowercase letter is
a word character. -/
theorem patCharEq_word {c l : Char} (hl : isLowerAZ l = true)
    (h : patCharEq c l = true) : isWordChar c = true := by
  simp only [patCharEq, asciiLower, beq_iff_eq] at h
  simp only [isLowerAZ, Bool.and_eq_true, decide_eq_true_eq] at hl
  split at h
  · rename_i hc
    simp [isWordChar, hc.1, hc.2]
  · subst h
    simp [isWordChar, hl.1, hl.2]

/-- A non-word character never matches a lowercase-letter literal
character. -/
theorem patCharEq_nonword {c l : Char} (hl : isLowerAZ l = true)
    (h : isWordChar c = false) : patCharEq c l = false := by
  by_contra hne
  rw [Bool.not_eq_false] at hne
  rw [patCharEq_word hl hne] at h
  exact Bool.true_eq_false.mp h

/-- No banned pattern can match at a non-word character. -/
theorem matchElems_nonword_head {p : Pat} (hb : bannedShape p = true) {c : Char}
    (hc : isWordChar c = false) (t : List Char) : matchElems p (c :: t) = none := by
  match p, hb with
  | .lit (l :: w) :: ps, hb =>
    have hl : isLowerAZ l = true := by
      simp only [bannedShape, Bool.and_eq_true] at hb
      exact hb.1.1
    simp [matchElems, stripLit, patCharEq_nonword hl hc]

/-- No banned pattern can match at the letter `R` of a replacement
block (their first letters avoid `r`). -/
theorem matchElems_R_head {p : Pat} (hb : bannedShape p = true) (t : List Char) :
    matchElems p ('R' :: t) = none := by
  match p, hb with
  | .lit (l :: w) :: ps, hb =>
    have hl : (l != 'r') = true := by
      simp only [bannedShape, Bool.and_eq_true] at hb
      exact hb.1.2
    have hpc : patCharEq 'R' l = false := by
      simp only [patCharEq, bne_iff_ne, ne_eq] at hl ⊢
      have : asciiLower 'R' = 'r' := by decide
      rw [this]
      simp only [beq_eq_false_iff_ne, ne_eq]
      exact fun he => hl he.symm
    simp [matchElems, stripLit, hpc]

/-- A successful literal strip determines its consumed prefix: the same
literal then strips the same prefix whatever follows. -/
theorem stripLit_transfer {w s r : List Char} (h : stripLit w s = some r) :
    ∃ u, s = u ++ r ∧ ∀ z, stripLit w (u ++ z) = some z := by
  induction w generalizing s with
  | nil =>
    simp only [stripLit, Option.some.injEq] at h
    exact ⟨[], by simp [h], fun z => by simp [stripLit]⟩
  | cons p ps ih =>
    cases s with
    | nil => simp [stripLit] at h
    | cons c cs =>
      simp only [stripLit] at h
      split at h
      · rename_i hpc
        obtain ⟨u, hu1, hu2⟩ := ih h
        exact ⟨c :: u, by simp [hu1], fun z => by simp [stripLit, hpc, hu2 z]⟩
      · exact absurd h (by simp)

/-- The characters a lowercase literal consumes are word characters. -/
theorem stripLit_chars {w s r : List Char} (h : stripLit w s = some r)
    (hw : w.all isLowerAZ = true) :
    ∃ u, s = u ++ r ∧ u.length = w.length ∧ u.all isWordChar = true := by
  induction w generalizing s with
  | nil =>
    simp only [stripLit, Option.some.injEq] at h
    exact ⟨[], by simp [h], by simp, by simp⟩
  | cons p ps ih =>
    cases s with
    | nil => simp [stripLit] at h
    | cons c cs =>
      simp only [stripLit] at h
      split at h
      · rename_i hpc
        simp only [List.all_cons, Bool.and_eq_true] at hw
        obtain ⟨u, hu1, hu2, hu3⟩ := ih h hw.2
        refine ⟨c :: u, by simp [hu1], by simp [hu2], ?_⟩
        simp [List.all_cons, hu3, patCharEq_word hw.1 hpc]
      · exact absurd h (by simp)

/-- A pattern headed by a nonempty literal consumes at least one
character. -/
theorem matchElems_lit_shrink {l : Char} {w : List Char} {ps : Pat} {s r : List Char}
    (h : matchElems (.lit (l :: w) :: ps) s = some r) : r.length < s.length := by
  simp only [matchElems] at h
  split at h
  · rename_i s' hs
    have h1 := matchElems_length h
    have h2 := stripLit_length hs
    simp only [List.length_cons] at h2
    omega
  · exact absurd h (by simp)

/-- The first `j ≤ countWs s` characters are whitespace. -/
theorem countWs_take {s : List Char} {j : Nat} (h : j ≤ countWs s) :
    (s.take j).all isJsSpace = true := by
  induction s generalizing j with
  | nil => simp
  | cons c cs ih =>
    cases j with
    | zero => simp
    | succ j2 =>
      simp only [countWs] at h
      split at h
      · rename_i hc
        simp only [List.take_succ_cons, List.all_cons, hc, Bool.true_and]
        exact ih (by omega)
      · omega

/-- A whitespace prefix bounds `countWs` from below. -/
theorem countWs_ge {x : List Char} {j : Nat} (hj : j ≤ x.length)
    (h : (x.take j).all isJsSpace = true) : j ≤ countWs x := by
  induction x generalizing j with
  | nil =>
    simp only [List.length_nil, Nat.le_zero] at hj
    subst hj
    exact Nat.zero_le _
  | cons c cs ih =>
    cases j with
    | zero => exact Nat.zero_le _
    | succ j2 =>
      simp only [List.take_succ_cons, List.all_cons, Bool.and_eq_true] at h
      simp only [countWs, h.1, if_true]
      have := ih (by simpa using hj) h.2
      omega

/-- The whitespace run is no longer than the text. -/
theorem countWs_le_length (s : List Char) : countWs s ≤ s.length := by
  induction s with
  | nil => simp [countWs]
  | cons c cs ih =>
    simp only [countWs, List.length_cons]
    split <;> omega

/-- The greedy `\s*` search succeeds as soon as any drop in range
matches. -/
theorem tryWs_any {ps : Pat} {x : List Char} :
    ∀ k j, j ≤ k → (matchElems ps (x.drop j)).isSome = true →
      (tryWs k ps x).isSome = true := by
  intro k
  induction k with
  | zero =>
    intro j hj h
    have hj0 : j = 0 := by omega
    subst hj0
    simpa [tryWs] using h
  | succ k ih =>
    intro j hj h
    rcases hm : matchElems ps (x.drop (k + 1)) with _ | r
    · rcases Nat.eq_or_lt_of_le hj with rfl | hlt
      · rw [hm] at h; simp at h
      · simp only [tryWs, hm]
        exact ih j (by omega) h
    · simp [tryWs, hm]

/-- An ordered-alternation search succeeds as soon as one branch
strips and matches. -/
theorem tryAlts_any_branch {ps : Pat} {x a s2 : List Char} :
    ∀ alts : List (List Char), a ∈ alts → stripLit a x = some s2 →
      (matchElems ps s2).isSome = true → (tryAlts alts ps x).isSome = true := by
  intro alts
  induction alts with
  | nil => intro ha; simp at ha
  | cons b bs ih =>
    intro ha hs h
    rcases List.mem_cons.mp ha with rfl | ha2
    · rcases hm : matchElems ps s2 with _ | r
      · rw [hm] at h; simp at h
      · simp [tryAlts, hs, hm]
    · rcases hsb : stripLit b x with _ | sb
      · simp only [tryAlts, hsb]
        exact ih ha2 hs h
      · rcases hmb : matchElems ps sb with _ | rb
        · simp only [tryAlts, hsb, hmb]
          exact ih ha2 hs h
        · simp [tryAlts, hsb, hmb]

/-- An ordered-alternation search succeeds if its empty option does. -/
theorem tryAlts_empty {ps : Pat} {x : List Char} (h : (matchElems ps x).isSome = true) :
    ∀ alts : List (List Char), (tryAlts alts ps x).isSome = true := by
  intro alts
  induction alts with
  | nil => simpa [tryAlts] using h
  | cons b bs ih =>
    rcases hsb : stripLit b x with _ | sb
    · simp only [tryAlts, hsb]
      exact ih
    · rcases hmb : matchElems ps sb with _ | rb
      · simp only [tryAlts, hsb, hmb]
        exact ih
      · simp [tryAlts, hsb, hmb]

/-- An optional dash never blocks a match of the rest of the pattern. -/
theorem matchElems_optDash_lift {ps : Pat} {x : List Char}
    (h : (matchElems ps x).isSome = true) :
    (matchElems (.optDash :: ps) x).isSome = true := by
  cases x with
  | nil => simpa [matchElems] using h
  | cons c cs =>
    by_cases hc : c = '-'
    · subst hc
      rcases hm : matchElems ps cs with _ | r
      · simpa [matchElems, hm] using h
      · simp [matchElems, hm]
    · simpa [matchElems, hc] using h

/-- If a text has no match anywhere, neither has any suffix in its
original left context. -/
theorem testPat_suffix {p : Pat} :
    ∀ u : List Char, ∀ {v : List Char} {w : Bool} {e : Char},
      testPat p w (u ++ v) = false → u.getLast? = some e →
      testPat p (isWordChar e) v = false := by
  intro u
  induction u with
  | nil => intro v w e h hl; simp at hl
  | cons c cs ih =>
    intro v w e h hl
    cases cs with
    | nil =>
      simp only [List.getLast?_singleton, Option.some.injEq] at hl
      subst hl
      simp only [List.cons_append, List.nil_append, testPat,
        Bool.or_eq_false_iff] at h
      exact h.2
    | cons d ds =>
      have h2 : testPat p (isWordChar c) ((d :: ds) ++ v) = false := by
        rw [List.cons_append, testPat] at h
        exact (Bool.or_eq_false_iff.mp h).2
      exact ih h2 (by simpa using hl)

/-- Scanning never empties a nonempty text. -/
theorem scanRep_ne_nil {p : Pat} {hp : firstLitB p = true} {w : Bool}
    {s : List Char} (h : s ≠ []) : scanRep p hp w s ≠ [] := by
  cases s with
  | nil => simp at h
  | cons c cs =>
    rw [scanRep]
    rcases hm : matchHere p w (c :: cs) with _ | r
    · simp
    · simp [redactedR]

/-- Splitting equal appends at the shorter left part. -/
theorem append_split {a b c d : List Char} (h : a ++ b = c ++ d)
    (hl : a.length ≤ c.length) : ∃ m, c = a ++ m ∧ b = m ++ d := by
  rcases List.append_eq_append_iff.mp h with ⟨m, hm1, hm2⟩ | ⟨m, hm1, hm2⟩
  · exact ⟨m, hm1, hm2⟩
  · have hm0 : m = [] := by
      have hc := congrArg List.length hm1
      simp only [List.length_append] at hc
      have : m.length = 0 := by omega
      exact List.eq_nil_of_length_eq_zero this
    subst hm0
    exact ⟨[], by simpa using hm1.symm, by simpa using hm2.symm⟩

/-- Every successful match ends at a word boundary: the remaining text
is empty or starts with a non-word character. -/
theorem matchElems_boundary :
    ∀ ps s r, matchElems ps s = some r → boundaryAfter r = true := by
  refine matchElems.induct
    (fun ps s => ∀ r, matchElems ps s = some r → boundaryAfter r = true)
    (fun k ps s => ∀ r, tryWs k ps s = some r → boundaryAfter r = true)
    (fun alts ps s => ∀ r, tryAlts alts ps s = some r → boundaryAfter r = true)
    ?_ ?_ ?_ ?_ ?_ ?_ ?_ ?_ ?_ ?_ ?_ ?_ ?_ ?_ ?_ ?_ ?_
  · intro s hb r h
    simp [matchElems, hb] at h
    subst h
    exact hb
  · intro s hb r h
    simp [matchElems, hb] at h
  · intro w ps s s' hs ih r h
    simp only [matchElems, hs] at h
    exact ih r h
  · intro w ps s hs r h
    simp [matchElems, hs] at h
  · intro ps ih r h
    simp only [matchElems] at h
    exact ih r h
  · intro ps tail s' hm ih r h
    simp only [matchElems, hm, if_pos] at h
    have hr : s' = r := by simpa using h
    exact hr ▸ ih s' hm
  · intro ps tail hm ih1 ih2 r h
    simp only [matchElems, hm, if_pos] at h
    exact ih2 r h
  · intro ps c tail hc ih r h
    simp only [matchElems, if_neg hc] at h
    exact ih r h
  · intro alts ps s ih r h
    simp only [matchElems] at h
    exact ih r h
  · intro ps s ih r h
    simp only [matchElems] at h
    exact ih r h
  · intro ps s ih r h
    simp only [tryWs] at h
    exact ih r h
  · intro k ps s s' hm ih r h
    simp only [tryWs, hm] at h
    have hr : s' = r := by simpa using h
    exact hr ▸ ih s' hm
  · intro k ps s hm ih ihk r h
    simp only [tryWs, hm] at h
    exact ihk r h
  · intro ps s ih r h
    simp only [tryAlts] at h
    exact ih r h
  · intro a as ps s s' hs s'' hm ih r h
    simp only [tryAlts, hs, hm] at h
    have hr : s'' = r := by simpa using h
    exact hr ▸ ih s'' hm
  · intro a as ps s s' hs hm ih ihas r h
    simp only [tryAlts, hs, hm] at h
    exact ihas r h
  · intro a as ps s hs ih r h
    simp only [tryAlts, hs] at h
    exact ih r h

/-- The consumed-prefix shape of a successful banned-pattern match:
nonempty, only word/whitespace/hyphen characters, and a word character
last. -/
def ConsumedShape (s r : List Char) : Prop :=
  ∃ u e, s = u ++ r ∧ u.getLast? = some e ∧ isWordChar e = true ∧ u.all okChar = true

/-- Prepending consumed characters keeps the shape. -/
theorem consumedShape_append {s1 r u1 : List Char} (hs : ConsumedShape s1 r)
    (h1 : u1.all okChar = true) : ConsumedShape (u1 ++ s1) r := by
  obtain ⟨u, e, h, hl, he, ho⟩ := hs
  have hu : u ≠ [] := by
    rintro rfl
    simp at hl
  refine ⟨u1 ++ u, e, by simp [h], ?_, he, by simp [List.all_append, h1, ho]⟩
  rw [List.getLast?_append_of_ne_nil _ hu]
  exact hl

/-- A nonempty all-word prefix is itself a consumed shape. -/
theorem consumedShape_of_words {u s : List Char} (hu : u ≠ [])
    (hw : u.all isWordChar = true) : ConsumedShape (u ++ s) s := by
  obtain ⟨e, he⟩ := Option.isSome_iff_exists.mp
    ((List.getLast?_isSome).mpr hu)
  refine ⟨u, e, rfl, he, ?_, ?_⟩
  · exact List.all_eq_true.mp hw e (List.mem_of_mem_getLast? (Option.mem_def.mpr he))
  · refine List.all_eq_true.mpr (fun c hc => ?_)
    have := List.all_eq_true.mp hw c hc
    simp [okChar, this]

/-- A literal-headed tail pattern always consumes. -/
theorem matchElems_litHead_shrink {ps : Pat} {s r : List Char}
    (hps : (match ps with | .lit (_ :: _) :: _ => true | _ => false) = true)
    (h : matchElems ps s = some r) : r.length < s.length := by
  match ps, hps, h with
  | .lit (l :: w2) :: ps2, _, h => exact matchElems_lit_shrink h

/-- Shape of a successful match of well-formed pattern elements: either
nothing was consumed, or the consumed prefix has the banned shape. -/
theorem matchElems_shape :
    ∀ ps s r, wfElems ps = true → matchElems ps s = some r →
      s = r ∨ ConsumedShape s r := by
  refine matchElems.induct
    (fun ps s => ∀ r, wfElems ps = true → matchElems ps s = some r →
      s = r ∨ ConsumedShape s r)
    (fun k ps s => ∀ r,
      (match ps with | .lit (_ :: _) :: _ => true | _ => false) = true →
      wfElems ps = true →
      k ≤ countWs s → tryWs k ps s = some r → ConsumedShape s r)
    (fun alts ps s => ∀ r,
      alts.all (fun a => !a.isEmpty && a.all isLowerAZ) = true → wfElems ps = true →
      tryAlts alts ps s = some r → s = r ∨ ConsumedShape s r)
    ?_ ?_ ?_ ?_ ?_ ?_ ?_ ?_ ?_ ?_ ?_ ?_ ?_ ?_ ?_ ?_ ?_
  · intro s hb r _ h
    simp [matchElems, hb] at h
    exact Or.inl h
  · intro s hb r _ h
    simp [matchElems, hb] at h
  · intro w ps s s' hs ih r hwf h
    simp only [matchElems, hs] at h
    simp only [wfElems, Bool.and_eq_true] at hwf
    obtain ⟨⟨hw1, hw2⟩, hwps⟩ := hwf
    obtain ⟨u1, hu1, hu1len, hu1w⟩ := stripLit_chars hs hw2
    have hu1ne : u1 ≠ [] := by
      intro h0
      rw [h0] at hu1len
      cases w with
      | nil => simp at hw1
      | cons a2 b2 => simp at hu1len
    rcases ih r hwps h with rfl | hsh
    · exact Or.inr (hu1 ▸ consumedShape_of_words hu1ne hu1w)
    · refine Or.inr (hu1 ▸ consumedShape_append hsh ?_)
      refine List.all_eq_true.mpr (fun c hc => ?_)
      have := List.all_eq_true.mp hu1w c hc
      simp [okChar, this]
  · intro w ps s hs r _ h
    simp [matchElems, hs] at h
  · intro ps ih r hwf h
    simp only [matchElems] at h
    simp only [wfElems, Bool.and_eq_true] at hwf
    have := matchElems_litHead_shrink hwf.1 h
    simp at this
  · intro ps tail s' hm ih r hwf h
    simp only [matchElems, hm, if_pos] at h
    have hr : s' = r := by simpa using h
    subst hr
    simp only [wfElems, Bool.and_eq_true] at hwf
    obtain ⟨hlit, hwps⟩ := hwf
    rcases ih s' hwps hm with heq | hsh
    · have := matchElems_litHead_shrink hlit hm
      rw [heq] at this
      omega
    · obtain ⟨u, e, hu, hl, he, ho⟩ := hsh
      refine Or.inr ⟨'-' :: u, e, by simp [hu], ?_, he, ?_⟩
      · have hune : u ≠ [] := by rintro rfl; simp at hl
        rw [show ('-' :: u) = ['-'] ++ u from rfl,
          List.getLast?_append_of_ne_nil _ hune]
        exact hl
      · simp only [List.all_cons, Bool.and_eq_true]
        exact ⟨by simp [okChar], ho⟩
  · intro ps tail hm ih1 ih2 r hwf h
    simp only [matchElems, hm, if_pos] at h
    simp only [wfElems, Bool.and_eq_true] at hwf
    exact ih2 r hwf.2 h
  · intro ps c tail hc ih r hwf h
    simp only [matchElems, if_neg hc] at h
    simp only [wfElems, Bool.and_eq_true] at hwf
    exact ih r hwf.2 h
  · intro alts ps s ih r hwf h
    simp only [matchElems] at h
    simp only [wfElems, Bool.and_eq_true] at hwf
    exact ih r hwf.1 hwf.2 h
  · intro ps s ih r hwf h
    simp only [matchElems] at h
    simp only [wfElems, Bool.and_eq_true] at hwf
    obtain ⟨hlit, hwps⟩ := hwf
    exact Or.inr (ih r hlit hwps (Nat.le_refl _) h)
  · intro ps s ih r hlit hwf hk h
    simp only [tryWs] at h
    rcases ih r hwf h with heq | hsh
    · have := matchElems_litHead_shrink hlit h
      rw [heq] at this
      omega
    · exact hsh
  · intro k ps s s' hm ih r hlit hwf hk h
    simp only [tryWs, hm] at h
    have hr : s' = r := by simpa using h
    subst hr
    rcases ih s' hwf hm with heq | hsh
    · have := matchElems_litHead_shrink hlit hm
      rw [heq] at this
      omega
    · have hws : (s.take (k + 1)).all isJsSpace = true := countWs_take hk
      have hsplit : s = s.take (k + 1) ++ s.drop (k + 1) := by
        rw [List.take_append_drop]
      have hwsok : (s.take (k + 1)).all okChar = true := by
        refine List.all_eq_true.mpr (fun c hc => ?_)
        have := List.all_eq_true.mp hws c hc
        simp [okChar, this]
      have := consumedShape_append hsh hwsok
      rw [← hsplit] at this
      exact this
  · intro k ps s hm ih ihk r hlit hwf hk h
    simp only [tryWs, hm] at h
    exact ihk r hlit hwf (by omega) h
  · intro ps s ih r halts hwf h
    simp only [tryAlts] at h
    exact ih r hwf h
  · intro a as ps s s' hs s'' hm ih r halts hwf h
    simp only [tryAlts, hs, hm] at h
    have hr : s'' = r := by simpa using h
    subst hr
    simp only [List.all_cons, Bool.and_eq_true] at halts
    obtain ⟨⟨ha1, ha2⟩, _⟩ := halts
    obtain ⟨u1, hu1, hu1len, hu1w⟩ := stripLit_chars hs ha2
    have hu1ne : u1 ≠ [] := by
      intro h0
      rw [h0] at hu1len
      cases a with
      | nil => simp at ha1
      | cons a2 b2 => simp at hu1len
    rcases ih s'' hwf hm with rfl | hsh
    · exact Or.inr (hu1 ▸ consumedShape_of_words hu1ne hu1w)
    · refine Or.inr (hu1 ▸ consumedShape_append hsh ?_)
      refine List.all_eq_true.mpr (fun c hc => ?_)
      have := List.all_eq_true.mp hu1w c hc
      simp [okChar, this]
  · intro a as ps s s' hs hm ih ihas r halts hwf h
    simp only [tryAlts, hs, hm] at h
    simp only [List.all_cons, Bool.and_eq_true] at halts
    exact ihas r halts.2 hwf h
  · intro a as ps s hs ih r halts hwf h
    simp only [tryAlts, hs] at h
    simp only [List.all_cons, Bool.and_eq_true] at halts
    exact ih r halts.2 hwf h

/-- Transfer of a successful match to a text with the same consumed
prefix and an equivalent boundary: the matcher only inspects the
consumed characters and the boundary class of what follows, so
replacing the rest preserves matchability. -/
theorem matchElems_transfer :
    ∀ ps s r, matchElems ps s = some r → ∀ u t, s = u ++ r →
      boundaryAfter r = boundaryAfter t → (matchElems ps (u ++ t)).isSome = true := by
  refine matchElems.induct
    (fun ps s => ∀ r, matchElems ps s = some r → ∀ u t, s = u ++ r →
      boundaryAfter r = boundaryAfter t → (matchElems ps (u ++ t)).isSome = true)
    (fun k ps s => ∀ r, tryWs k ps s = some r → k ≤ countWs s → ∀ u t, s = u ++ r →
      boundaryAfter r = boundaryAfter t →
      ∃ j, j ≤ k ∧ j ≤ u.length ∧ (matchElems ps (u.drop j ++ t)).isSome = true)
    (fun alts ps s => ∀ r, tryAlts alts ps s = some r → ∀ u t, s = u ++ r →
      boundaryAfter r = boundaryAfter t → (tryAlts alts ps (u ++ t)).isSome = true)
    ?_ ?_ ?_ ?_ ?_ ?_ ?_ ?_ ?_ ?_ ?_ ?_ ?_ ?_ ?_ ?_ ?_
  · intro s hb r h u t hsu hbd
    simp only [matchElems, hb, if_true, Option.some.injEq] at h
    subst h
    have hu : u = [] := by
      have hlen := congrArg List.length hsu
      simp only [List.length_append] at hlen
      exact List.eq_nil_of_length_eq_zero (by omega)
    subst hu
    have hbt : boundaryAfter t = true := by rw [← hbd]; exact hb
    simp [matchElems, hbt]
  · intro s hb r h u t hsu hbd
    simp [matchElems, hb] at h
  · intro w ps s s' hs ih r h u t hsu hbd
    simp only [matchElems, hs] at h
    obtain ⟨u1, hsu1, htr⟩ := stripLit_transfer hs
    have hlen : u1.length ≤ u.length := by
      have h1 := matchElems_length h
      have hlu := congrArg List.length hsu
      have hlu1 := congrArg List.length hsu1
      simp only [List.length_append] at hlu hlu1
      omega
    obtain ⟨u2, hu2, hs2⟩ := append_split (hsu1.symm.trans hsu) hlen
    have hih := ih r h u2 t hs2 hbd
    rw [hu2, List.append_assoc]
    simp only [matchElems, htr (u2 ++ t)]
    exact hih
  · intro w ps s hs r h u t hsu hbd
    simp [matchElems, hs] at h
  · intro ps ih r h u t hsu hbd
    simp only [matchElems] at h
    obtain ⟨rfl, rfl⟩ := List.append_eq_nil.mp hsu.symm
    have hih := ih [] h [] t rfl hbd
    simp only [List.nil_append] at hih ⊢
    exact matchElems_optDash_lift hih
  · intro ps tail s' hm ih r h u t hsu hbd
    simp only [matchElems, hm, if_pos] at h
    have hr : s' = r := by simpa using h
    subst hr
    cases u with
    | nil =>
      simp only [List.nil_append] at hsu
      have h1 := matchElems_length hm
      have hlen := congrArg List.length hsu
      simp at hlen
      omega
    | cons x u2 =>
      rw [List.cons_append] at hsu
      injection hsu with hx htl
      subst hx
      have hih := ih s' hm u2 t htl hbd
      rw [List.cons_append]
      rcases hx2 : matchElems ps (u2 ++ t) with _ | q
      · rw [hx2] at hih; simp at hih
      · simp [matchElems, hx2]
  · intro ps tail hm ih1 ih2 r h u t hsu hbd
    simp only [matchElems, hm, if_pos] at h
    cases u with
    | nil =>
      simp only [List.nil_append] at hsu
      subst hsu
      have hih := ih2 _ h [] t rfl hbd
      simp only [List.nil_append] at hih ⊢
      exact matchElems_optDash_lift hih
    | cons x u2 =>
      rw [List.cons_append] at hsu
      injection hsu with hx htl
      subst hx
      have hih := ih2 r h ('-' :: u2) t (by rw [List.cons_append, htl]) hbd
      rw [List.cons_append]
      rcases hx2 : matchElems ps (u2 ++ t) with _ | q
      · rw [List.cons_append] at hih
        simpa [matchElems, hx2] using hih
      · simp [matchElems, hx2]
  · intro ps c tail hc ih r h u t hsu hbd
    simp only [matchElems, if_neg hc] at h
    cases u with
    | nil =>
      simp only [List.nil_append] at hsu
      subst hsu
      have hih := ih _ h [] t rfl hbd
      simp only [List.nil_append] at hih ⊢
      exact matchElems_optDash_lift hih
    | cons x u2 =>
      rw [List.cons_append] at hsu
      injection hsu with hx htl
      subst hx
      have hih := ih r h (c :: u2) t (by rw [List.cons_append, htl]) hbd
      rw [List.cons_append]
      rw [List.cons_append] at hih
      simpa [matchElems, if_neg hc] using hih
  · intro alts ps s ih r h u t hsu hbd
    simp only [matchElems] at h
    simp only [matchElems]
    exact ih r h u t hsu hbd
  · intro ps s ih r h u t hsu hbd
    simp only [matchElems] at h
    obtain ⟨j, hj1, hj2, hsome⟩ := ih r h (Nat.le_refl _) u t hsu hbd
    have hws : ((u ++ t).take j).all isJsSpace = true := by
      have h1 : (s.take j).all isJsSpace = true := countWs_take (le_trans hj1 (Nat.le_refl _))
      rw [hsu, List.take_append_of_le_length hj2] at h1
      rw [List.take_append_of_le_length hj2]
      exact h1
    have hcw : j ≤ countWs (u ++ t) := by
      refine countWs_ge ?_ hws
      simp only [List.length_append]
      omega
    have hfin := tryWs_any (countWs (u ++ t)) j hcw (by
      rw [List.drop_append_of_le_length hj2]
      exact hsome)
    simp only [matchElems]
    exact hfin
  · intro ps s ih r h hk u t hsu hbd
    simp only [tryWs] at h
    have hih := ih r h u t hsu hbd
    exact ⟨0, Nat.zero_le _, Nat.zero_le _, by simpa using hih⟩
  · intro k ps s s' hm ih r h hk u t hsu hbd
    simp only [tryWs, hm] at h
    have hr : s' = r := by simpa using h
    subst hr
    have hku : k + 1 ≤ u.length := by
      have h1 := matchElems_length hm
      have hlu := congrArg List.length hsu
      have hcl := countWs_le_length s
      simp only [List.length_append] at hlu
      simp only [List.length_drop] at h1
      omega
    have hdrop : s.drop (k + 1) = u.drop (k + 1) ++ s' := by
      rw [hsu, List.drop_append_of_le_length hku]
    have hih := ih s' hm (u.drop (k + 1)) t hdrop hbd
    exact ⟨k + 1, Nat.le_refl _, hku, hih⟩
  · intro k ps s hm ih ihk r h hk u t hsu hbd
    simp only [tryWs, hm] at h
    obtain ⟨j, hj1, hj2, hsome⟩ := ihk r h (by omega) u t hsu hbd
    exact ⟨j, by omega, hj2, hsome⟩
  · intro ps s ih r h u t hsu hbd
    simp only [tryAlts] at h
    simp only [tryAlts]
    exact ih r h u t hsu hbd
  · intro a as ps s s' hs s'' hm ih r h u t hsu hbd
    simp only [tryAlts, hs, hm] at h
    have hr : s'' = r := by simpa using h
    subst hr
    obtain ⟨u1, hsu1, htr⟩ := stripLit_transfer hs
    have hlen : u1.length ≤ u.length := by
      have h1 := matchElems_length hm
      have hlu := congrArg List.length hsu
      have hlu1 := congrArg List.length hsu1
      simp only [List.length_append] at hlu hlu1
      omega
    obtain ⟨u2, hu2, hs2⟩ := append_split (hsu1.symm.trans hsu) hlen
    have hih := ih s'' hm u2 t hs2 hbd
    rw [hu2, List.append_assoc]
    rcases hx : matchElems ps (u2 ++ t) with _ | q
    · rw [hx] at hih; simp at hih
    · simp [tryAlts, htr (u2 ++ t), hx]
  · intro a as ps s s' hs hm ih ihas r h u t hsu hbd
    simp only [tryAlts, hs, hm] at h
    have hih := ihas r h u t hsu hbd
    rcases hsb : stripLit a (u ++ t) with _ | sb
    · simpa [tryAlts, hsb] using hih
    · rcases hmb : matchElems ps sb with _ | rb
      · simpa [tryAlts, hsb, hmb] using hih
      · simp [tryAlts, hsb, hmb]
  · intro a as ps s hs ih r h u t hsu hbd
    simp only [tryAlts, hs] at h
    have hih := ih r h u t hsu hbd
    rcases hsb : stripLit a (u ++ t) with _ | sb
    · simpa [tryAlts, hsb] using hih
    · rcases hmb : matchElems ps sb with _ | rb
      · simpa [tryAlts, hsb, hmb] using hih
      · simp [tryAlts, hsb, hmb]

/-- A banned pattern is well-formed. -/
theorem bannedShape_wf {p : Pat} (h : bannedShape p = true) : wfElems p = true := by
  match p, h with
  | .lit (l :: w) :: ps, h =>
    simp only [bannedShape, Bool.and_eq_true] at h
    exact h.2

/-- A banned pattern always consumes. -/
theorem bannedShape_shrink {p : Pat} (hb : bannedShape p = true) {s r : List Char}
    (h : matchElems p s = some r) : r.length < s.length := by
  match p, hb, h with
  | .lit (l :: w) :: ps, _, h => exact matchElems_lit_shrink h

/-- A word-character position never starts a match (`\b` fails). -/
theorem matchHere_true {p : Pat} (s : List Char) : matchHere p true s = none := by
  simp [matchHere]

/-- The structure of one scan: either no match fired and the text is
returned unchanged, or the text splits into kept characters, a first
nonempty match and the rest, with the replacement block between them in
the output — and the character before the match, when there is one, is
not a word character. -/
theorem scanRep_split (p : Pat) (hp : firstLitB p = true) :
    ∀ s : List Char, ∀ w : Bool, scanRep p hp w s = s ∨
      ∃ K M r, s = K ++ M ++ r ∧ M ≠ [] ∧
        scanRep p hp w s = K ++ (redactedR ++ scanRep p hp true r) ∧
        ((K = [] ∧ w = false) ∨
         ∃ e, K.getLast? = some e ∧ isWordChar e = false) := by
  intro s
  induction s with
  | nil => intro w; left; rw [scanRep]
  | cons c cs ih =>
    intro w
    rw [scanRep]
    split
    · rename_i r hm
      right
      have hmm : matchElems p (c :: cs) = some r := by
        unfold matchHere at hm
        split at hm
        · exact absurd hm (by simp)
        · exact hm
      have hw : w = false := by
        unfold matchHere at hm
        split at hm
        · exact absurd hm (by simp)
        · rename_i hnw
          rw [Bool.not_eq_true] at hnw
          exact hnw
      obtain ⟨M, hM⟩ := matchElems_suffix _ _ _ hmm
      have hlen := matchHere_shrink hp hm
      have hMne : M ≠ [] := by
        rintro rfl
        rw [List.nil_append] at hM
        rw [hM] at hlen
        omega
      exact ⟨[], M, r, by simp [hM.symm], hMne, by simp, Or.inl ⟨rfl, hw⟩⟩
    · rename_i hm
      rcases ih (isWordChar c) with hid | ⟨K, M, r, hcs, hM, hout, hjun⟩
      · left
        rw [hid]
      · right
        refine ⟨c :: K, M, r, by simp [hcs], hM, by simp [hout], Or.inr ?_⟩
        rcases hjun with ⟨rfl, hwc⟩ | ⟨e, he1, he2⟩
        · exact ⟨c, by simp, hwc⟩
        · refine ⟨e, ?_, he2⟩
          have hKne : K ≠ [] := by rintro rfl; simp at he1
          rw [show (c :: K) = [c] ++ K from rfl,
            List.getLast?_append_of_ne_nil _ hKne]
          exact he1

/-- The replacement block never hosts or admits a banned match: walking
a test across `"[REDACTED]"` finds nothing, whatever follows. -/
theorem testPat_redacted_prefix {p2 : Pat} (hb2 : bannedShape p2 = true)
    {x : List Char} (hx : testPat p2 false x = false) (w : Bool) :
    testPat p2 w (redactedR ++ x) = false := by
  have h1 : ∀ t, matchElems p2 ('[' :: t) = none :=
    fun t => matchElems_nonword_head hb2 (by decide) t
  have h2 : ∀ t, matchElems p2 ('R' :: t) = none := matchElems_R_head hb2
  have h3 : ∀ t, matchElems p2 (']' :: t) = none :=
    fun t => matchElems_nonword_head hb2 (by decide) t
  simp only [redactedR, List.cons_append, List.nil_append]
  simp [testPat, matchHere, h1, h2, h3, isWordChar, hx]

/-- The scan invariant: scanning banned pattern `p` leaves no match of
`p` itself, and no match of any other banned pattern `p2` the text was
already free of. -/
theorem scan_clean (p2 p : Pat) (hb2 : p2 ∈ NOTE_BANNED_PATTERNS)
    (hb : p ∈ NOTE_BANNED_PATTERNS) (hp : firstLitB p = true) :
    ∀ n : Nat, ∀ s : List Char, s.length ≤ n → ∀ w : Bool,
      (p2 = p ∨ testPat p2 w s = false) →
      testPat p2 w (scanRep p hp w s) = false := by
  have hshape2 := bannedShape_all p2 hb2
  have hshape := bannedShape_all p hb
  intro n
  induction n with
  | zero =>
    intro s hs w hyp
    have : s = [] := List.eq_nil_of_length_eq_zero (by omega)
    subst this
    rw [scanRep]
    rfl
  | succ n ih =>
    intro s hs w hyp
    cases s with
    | nil =>
      rw [scanRep]
      rfl
    | cons c cs =>
      rw [scanRep]
      split
      · rename_i r hm
        have hmm : matchElems p (c :: cs) = some r := by
          unfold matchHere at hm
          split at hm
          · exact absurd hm (by simp)
          · exact hm
        have hw : w = false := by
          unfold matchHere at hm
          split at hm
          · exact absurd hm (by simp)
          · rename_i hnw
            rw [Bool.not_eq_true] at hnw
            exact hnw
        subst hw
        have hbd := matchElems_boundary _ _ _ hmm
        refine testPat_redacted_prefix hshape2 ?_ false
        cases hr : r with
        | nil =>
          rw [scanRep]
          rfl
        | cons d ds =>
          have hdw : isWordChar d = false := by
            rw [hr] at hbd
            simpa [boundaryAfter] using hbd
          rw [scanRep]
          rw [show matchHere p true (d :: ds) = none from matchHere_true _]
          rw [hdw]
          rw [testPat]
          refine Bool.or_eq_false_iff.mpr ⟨?_, ?_⟩
          · rw [show matchHere p2 false (d :: scanRep p hp false ds) =
              matchElems p2 (d :: scanRep p hp false ds) by simp [matchHere]]
            rw [matchElems_nonword_head hshape2 hdw]
            rfl
          · rw [hdw]
            refine ih ds ?_ false ?_
            · have := matchHere_shrink hp hm
              rw [hr] at this
              simp only [List.length_cons] at this hs ⊢
              omega
            · rcases hyp with rfl | hyp
              · exact Or.inl rfl
              · right
                obtain ⟨y, hy⟩ := matchElems_suffix _ _ _ hmm
                rw [hr] at hy
                have hy2 : c :: cs = (y ++ [d]) ++ ds := by
                  rw [← hy]
                  simp
                have hgl : (y ++ [d]).getLast? = some d := by
                  rw [List.getLast?_append_of_ne_nil _ (by simp : ([d] : List Char) ≠ [])]
                  rfl
                have := testPat_suffix (y ++ [d]) (by rw [← hy2]; exact hyp) hgl
                rwa [hdw] at this
      · rename_i hm
        rw [testPat]
        refine Bool.or_eq_false_iff.mpr ⟨?_, ?_⟩
        · cases hwv : w with
          | true => simp [matchHere]
          | false =>
            have horig : matchElems p2 (c :: cs) = none := by
              rcases hyp with rfl | hyp
              · unfold matchHere at hm
                rw [hwv] at hm
                simpa using hm
              · rw [hwv] at hyp
                rw [testPat] at hyp
                have := (Bool.or_eq_false_iff.mp hyp).1
                rw [show matchHere p2 false (c :: cs) =
                  matchElems p2 (c :: cs) by simp [matchHere]] at this
                exact Option.not_isSome_iff_eq_none.mp (by simp [this])
            rw [show matchHere p2 false (c :: scanRep p hp (isWordChar c) cs) =
              matchElems p2 (c :: scanRep p hp (isWordChar c) cs) by simp [matchHere]]
            rcases scanRep_split p hp cs (isWordChar c)
              with hid | ⟨K, M, r, hcs, hMne, hout, hjun⟩
            · rw [hid, horig]
              rfl
            · rcases hjun with ⟨rfl, hwc⟩ | ⟨e, he1, he2⟩
              · rw [matchElems_nonword_head hshape2 hwc]
                rfl
              · have hKne : K ≠ [] := by rintro rfl; simp at he1
                by_contra hcon
                rw [Bool.not_eq_false] at hcon
                obtain ⟨ρ, hρ⟩ := Option.isSome_iff_exists.mp hcon
                have hsh := matchElems_shape p2 _ ρ (bannedShape_wf hshape2) hρ
                rcases hsh with heq | ⟨u, e2, hsplit, hl, hew, hok⟩
                · have := bannedShape_shrink hshape2 hρ
                  rw [heq] at this
                  omega
                · have hform : c :: scanRep p hp (isWordChar c) cs =
                      (c :: K) ++ ('[' :: (redactedR.tail ++ scanRep p hp true r)) := by
                    rw [hout]
                    simp [redactedR]
                  rw [hform] at hsplit hρ
                  rcases List.append_eq_append_iff.mp hsplit.symm with
                    ⟨m, hm1, hm2⟩ | ⟨m, hm1, hm2⟩
                  · cases m with
                    | nil =>
                      rw [List.append_nil] at hm1
                      rw [← hm1] at hl
                      rw [show (c :: K) = [c] ++ K from rfl,
                        List.getLast?_append_of_ne_nil _ hKne, he1] at hl
                      have hee : e = e2 := Option.some_inj.mp hl
                      rw [← hee] at hew
                      rw [hew] at he2
                      exact Bool.true_eq_false.mp he2
                    | cons e3 m2 =>
                      have hbρ := matchElems_boundary _ _ _ hρ
                      rw [hm2] at hbρ
                      have htr := matchElems_transfer p2 _ ρ hρ u
                        ((e3 :: m2) ++ (M ++ r)) hsplit
                        (by
                          rw [hm2]
                          simp [boundaryAfter])
                      have hback : u ++ ((e3 :: m2) ++ (M ++ r)) = c :: cs := by
                        rw [← List.append_assoc, ← hm1, hcs]
                        simp
                      rw [hback, horig] at htr
                      simp at htr
                  · cases m with
                    | nil =>
                      rw [List.append_nil] at hm1
                      rw [hm1] at hl
                      rw [show (c :: K) = [c] ++ K from rfl,
                        List.getLast?_append_of_ne_nil _ hKne, he1] at hl
                      have hee : e = e2 := Option.some_inj.mp hl
                      rw [← hee] at hew
                      rw [hew] at he2
                      exact Bool.true_eq_false.mp he2
                    | cons x m2 =>
                      have hx : x = '[' := by
                        have := congrArg (fun l => l.head?) hm2
                        simpa using this.symm
                      subst hx
                      have : okChar '[' = true := by
                        refine List.all_eq_true.mp hok '[' ?_
                        rw [hm1]
                        simp
                      exact absurd this (by decide)
        · refine ih cs (by simpa using Nat.le_of_succ_le_succ hs) (isWordChar c) ?_
          rcases hyp with rfl | hyp
          · exact Or.inl rfl
          · right
            rw [testPat] at hyp
            exact (Bool.or_eq_false_iff.mp hyp).2

/-- One redaction stage preserves freedom from any banned pattern. -/
theorem sanitizeStage_preserves (acc : List Char × Bool)
    (q : {q : Pat // q ∈ NOTE_BANNED_PATTERNS}) (p3 : Pat)
    (hp3 : p3 ∈ NOTE_BANNED_PATTERNS)
    (h : testPat p3 false acc.1 = false) :
    testPat p3 false (sanitizeStage acc q).1 = false := by
  unfold sanitizeStage
  split
  · exact scan_clean p3 q.1 hp3 q.2 (bannedFirstLit q.1 q.2) acc.1.length acc.1
      (Nat.le_refl _) false (Or.inr h)
  · exact h

/-- One redaction stage clears its own pattern. -/
theorem sanitizeStage_self (acc : List Char × Bool)
    (q : {q : Pat // q ∈ NOTE_BANNED_PATTERNS}) :
    testPat q.1 false (sanitizeStage acc q).1 = false := by
  unfold sanitizeStage
  split
  · exact scan_clean q.1 q.1 q.2 q.2 (bannedFirstLit q.1 q.2) acc.1.length acc.1
      (Nat.le_refl _) false (Or.inl rfl)
  · rename_i hq
    simpa using hq

/-- A stage on an already clean text is the identity. -/
theorem sanitizeStage_clean_id (acc : List Char × Bool)
    (q : {q : Pat // q ∈ NOTE_BANNED_PATTERNS})
    (h : testPat q.1 false acc.1 = false) : sanitizeStage acc q = acc := by
  unfold sanitizeStage
  rw [if_neg (by simp [h])]

/-- A stage never empties a nonempty text. -/
theorem sanitizeStage_ne_nil (acc : List Char × Bool)
    (q : {q : Pat // q ∈ NOTE_BANNED_PATTERNS})
    (h : acc.1 ≠ []) : (sanitizeStage acc q).1 ≠ [] := by
  unfold sanitizeStage
  split
  · exact scanRep_ne_nil h
  · exact h

/-- The redaction fold clears every pattern that is still pending and
preserves every pattern already cleared. -/
theorem foldl_stage_clean :
    ∀ (todo : List {q : Pat // q ∈ NOTE_BANNED_PATTERNS}) (acc : List Char × Bool),
      (∀ p ∈ NOTE_BANNED_PATTERNS,
        p ∈ todo.map Subtype.val ∨ testPat p false acc.1 = false) →
      ∀ p ∈ NOTE_BANNED_PATTERNS,
        testPat p false (todo.foldl sanitizeStage acc).1 = false := by
  intro todo
  induction todo with
  | nil =>
    intro acc hinv p hp
    rcases hinv p hp with hmem | hclean
    · simp at hmem
    · simpa using hclean
  | cons q qs ih =>
    intro acc hinv p hp
    simp only [List.foldl_cons]
    refine ih (sanitizeStage acc q) ?_ p hp
    intro p3 hp3
    rcases hinv p3 hp3 with hmem | hclean
    · simp only [List.map_cons, List.mem_cons] at hmem
      rcases hmem with rfl | hmem2
      · right
        exact sanitizeStage_self acc q
      · left
        exact hmem2
    · right
      exact sanitizeStage_preserves acc q p3 hp3 hclean

/-- The redaction fold on clean input is the identity. -/
theorem foldl_stage_id :
    ∀ (todo : List {q : Pat // q ∈ NOTE_BANNED_PATTERNS}) (acc : List Char × Bool),
      (∀ q ∈ todo, testPat q.1 false acc.1 = false) →
      todo.foldl sanitizeStage acc = acc := by
  intro todo
  induction todo with
  | nil => intro acc _; rfl
  | cons q qs ih =>
    intro acc h
    simp only [List.foldl_cons]
    rw [sanitizeStage_clean_id acc q (h q (by simp))]
    exact ih acc (fun q2 hq2 => h q2 (by simp [hq2]))

/-- The redaction fold never empties a nonempty text. -/
theorem foldl_stage_ne_nil :
    ∀ (todo : List {q : Pat // q ∈ NOTE_BANNED_PATTERNS}) (acc : List Char × Bool),
      acc.1 ≠ [] → (todo.foldl sanitizeStage acc).1 ≠ [] := by
  intro todo
  induction todo with
  | nil => intro acc h; exact h
  | cons q qs ih =>
    intro acc h
    simp only [List.foldl_cons]
    exact ih (sanitizeStage acc q) (sanitizeStage_ne_nil acc q h)

/-- The sanitized text is free of every banned pattern. -/
theorem sanitizeText_clean (s : List Char) :
    ∀ p ∈ NOTE_BANNED_PATTERNS, testPat p false (sanitizeText s).1 = false := by
  intro p hp
  refine foldl_stage_clean NOTE_BANNED_PATTERNS.attach (s, false) ?_ p hp
  intro p3 hp3
  left
  rw [List.attach_map_subtype_val]
  exact hp3

/-- Sanitizing sanitized text is a no-op and reports no redaction. -/
theorem sanitizeText_idem (s : List Char) :
    sanitizeText (sanitizeText s).1 = ((sanitizeText s).1, false) := by
  have hclean := sanitizeText_clean s
  generalize hT : (sanitizeText s).1 = t at hclean ⊢
  unfold sanitizeText
  exact foldl_stage_id _ _ (fun q _ => hclean q.1 q.2)

/-- Sanitizing never empties a nonempty text. -/
theorem sanitizeText_ne_nil {s : List Char} (h : s ≠ []) : (sanitizeText s).1 ≠ [] :=
  foldl_stage_ne_nil _ (s, false) h

/-- C9: note redaction is idempotent.  Re-sanitizing the sanitized note
returns the same text with the redaction flag `false`: the second pass
performs no substitution and (since the step loop emits the
`compliance_redaction` audit event exactly when the flag is true) emits
no additional redaction audit event. -/
theorem C9_sanitize_idempotent (x : Option String) :
    sanitizeNote (sanitizeNote x).1 = ((sanitizeNote x).1, false) := by
  match x with
  | none => rfl
  | some n =>
    by_cases hn : n = ""
    · subst hn
      rfl
    · have h1 : sanitizeNote (some n) =
          (some (String.mk (sanitizeText n.data).1), (sanitizeText n.data).2) := by
        unfold sanitizeNote
        simp only []
        rw [if_neg hn]
      rw [h1]
      have hdata : n.data ≠ [] := by
        intro h0
        apply hn
        cases n with
        | mk d =>
          simp only at h0
          rw [h0]
      have hne : (sanitizeText n.data).1 ≠ [] := sanitizeText_ne_nil hdata
      have hidem := sanitizeText_idem n.data
      generalize hT : (sanitizeText n.data).1 = t at hne hidem ⊢
      have hne2 : String.mk t ≠ "" := fun h0 => hne (congrArg String.data h0)
      unfold sanitizeNote
      simp only []
      rw [if_neg hne2]
      show (some (String.mk (sanitizeText (String.mk t).data).1),
        (sanitizeText (String.mk t).data).2) = (some (String.mk t), false)
      rw [show (String.mk t).data = t from rfl, hidem]

/-! ## Claim C7: canonical serialization (`stableStringify`)

`stableStringify` (ect.js:172-189) recursively copies the value with
every object's keys sorted by `localeCompare`, guarding with a
`WeakSet` of already-visited composite nodes that is never cleared —
so *any* revisit of a composite node (sharing as well as a cycle)
throws `"Cyclic reference detected"` — and then `JSON.stringify`s the
copy with indent 2 and appends a newline.  Composite values are
modelled on a heap of nodes referenced by identity, so that node
identity (what the `WeakSet` observes) is explicit. -/

/-- A JS value as `stableStringify` sees it: a primitive, or a
reference to a composite node of the heap. -/
inductive HVal where
  | hnull
  | hbool (b : Bool)
  | hnum (n : Int)
  | hstr (s : String)
  | href (id : Nat)
deriving DecidableEq

/-- A composite node: an array or a plain object. -/
inductive HNode where
  | harr (items : List HVal)
  | hobj (fields : List (String × HVal))
deriving DecidableEq

/-- The store of composite nodes; `HVal.href i` points at entry `i`. -/
abbrev Heap := List HNode

/-- `(a, b) => a.localeCompare(b)` on object keys. -/
def fieldHLe (a b : String × HVal) : Prop := jsLocaleLe a.1 b.1 = true

instance : DecidableRel fieldHLe := fun a b => by
  unfold fieldHLe; infer_instance

instance : IsTotal (String × HVal) fieldHLe := ⟨fun a b => jsLocaleLe_total a.1 b.1⟩

instance : IsTrans (String × HVal) fieldHLe := ⟨fun _ _ _ => jsLocaleLe_trans⟩

mutual

/-- The `sorter` recursion of `stableStringify`: primitives pass
through; a composite reference already in `seen` throws the cyclic
error, otherwise its node is copied with object keys sorted by
`localeCompare` (array order kept) while `seen` (the `WeakSet`, never
cleared) threads left to right.  `fuel` bounds the recursion depth; the
wrapper supplies more fuel than any run can use. -/
def sortHV (h : Heap) : Nat → List Nat → HVal → Except String (JTree × List Nat)
  | _, seen, .hnull => .ok (.jnull, seen)
  | _, seen, .hbool b => .ok (.jbool b, seen)
  | _, seen, .hnum n => .ok (.jnum n, seen)
  | _, seen, .hstr s2 => .ok (.jstr s2, seen)
  | 0, _, .href _ => .error "Stack overflow"
  | fuel + 1, seen, .href id =>
    if id ∈ seen then .error "Cyclic reference detected"
    else
      match h[id]? with
      | none => .error "Dangling reference"
      | some (.harr items) =>
        match sortHL h fuel (id :: seen) items with
        | .error e => .error e
        | .ok (ts, seen2) => .ok (.jarr ts, seen2)
      | some (.hobj fields) =>
        match sortHF h fuel (id :: seen) (List.insertionSort fieldHLe fields) with
        | .error e => .error e
        | .ok (fs, seen2) => .ok (.jobj fs, seen2)
termination_by fuel _ _ => (fuel, 0, 0)

/-- `v.map(sorter)` with the threaded `seen`. -/
def sortHL (h : Heap) : Nat → List Nat → List HVal → Except String (List JTree × List Nat)
  | _, seen, [] => .ok ([], seen)
  | fuel, seen, v :: vs =>
    match sortHV h fuel seen v with
    | .error e => .error e
    | .ok (t, seen2) =>
      match sortHL h fuel seen2 vs with
      | .error e => .error e
      | .ok (ts, seen3) => .ok (t :: ts, seen3)
termination_by fuel _ vs => (fuel, vs.length + 1, 0)

/-- `for (const k of keys) out[k] = sorter(v[k])` with the threaded
`seen`. -/
def sortHF (h : Heap) : Nat → List Nat →
    List (String × HVal) → Except String (List (String × JTree) × List Nat)
  | _, seen, [] => .ok ([], seen)
  | fuel, seen, (k, v) :: fs =>
    match sortHV h fuel seen v with
    | .error e => .error e
    | .ok (t, seen2) =>
      match sortHF h fuel seen2 fs with
      | .error e => .error e
      | .ok (ts, seen3) => .ok ((k, t) :: ts, seen3)
termination_by fuel _ fs => (fuel, fs.length + 1, 0)

end

/-- `stableStringify(value, 2)` over the heap: run the sorter (the
wrapper's fuel strictly exceeds what any run can consume), then
`JSON.stringify(…, null, 2)` and a trailing newline. -/
def stableStringifyH (h : Heap) (v : HVal) : Except String String :=
  match sortHV h (h.length + 1) [] v with
  | .error e => .error e
  | .ok (t, _) => .ok (String.mk (serJ 0 (enumFix t)) ++ "\n")

/-- Two composite nodes with the same identity-structure up to object
key insertion order: arrays are element-wise identical (order kept),
objects hold the same fields possibly inserted in another order. -/
def nodePerm : HNode → HNode → Prop
  | .harr a, .harr b => a = b
  | .hobj fa, .hobj fb => fa.Perm fb
  | _, _ => False

/-- Two heaps equal up to object key insertion order. -/
def heapPerm (h₁ h₂ : Heap) : Prop := List.Forall₂ nodePerm h₁ h₂

/-- Every object of the heap has pairwise distinct keys (as every
actual JS object does). -/
def nodupKeysH (h : Heap) : Prop :=
  ∀ nd ∈ h, ∀ fs, nd = HNode.hobj fs → (fs.map Prod.fst).Nodup

/-- Index lookup along a `Forall₂`. -/
theorem forall2_getElem {l₁ l₂ : Heap} (h : List.Forall₂ nodePerm l₁ l₂) :
    ∀ i : Nat, (l₁[i]? = none ∧ l₂[i]? = none) ∨
      ∃ a b, l₁[i]? = some a ∧ l₂[i]? = some b ∧ nodePerm a b := by
  obtain ⟨hlen, hget⟩ := List.forall₂_iff_get.mp h
  intro i
  by_cases hi : i < l₁.length
  · right
    have hi2 : i < l₂.length := by omega
    refine ⟨l₁.get ⟨i, hi⟩, l₂.get ⟨i, hi2⟩, ?_, ?_, hget i hi hi2⟩
    · rw [List.getElem?_eq_getElem hi]
      simp [List.get_eq_getElem]
    · rw [List.getElem?_eq_getElem hi2]
      simp [List.get_eq_getElem]
  · left
    exact ⟨List.getElem?_eq_none (by omega), List.getElem?_eq_none (by omega)⟩

/-- Two sorted field lists that are permutations of each other and have
distinct keys are equal (`localeCompare` antisymmetry on keys). -/
theorem sorted_fieldHLe_nodup_eq :
    ∀ {l₁ l₂ : List (String × HVal)}, l₁.Perm l₂ →
      List.Sorted fieldHLe l₁ → List.Sorted fieldHLe l₂ →
      (l₁.map Prod.fst).Nodup → l₁ = l₂ := by
  intro l₁
  induction l₁ with
  | nil =>
    intro l₂ hp _ _ _
    exact hp.nil_eq
  | cons a t₁ ih =>
    intro l₂ hp hs₁ hs₂ hnd
    cases l₂ with
    | nil => exact absurd (List.perm_nil.mp hp) (by simp)
    | cons b t₂ =>
      have hab : a = b := by
        by_contra hne
        have ha2 : a ∈ t₂ := by
          have hmem := hp.mem_iff.mp (List.mem_cons_self a t₁)
          rcases List.mem_cons.mp hmem with h | h
          · exact absurd h hne
          · exact h
        have hb1 : b ∈ t₁ := by
          have hmem := hp.symm.mem_iff.mp (List.mem_cons_self b t₂)
          rcases List.mem_cons.mp hmem with h | h
          · exact absurd h.symm hne
          · exact h
        have h1 : fieldHLe a b := (List.sorted_cons.mp hs₁).1 b hb1
        have h2 : fieldHLe b a := (List.sorted_cons.mp hs₂).1 a ha2
        have hkey : a.1 = b.1 := jsLocaleLe_antisymm h1 h2
        have hbm : b.1 ∈ t₁.map Prod.fst := List.mem_map_of_mem Prod.fst hb1
        rw [← hkey] at hbm
        simp only [List.map_cons, List.nodup_cons] at hnd
        exact hnd.1 hbm
      subst hab
      have hp2 : t₁.Perm t₂ := List.Perm.cons_inv hp
      have hr := ih hp2 (List.sorted_cons.mp hs₁).2 (List.sorted_cons.mp hs₂).2
        (by simp only [List.map_cons, List.nodup_cons] at hnd; exact hnd.2)
      rw [hr]

/-- Sorting two key-permutations of one object yields the same list. -/
theorem insertionSort_perm_eq {f₁ f₂ : List (String × HVal)} (hperm : f₁.Perm f₂)
    (hnd : (f₁.map Prod.fst).Nodup) :
    List.insertionSort fieldHLe f₁ = List.insertionSort fieldHLe f₂ := by
  refine sorted_fieldHLe_nodup_eq
    ((List.perm_insertionSort _ f₁).trans (hperm.trans (List.perm_insertionSort _ f₂).symm))
    (List.sorted_insertionSort _ f₁) (List.sorted_insertionSort _ f₂) ?_
  have hpm : (List.insertionSort fieldHLe f₁).map Prod.fst |>.Perm (f₁.map Prod.fst) :=
    (List.perm_insertionSort _ f₁).map Prod.fst
  exact hpm.nodup_iff.mpr hnd

/-- Element-wise congruence of the sorter over the threaded `seen`. -/
theorem sortHL_congr (h₁ h₂ : Heap) (fuel : Nat)
    (hv : ∀ seen v, sortHV h₁ fuel seen v = sortHV h₂ fuel seen v) :
    ∀ seen vs, sortHL h₁ fuel seen vs = sortHL h₂ fuel seen vs := by
  intro seen vs
  induction vs generalizing seen with
  | nil => rw [sortHL, sortHL]
  | cons v vs ih =>
    rw [sortHL, sortHL, hv seen v]
    rcases hres : sortHV h₂ fuel seen v with e | p
    · rfl
    · rcases p with ⟨t, seen2⟩
      simp only []
      rw [ih seen2]

/-- Field-wise congruence of the sorter over the threaded `seen`. -/
theorem sortHF_congr (h₁ h₂ : Heap) (fuel : Nat)
    (hv : ∀ seen v, sortHV h₁ fuel seen v = sortHV h₂ fuel seen v) :
    ∀ seen fs, sortHF h₁ fuel seen fs = sortHF h₂ fuel seen fs := by
  intro seen fs
  induction fs generalizing seen with
  | nil => rw [sortHF, sortHF]
  | cons f fs ih =>
    rcases f with ⟨k, v⟩
    rw [sortHF, sortHF, hv seen v]
    rcases hres : sortHV h₂ fuel seen v with e | p
    · rfl
    · rcases p with ⟨t, seen2⟩
      simp only []
      rw [ih seen2]

/-- The sorter is invariant under object key insertion order. -/
theorem sortHV_perm (h₁ h₂ : Heap) (hp : heapPerm h₁ h₂) (hk : nodupKeysH h₁) :
    ∀ fuel seen v, sortHV h₁ fuel seen v = sortHV h₂ fuel seen v := by
  intro fuel
  induction fuel with
  | zero =>
    intro seen v
    cases v <;> rw [sortHV, sortHV]
  | succ fuel ih =>
    intro seen v
    cases v with
    | hnull => rw [sortHV, sortHV]
    | hbool b => rw [sortHV, sortHV]
    | hnum n => rw [sortHV, sortHV]
    | hstr s2 => rw [sortHV, sortHV]
    | href id =>
      rw [sortHV, sortHV]
      by_cases hid : id ∈ seen
      · rw [if_pos hid, if_pos hid]
      · rw [if_neg hid, if_neg hid]
        rcases forall2_getElem hp id with ⟨hn1, hn2⟩ | ⟨a, b, ha, hb, hab⟩
        · rw [hn1, hn2]
        · rw [ha, hb]
          cases a with
          | harr items =>
            cases b with
            | harr items2 =>
              have hi : items = items2 := by simpa [nodePerm] using hab
              subst hi
              simp only []
              rw [sortHL_congr h₁ h₂ fuel ih (id :: seen) items]
            | hobj _ => exact absurd hab (by simp [nodePerm])
          | hobj fields =>
            cases b with
            | harr _ => exact absurd hab (by simp [nodePerm])
            | hobj fields2 =>
              have hpf : fields.Perm fields2 := by simpa [nodePerm] using hab
              have hmem : HNode.hobj fields ∈ h₁ := by
                have := List.getElem?_mem ha
                exact this
              have hnd : (fields.map Prod.fst).Nodup := hk _ hmem fields rfl
              simp only []
              rw [insertionSort_perm_eq hpf hnd]
              rw [sortHF_congr h₁ h₂ fuel ih (id :: seen)
                (List.insertionSort fieldHLe fields2)]

/-- References held directly by a value. -/
def valRefs : HVal → List Nat
  | .href id => [id]
  | _ => []

/-- References held directly by a node. -/
def nodeRefs : HNode → List Nat
  | .harr items => items.flatMap valRefs
  | .hobj fields => (fields.map Prod.snd).flatMap valRefs

/-- Every reference of every node resolves (as in a real JS object
graph, where references cannot dangle). -/
def ClosedHeap (h : Heap) : Prop := ∀ nd ∈ h, ∀ i ∈ nodeRefs nd, i < h.length

/-- The root value's references resolve. -/
def ClosedVal (h : Heap) (v : HVal) : Prop := ∀ i ∈ valRefs v, i < h.length

mutual

/-- Tree-likeness: the unfolding of the value visits every composite
node at most once (`used` collects the composite ids of the unfolding,
each exactly once).  A value that is not tree-like — a shared node or a
cycle — is exactly one whose traversal revisits a node. -/
inductive TLv (h : Heap) : HVal → List Nat → Prop where
  | hnull : TLv h .hnull []
  | hbool (b : Bool) : TLv h (.hbool b) []
  | hnum (n : Int) : TLv h (.hnum n) []
  | hstr (s : String) : TLv h (.hstr s) []
  | href {id : Nat} {nd : HNode} {used : List Nat} :
      h[id]? = some nd → TLn h nd used → id ∉ used → TLv h (.href id) (id :: used)

/-- Tree-likeness of a node's children. -/
inductive TLn (h : Heap) : HNode → List Nat → Prop where
  | harr {items used} : TLl h items used → TLn h (.harr items) used
  | hobj {fields used} : TLf h fields used → TLn h (.hobj fields) used

/-- Tree-likeness of an element list, children pairwise disjoint. -/
inductive TLl (h : Heap) : List HVal → List Nat → Prop where
  | nil : TLl h [] []
  | cons {v vs u1 u2} : TLv h v u1 → TLl h vs u2 → (∀ i ∈ u1, i ∉ u2) →
      TLl h (v :: vs) (u1 ++ u2)

/-- Tree-likeness of a field list, children pairwise disjoint. -/
inductive TLf (h : Heap) : List (String × HVal) → List Nat → Prop where
  | nil : TLf h [] []
  | cons {k v fs u1 u2} : TLv h v u1 → TLf h fs u2 → (∀ i ∈ u1, i ∉ u2) →
      TLf h ((k, v) :: fs) (u1 ++ u2)

end

/-- Inversion for a nonempty tree-like field list. -/
theorem TLf_cons_inv {h : Heap} {k : String} {v : HVal}
    {fs : List (String × HVal)} {u : List Nat}
    (ht : TLf h ((k, v) :: fs) u) :
    ∃ u1 u2, u = u1 ++ u2 ∧ TLv h v u1 ∧ TLf h fs u2 ∧ ∀ i ∈ u1, i ∉ u2 := by
  cases ht with
  | cons h1 h2 hd => exact ⟨_, _, rfl, h1, h2, hd⟩

/-- Inversion for a nonempty tree-like element list. -/
theorem TLl_cons_inv {h : Heap} {v : HVal}
    {vs : List HVal} {u : List Nat}
    (ht : TLl h (v :: vs) u) :
    ∃ u1 u2, u = u1 ++ u2 ∧ TLv h v u1 ∧ TLl h vs u2 ∧ ∀ i ∈ u1, i ∉ u2 := by
  cases ht with
  | cons h1 h2 hd => exact ⟨_, _, rfl, h1, h2, hd⟩

/-- Tree-likeness of a field list is stable under permutation (the
sorter visits the fields in sorted order). -/
theorem TLf_perm {h : Heap} :
    ∀ {fs1 fs2 : List (String × HVal)}, fs1.Perm fs2 →
      ∀ {u : List Nat}, TLf h fs1 u → ∃ u2, u2.Perm u ∧ TLf h fs2 u2 := by
  intro fs1 fs2 hp
  induction hp with
  | nil =>
    intro u ht
    cases ht
    exact ⟨[], List.Perm.refl _, TLf.nil⟩
  | cons x hp2 ih =>
    obtain ⟨kx, vx⟩ := x
    intro u ht
    obtain ⟨u1, u2, rfl, h1, h2, hd⟩ := TLf_cons_inv ht
    obtain ⟨u2b, hperm, ht2⟩ := ih h2
    refine ⟨u1 ++ u2b, hperm.append_left _, TLf.cons h1 ht2 ?_⟩
    intro i hi hi2
    exact hd i hi (hperm.mem_iff.mp hi2)
  | swap x y t =>
    obtain ⟨kx, vx⟩ := x
    obtain ⟨ky, vy⟩ := y
    intro u ht
    obtain ⟨u1, u2, rfl, h1, h2, hd⟩ := TLf_cons_inv ht
    obtain ⟨u1b, u2b, rfl, h1b, h2b, hdb⟩ := TLf_cons_inv h2
    refine ⟨u1b ++ (u1 ++ u2b), ?_, TLf.cons h1b (TLf.cons h1 h2b ?_) ?_⟩
    · have h1p : ((u1b ++ u1) ++ u2b).Perm ((u1 ++ u1b) ++ u2b) :=
        (List.perm_append_comm).append_right _
      simpa [List.append_assoc] using h1p
    · intro i hi hi2
      exact hd i hi (by simp [hi2])
    · intro i hi hi2
      rcases List.mem_append.mp hi2 with hia | hib
      · exact hd i hia (by simp [hi])
      · exact hdb i hi hib
  | trans hp1 hp2 ih1 ih2 =>
    intro u ht
    obtain ⟨ua, hpa, hta⟩ := ih1 ht
    obtain ⟨ub, hpb, htb⟩ := ih2 hta
    exact ⟨ub, hpb.trans hpa, htb⟩

/-- The ids collected by a tree-like unfolding are pairwise distinct
and valid. -/
theorem TLv_nodup (h : Heap) : ∀ n : Nat, ∀ v used, TLv h v used →
    used.length ≤ n → used.Nodup ∧ ∀ i ∈ used, i < h.length := by
  intro n
  induction n with
  | zero =>
    intro v used ht hn
    cases ht with
    | hnull => simp
    | hbool b => simp
    | hnum n2 => simp
    | hstr s2 => simp
    | href => simp at hn
  | succ n ihn =>
    have hlist : ∀ vs used, TLl h vs used → used.length ≤ n →
        used.Nodup ∧ ∀ i ∈ used, i < h.length := by
      intro vs
      induction vs with
      | nil =>
        intro used ht _
        cases ht
        simp
      | cons v vs ihl =>
        intro used ht hn
        cases ht with
        | cons h1 h2 hd =>
          rename_i u1 u2
          have hlen := List.length_append u1 u2
          have r1 := ihn v u1 h1 (by omega)
          have r2 := ihl u2 h2 (by omega)
          refine ⟨List.Nodup.append r1.1 r2.1 hd, ?_⟩
          intro i hi
          rcases List.mem_append.mp hi with hia | hib
          · exact r1.2 i hia
          · exact r2.2 i hib
    have hfields : ∀ fs used, TLf h fs used → used.length ≤ n →
        used.Nodup ∧ ∀ i ∈ used, i < h.length := by
      intro fs
      induction fs with
      | nil =>
        intro used ht _
        cases ht
        simp
      | cons f fs ihf =>
        intro used ht hn
        cases ht with
        | cons h1 h2 hd =>
          rename_i u1 u2
          have hlen := List.length_append u1 u2
          have r1 := ihn _ u1 h1 (by omega)
          have r2 := ihf u2 h2 (by omega)
          refine ⟨List.Nodup.append r1.1 r2.1 hd, ?_⟩
          intro i hi
          rcases List.mem_append.mp hi with hia | hib
          · exact r1.2 i hia
          · exact r2.2 i hib
    intro v used ht hn
    cases ht with
    | hnull => simp
    | hbool b => simp
    | hnum n2 => simp
    | hstr s2 => simp
    | href hnode hnd hid =>
      rename_i id nd used2
      have hidlt : id < h.length := by
        have := List.getElem?_eq_some_iff.mp hnode
        exact this.1
      have hrest : used2.Nodup ∧ ∀ i ∈ used2, i < h.length := by
        cases hnd with
        | harr hl2 =>
          exact hlist _ _ hl2 (by simp only [List.length_cons] at hn; omega)
        | hobj hf2 =>
          exact hfields _ _ hf2 (by simp only [List.length_cons] at hn; omega)
      refine ⟨List.nodup_cons.mpr ⟨hid, hrest.1⟩, ?_⟩
      intro i hi
      rcases List.mem_cons.mp hi with rfl | hi2
      · exact hidlt
      · exact hrest.2 i hi2

/-- Totality on trees: the sorter succeeds on every tree-like value,
returning its ids appended (in some order) onto `seen`. -/
theorem sortHV_total (h : Heap) : ∀ n : Nat, ∀ v used, TLv h v used →
    used.length ≤ n → ∀ fuel seen, used.length ≤ fuel →
    (∀ i ∈ used, i ∉ seen) →
    ∃ t seen2, sortHV h fuel seen v = .ok (t, seen2) ∧
      seen2.Perm (used ++ seen) := by
  intro n
  induction n with
  | zero =>
    intro v used ht hn fuel seen hf hd
    cases ht with
    | hnull => exact ⟨.jnull, seen, by rw [sortHV], by simp⟩
    | hbool b => exact ⟨.jbool b, seen, by rw [sortHV], by simp⟩
    | hnum n2 => exact ⟨.jnum n2, seen, by rw [sortHV], by simp⟩
    | hstr s2 => exact ⟨.jstr s2, seen, by rw [sortHV], by simp⟩
    | href => simp at hn
  | succ n ihn =>
    have happc : ∀ (u1 u2 seen : List Nat),
        (u2 ++ (u1 ++ seen)).Perm ((u1 ++ u2) ++ seen) := by
      intro u1 u2 seen
      have h0 : ((u2 ++ u1) ++ seen).Perm ((u1 ++ u2) ++ seen) :=
        List.perm_append_comm.append_right seen
      simpa [List.append_assoc] using h0
    have hlist : ∀ vs used, TLl h vs used → used.length ≤ n →
        ∀ fuel seen, used.length ≤ fuel → (∀ i ∈ used, i ∉ seen) →
        ∃ ts seen2, sortHL h fuel seen vs = .ok (ts, seen2) ∧
          seen2.Perm (used ++ seen) := by
      intro vs
      induction vs with
      | nil =>
        intro used ht _ fuel seen _ _
        cases ht
        exact ⟨[], seen, by rw [sortHL], by simp⟩
      | cons v vs ihl =>
        intro used ht hn2 fuel seen hf hd
        obtain ⟨u1, u2, rfl, h1, h2, hd12⟩ := TLl_cons_inv ht
        have hlen := List.length_append u1 u2
        obtain ⟨t, seen2, hres1, hp1⟩ :=
          ihn v u1 h1 (by omega) fuel seen (by omega)
            (fun i hi => hd i (List.mem_append.mpr (.inl hi)))
        have hd2 : ∀ i ∈ u2, i ∉ seen2 := by
          intro i hi hi2
          rcases List.mem_append.mp (hp1.mem_iff.mp hi2) with hia | hib
          · exact hd12 i hia hi
          · exact hd i (List.mem_append.mpr (.inr hi)) hib
        obtain ⟨ts, seen3, hres2, hp2⟩ :=
          ihl u2 h2 (by omega) fuel seen2 (by omega) hd2
        refine ⟨t :: ts, seen3, ?_, ?_⟩
        · rw [sortHL, hres1]
          simp only []
          rw [hres2]
        · exact (hp2.trans (hp1.append_left u2)).trans (happc u1 u2 seen)
    have hfields : ∀ fs used, TLf h fs used → used.length ≤ n →
        ∀ fuel seen, used.length ≤ fuel → (∀ i ∈ used, i ∉ seen) →
        ∃ ts seen2, sortHF h fuel seen fs = .ok (ts, seen2) ∧
          seen2.Perm (used ++ seen) := by
      intro fs
      induction fs with
      | nil =>
        intro used ht _ fuel seen _ _
        cases ht
        exact ⟨[], seen, by rw [sortHF], by simp⟩
      | cons f fs ihf =>
        obtain ⟨k, v⟩ := f
        intro used ht hn2 fuel seen hf hd
        obtain ⟨u1, u2, rfl, h1, h2, hd12⟩ := TLf_cons_inv ht
        have hlen := List.length_append u1 u2
        obtain ⟨t, seen2, hres1, hp1⟩ :=
          ihn v u1 h1 (by omega) fuel seen (by omega)
            (fun i hi => hd i (List.mem_append.mpr (.inl hi)))
        have hd2 : ∀ i ∈ u2, i ∉ seen2 := by
          intro i hi hi2
          rcases List.mem_append.mp (hp1.mem_iff.mp hi2) with hia | hib
          · exact hd12 i hia hi
          · exact hd i (List.mem_append.mpr (.inr hi)) hib
        obtain ⟨ts, seen3, hres2, hp2⟩ :=
          ihf u2 h2 (by omega) fuel seen2 (by omega) hd2
        refine ⟨(k, t) :: ts, seen3, ?_, ?_⟩
        · rw [sortHF, hres1]
          simp only []
          rw [hres2]
        · exact (hp2.trans (hp1.append_left u2)).trans (happc u1 u2 seen)
    intro v used ht hn fuel seen hf hd
    cases ht with
    | hnull => exact ⟨.jnull, seen, by rw [sortHV], by simp⟩
    | hbool b => exact ⟨.jbool b, seen, by rw [sortHV], by simp⟩
    | hnum n2 => exact ⟨.jnum n2, seen, by rw [sortHV], by simp⟩
    | hstr s2 => exact ⟨.jstr s2, seen, by rw [sortHV], by simp⟩
    | href hnode hnd hid =>
      rename_i id nd used2
      simp only [List.length_cons] at hn hf
      cases fuel with
      | zero => omega
      | succ fuel =>
        have hdseen : ∀ i ∈ used2, i ∉ id :: seen := by
          intro i hi
          simp only [List.mem_cons, not_or]
          exact ⟨fun he => hid (he ▸ hi), hd i (List.mem_cons_of_mem _ hi)⟩
        cases hnd with
        | harr hl2 =>
          obtain ⟨ts, seen2, hres, hp⟩ :=
            hlist _ used2 hl2 (by omega) fuel (id :: seen) (by omega) hdseen
          refine ⟨.jarr ts, seen2, ?_, ?_⟩
          · rw [sortHV, if_neg (hd id (by simp)), hnode]
            simp only []
            rw [hres]
          · simpa [List.cons_append] using hp.trans List.perm_middle
        | hobj hf2 =>
          obtain ⟨u2, hu2, htf2⟩ :=
            TLf_perm (List.perm_insertionSort fieldHLe _).symm hf2
          obtain ⟨ts, seen2, hres, hp⟩ :=
            hfields _ u2 htf2 (by rw [hu2.length_eq]; omega) fuel (id :: seen)
              (by rw [hu2.length_eq]; omega)
              (fun i hi => hdseen i (hu2.mem_iff.mp hi))
          refine ⟨.jobj ts, seen2, ?_, ?_⟩
          · rw [sortHV, if_neg (hd id (by simp)), hnode]
            simp only []
            rw [hres]
          · have hp2 : seen2.Perm (used2 ++ (id :: seen)) :=
              hp.trans (hu2.append_right _)
            simpa [List.cons_append] using hp2.trans List.perm_middle

/-- Converse: whenever the sorter succeeds, the input was tree-like,
and the final `seen` is the collected ids appended onto the initial
ones. -/
theorem sortHV_ok_tl (h : Heap) : ∀ fuel : Nat,
    (∀ seen v t seen2, sortHV h fuel seen v = .ok (t, seen2) →
      ∃ used, TLv h v used ∧ (∀ i ∈ used, i ∉ seen) ∧
        seen2.Perm (used ++ seen)) ∧
    (∀ seen vs ts seen2, sortHL h fuel seen vs = .ok (ts, seen2) →
      ∃ used, TLl h vs used ∧ (∀ i ∈ used, i ∉ seen) ∧
        seen2.Perm (used ++ seen)) ∧
    (∀ seen fs ts seen2, sortHF h fuel seen fs = .ok (ts, seen2) →
      ∃ used, TLf h fs used ∧ (∀ i ∈ used, i ∉ seen) ∧
        seen2.Perm (used ++ seen)) := by
  have happc : ∀ (u1 u2 seen : List Nat),
      (u2 ++ (u1 ++ seen)).Perm ((u1 ++ u2) ++ seen) := by
    intro u1 u2 seen
    have h0 : ((u2 ++ u1) ++ seen).Perm ((u1 ++ u2) ++ seen) :=
      List.perm_append_comm.append_right seen
    simpa [List.append_assoc] using h0
  have hlgen : ∀ fuel : Nat,
      (∀ seen v t seen2, sortHV h fuel seen v = .ok (t, seen2) →
        ∃ used, TLv h v used ∧ (∀ i ∈ used, i ∉ seen) ∧
          seen2.Perm (used ++ seen)) →
      ∀ vs seen ts seen2, sortHL h fuel seen vs = .ok (ts, seen2) →
        ∃ used, TLl h vs used ∧ (∀ i ∈ used, i ∉ seen) ∧
          seen2.Perm (used ++ seen) := by
    intro fuel hv vs
    induction vs with
    | nil =>
      intro seen ts seen2 hok
      rw [sortHL] at hok
      simp only [Except.ok.injEq, Prod.mk.injEq] at hok
      obtain ⟨rfl, rfl⟩ := hok
      exact ⟨[], TLl.nil, by simp, by simp⟩
    | cons v vs ihl =>
      intro seen ts seen2 hok
      rw [sortHL] at hok
      rcases hres1 : sortHV h fuel seen v with e | ⟨t1, seenA⟩
      · rw [hres1] at hok
        simp at hok
      · rw [hres1] at hok
        simp only [] at hok
        rcases hres2 : sortHL h fuel seenA vs with e | ⟨ts2, seenB⟩
        · rw [hres2] at hok
          simp at hok
        · rw [hres2] at hok
          simp only [Except.ok.injEq, Prod.mk.injEq] at hok
          obtain ⟨rfl, rfl⟩ := hok
          obtain ⟨u1, htv, hd1, hp1⟩ := hv seen v t1 seenA hres1
          obtain ⟨u2, htl, hd2, hp2⟩ := ihl seenA ts2 seenB hres2
          refine ⟨u1 ++ u2, TLl.cons htv htl ?_, ?_, ?_⟩
          · intro i hi hi2
            exact hd2 i hi2 (hp1.mem_iff.mpr (List.mem_append.mpr (.inl hi)))
          · intro i hi
            rcases List.mem_append.mp hi with hia | hib
            · exact hd1 i hia
            · intro hiseen
              exact hd2 i hib (hp1.mem_iff.mpr (List.mem_append.mpr (.inr hiseen)))
          · exact (hp2.trans (hp1.append_left u2)).trans (happc u1 u2 seen)
  have hfgen : ∀ fuel : Nat,
      (∀ seen v t seen2, sortHV h fuel seen v = .ok (t, seen2) →
        ∃ used, TLv h v used ∧ (∀ i ∈ used, i ∉ seen) ∧
          seen2.Perm (used ++ seen)) →
      ∀ fs seen ts seen2, sortHF h fuel seen fs = .ok (ts, seen2) →
        ∃ used, TLf h fs used ∧ (∀ i ∈ used, i ∉ seen) ∧
          seen2.Perm (used ++ seen) := by
    intro fuel hv fs
    induction fs with
    | nil =>
      intro seen ts seen2 hok
      rw [sortHF] at hok
      simp only [Except.ok.injEq, Prod.mk.injEq] at hok
      obtain ⟨rfl, rfl⟩ := hok
      exact ⟨[], TLf.nil, by simp, by simp⟩
    | cons f fs ihf =>
      obtain ⟨k, v⟩ := f
      intro seen ts seen2 hok
      rw [sortHF] at hok
      rcases hres1 : sortHV h fuel seen v with e | ⟨t1, seenA⟩
      · rw [hres1] at hok
        simp at hok
      · rw [hres1] at hok
        simp only [] at hok
        rcases hres2 : sortHF h fuel seenA fs with e | ⟨ts2, seenB⟩
        · rw [hres2] at hok
          simp at hok
        · rw [hres2] at hok
          simp only [Except.ok.injEq, Prod.mk.injEq] at hok
          obtain ⟨rfl, rfl⟩ := hok
          obtain ⟨u1, htv, hd1, hp1⟩ := hv seen v t1 seenA hres1
          obtain ⟨u2, htf, hd2, hp2⟩ := ihf seenA ts2 seenB hres2
          refine ⟨u1 ++ u2, TLf.cons htv htf ?_, ?_, ?_⟩
          · intro i hi hi2
            exact hd2 i hi2 (hp1.mem_iff.mpr (List.mem_append.mpr (.inl hi)))
          · intro i hi
            rcases List.mem_append.mp hi with hia | hib
            · exact hd1 i hia
            · intro hiseen
              exact hd2 i hib (hp1.mem_iff.mpr (List.mem_append.mpr (.inr hiseen)))
          · exact (hp2.trans (hp1.append_left u2)).trans (happc u1 u2 seen)
  intro fuel
  induction fuel with
  | zero =>
    have hv0 : ∀ seen v t seen2, sortHV h 0 seen v = .ok (t, seen2) →
        ∃ used, TLv h v used ∧ (∀ i ∈ used, i ∉ seen) ∧
          seen2.Perm (used ++ seen) := by
      intro seen v t seen2 hok
      cases v with
      | hnull =>
        rw [sortHV] at hok
        simp only [Except.ok.injEq, Prod.mk.injEq] at hok
        obtain ⟨rfl, rfl⟩ := hok
        exact ⟨[], TLv.hnull, by simp, by simp⟩
      | hbool b =>
        rw [sortHV] at hok
        simp only [Except.ok.injEq, Prod.mk.injEq] at hok
        obtain ⟨rfl, rfl⟩ := hok
        exact ⟨[], TLv.hbool b, by simp, by simp⟩
      | hnum n2 =>
        rw [sortHV] at hok
        simp only [Except.ok.injEq, Prod.mk.injEq] at hok
        obtain ⟨rfl, rfl⟩ := hok
        exact ⟨[], TLv.hnum n2, by simp, by simp⟩
      | hstr s2 =>
        rw [sortHV] at hok
        simp only [Except.ok.injEq, Prod.mk.injEq] at hok
        obtain ⟨rfl, rfl⟩ := hok
        exact ⟨[], TLv.hstr s2, by simp, by simp⟩
      | href id =>
        rw [sortHV] at hok
        simp at hok
    exact ⟨hv0, fun seen vs ts seen2 hok => hlgen 0 hv0 vs seen ts seen2 hok,
      fun seen fs ts seen2 hok => hfgen 0 hv0 fs seen ts seen2 hok⟩
  | succ fuel ih =>
    have hv : ∀ seen v t seen2, sortHV h (fuel + 1) seen v = .ok (t, seen2) →
        ∃ used, TLv h v used ∧ (∀ i ∈ used, i ∉ seen) ∧
          seen2.Perm (used ++ seen) := by
      intro seen v t seen2 hok
      cases v with
      | hnull =>
        rw [sortHV] at hok
        simp only [Except.ok.injEq, Prod.mk.injEq] at hok
        obtain ⟨rfl, rfl⟩ := hok
        exact ⟨[], TLv.hnull, by simp, by simp⟩
      | hbool b =>
        rw [sortHV] at hok
        simp only [Except.ok.injEq, Prod.mk.injEq] at hok
        obtain ⟨rfl, rfl⟩ := hok
        exact ⟨[], TLv.hbool b, by simp, by simp⟩
      | hnum n2 =>
        rw [sortHV] at hok
        simp only [Except.ok.injEq, Prod.mk.injEq] at hok
        obtain ⟨rfl, rfl⟩ := hok
        exact ⟨[], TLv.hnum n2, by simp, by simp⟩
      | hstr s2 =>
        rw [sortHV] at hok
        simp only [Except.ok.injEq, Prod.mk.injEq] at hok
        obtain ⟨rfl, rfl⟩ := hok
        exact ⟨[], TLv.hstr s2, by simp, by simp⟩
      | href id =>
        rw [sortHV] at hok
        by_cases hmem : id ∈ seen
        · rw [if_pos hmem] at hok
          simp at hok
        · rw [if_neg hmem] at hok
          rcases hnode : h[id]? with _ | nd
          · rw [hnode] at hok
            simp at hok
          · rw [hnode] at hok
            cases nd with
            | harr items =>
              simp only [] at hok
              rcases hres : sortHL h fuel (id :: seen) items with e | ⟨ts, seenB⟩
              · rw [hres] at hok
                simp at hok
              · rw [hres] at hok
                simp only [Except.ok.injEq, Prod.mk.injEq] at hok
                obtain ⟨rfl, rfl⟩ := hok
                obtain ⟨used, htl, hd, hp⟩ :=
                  hlgen fuel ih.1 items (id :: seen) ts seenB hres
                refine ⟨id :: used, TLv.href hnode (TLn.harr htl) ?_, ?_, ?_⟩
                · intro hc
                  exact hd id hc (by simp)
                · intro i hi
                  rcases List.mem_cons.mp hi with rfl | hi2
                  · exact hmem
                  · intro hiseen
                    exact hd i hi2 (List.mem_cons_of_mem _ hiseen)
                · simpa [List.cons_append] using hp.trans List.perm_middle
            | hobj fields =>
              simp only [] at hok
              rcases hres : sortHF h fuel (id :: seen)
                  (List.insertionSort fieldHLe fields) with e | ⟨ts, seenB⟩
              · rw [hres] at hok
                simp at hok
              · rw [hres] at hok
                simp only [Except.ok.injEq, Prod.mk.injEq] at hok
                obtain ⟨rfl, rfl⟩ := hok
                obtain ⟨used, htf, hd, hp⟩ :=
                  hfgen fuel ih.1 _ (id :: seen) ts seenB hres
                obtain ⟨u2, hu2, htf2⟩ :=
                  TLf_perm (List.perm_insertionSort fieldHLe fields) htf
                refine ⟨id :: u2, TLv.href hnode (TLn.hobj htf2) ?_, ?_, ?_⟩
                · intro hc
                  exact hd id (hu2.mem_iff.mp hc) (by simp)
                · intro i hi
                  rcases List.mem_cons.mp hi with rfl | hi2
                  · exact hmem
                  · intro hiseen
                    exact hd i (hu2.mem_iff.mp hi2) (List.mem_cons_of_mem _ hiseen)
                · have hp2 : seenB.Perm (u2 ++ (id :: seen)) :=
                    hp.trans ((hu2.symm).append_right _)
                  simpa [List.cons_append] using hp2.trans List.perm_middle
    exact ⟨hv, fun seen vs ts seen2 hok => hlgen _ hv vs seen ts seen2 hok,
      fun seen fs ts seen2 hok => hfgen _ hv fs seen ts seen2 hok⟩

/-- A duplicate-free list of valid ids has at most `m` entries. -/
theorem nodup_valid_length {seen : List Nat} {m : Nat}
    (hnd : seen.Nodup) (hv : ∀ i ∈ seen, i < m) : seen.length ≤ m := by
  have hsub : seen.toFinset ⊆ Finset.range m := by
    intro i hi
    rw [Finset.mem_range]
    exact hv i (List.mem_toFinset.mp hi)
  have hcard := Finset.card_le_card hsub
  rw [Finset.card_range, List.toFinset_card_of_nodup hnd] at hcard
  exact hcard

/-- On a closed heap, with more fuel than distinct nodes, the only
error the sorter can produce is the cyclic one: the wrapper's fuel can
never run out before a revisit is detected, and no reference dangles. -/
theorem sortHV_err_cyclic (h : Heap) (hcl : ClosedHeap h) : ∀ fuel : Nat,
    (∀ seen v, ClosedVal h v → seen.Nodup → (∀ i ∈ seen, i < h.length) →
      h.length + 1 ≤ fuel + seen.length →
      ∀ e, sortHV h fuel seen v = .error e → e = "Cyclic reference detected") ∧
    (∀ seen vs, (∀ v ∈ vs, ClosedVal h v) → seen.Nodup →
      (∀ i ∈ seen, i < h.length) → h.length + 1 ≤ fuel + seen.length →
      ∀ e, sortHL h fuel seen vs = .error e → e = "Cyclic reference detected") ∧
    (∀ seen fs, (∀ f ∈ fs, ClosedVal h f.2) → seen.Nodup →
      (∀ i ∈ seen, i < h.length) → h.length + 1 ≤ fuel + seen.length →
      ∀ e, sortHF h fuel seen fs = .error e → e = "Cyclic reference detected") := by
  have hinvgen : ∀ fuel seen v t1 seenA, sortHV h fuel seen v = .ok (t1, seenA) →
      seen.Nodup → (∀ i ∈ seen, i < h.length) →
      seenA.Nodup ∧ (∀ i ∈ seenA, i < h.length) ∧ seen.length ≤ seenA.length := by
    intro fuel seen v t1 seenA hres1 hnd hvalid
    obtain ⟨u1, htv, hd1, hp1⟩ := (sortHV_ok_tl h fuel).1 seen v t1 seenA hres1
    have hu := TLv_nodup h u1.length v u1 htv (le_refl _)
    refine ⟨hp1.nodup_iff.mpr
      (List.Nodup.append hu.1 hnd (fun i hiu his => hd1 i hiu his)), ?_, ?_⟩
    · intro i hi
      rcases List.mem_append.mp (hp1.mem_iff.mp hi) with hia | hib
      · exact hu.2 i hia
      · exact hvalid i hib
    · have hq := hp1.length_eq
      rw [List.length_append] at hq
      omega
  have hlerr : ∀ fuel : Nat,
      (∀ seen v, ClosedVal h v → seen.Nodup → (∀ i ∈ seen, i < h.length) →
        h.length + 1 ≤ fuel + seen.length →
        ∀ e, sortHV h fuel seen v = .error e → e = "Cyclic reference detected") →
      ∀ vs seen, (∀ v ∈ vs, ClosedVal h v) → seen.Nodup →
        (∀ i ∈ seen, i < h.length) → h.length + 1 ≤ fuel + seen.length →
        ∀ e, sortHL h fuel seen vs = .error e →
          e = "Cyclic reference detected" := by
    intro fuel hv vs
    induction vs with
    | nil =>
      intro seen _ _ _ _ e hok
      rw [sortHL] at hok
      simp at hok
    | cons v vs ihl =>
      intro seen hcv hnd hvalid hacc e hok
      rw [sortHL] at hok
      rcases hres1 : sortHV h fuel seen v with e2 | ⟨t1, seenA⟩
      · rw [hres1] at hok
        simp only [] at hok
        obtain rfl : e2 = e := by
          injection hok
        exact hv seen v (hcv v (by simp)) hnd hvalid hacc _ hres1
      · rw [hres1] at hok
        simp only [] at hok
        obtain ⟨hndA, hvalidA, hlenA⟩ := hinvgen fuel seen v t1 seenA hres1 hnd hvalid
        rcases hres2 : sortHL h fuel seenA vs with e2 | ⟨ts2, seenB⟩
        · rw [hres2] at hok
          simp only [] at hok
          obtain rfl : e2 = e := by
            injection hok
          exact ihl seenA (fun v2 hv2 => hcv v2 (List.mem_cons_of_mem _ hv2))
            hndA hvalidA (by omega) _ hres2
        · rw [hres2] at hok
          simp at hok
  have hferr : ∀ fuel : Nat,
      (∀ seen v, ClosedVal h v → seen.Nodup → (∀ i ∈ seen, i < h.length) →
        h.length + 1 ≤ fuel + seen.length →
        ∀ e, sortHV h fuel seen v = .error e → e = "Cyclic reference detected") →
      ∀ fs seen, (∀ f ∈ fs, ClosedVal h f.2) → seen.Nodup →
        (∀ i ∈ seen, i < h.length) → h.length + 1 ≤ fuel + seen.length →
        ∀ e, sortHF h fuel seen fs = .error e →
          e = "Cyclic reference detected" := by
    intro fuel hv fs
    induction fs with
    | nil =>
      intro seen _ _ _ _ e hok
      rw [sortHF] at hok
      simp at hok
    | cons f fs ihf =>
      obtain ⟨k, v⟩ := f
      intro seen hcv hnd hvalid hacc e hok
      rw [sortHF] at hok
      rcases hres1 : sortHV h fuel seen v with e2 | ⟨t1, seenA⟩
      · rw [hres1] at hok
        simp only [] at hok
        obtain rfl : e2 = e := by
          injection hok
        exact hv seen v (hcv (k, v) (by simp)) hnd hvalid hacc _ hres1
      · rw [hres1] at hok
        simp only [] at hok
        obtain ⟨hndA, hvalidA, hlenA⟩ := hinvgen fuel seen v t1 seenA hres1 hnd hvalid
        rcases hres2 : sortHF h fuel seenA fs with e2 | ⟨ts2, seenB⟩
        · rw [hres2] at hok
          simp only [] at hok
          obtain rfl : e2 = e := by
            injection hok
          exact ihf seenA (fun f2 hf2 => hcv f2 (List.mem_cons_of_mem _ hf2))
            hndA hvalidA (by omega) _ hres2
        · rw [hres2] at hok
          simp at hok
  intro fuel
  induction fuel with
  | zero =>
    have hv0 : ∀ seen v, ClosedVal h v → seen.Nodup →
        (∀ i ∈ seen, i < h.length) → h.length + 1 ≤ 0 + seen.length →
        ∀ e, sortHV h 0 seen v = .error e → e = "Cyclic reference detected" := by
      intro seen v _ hnd hvalid hacc e _
      have := nodup_valid_length hnd hvalid
      omega
    exact ⟨hv0, fun seen vs a b c d => hlerr 0 hv0 vs seen a b c d,
      fun seen fs a b c d => hferr 0 hv0 fs seen a b c d⟩
  | succ fuel ih =>
    have hv : ∀ seen v, ClosedVal h v → seen.Nodup →
        (∀ i ∈ seen, i < h.length) → h.length + 1 ≤ (fuel + 1) + seen.length →
        ∀ e, sortHV h (fuel + 1) seen v = .error e →
          e = "Cyclic reference detected" := by
      intro seen v hcv hnd hvalid hacc e hok
      cases v with
      | hnull => rw [sortHV] at hok; simp at hok
      | hbool b => rw [sortHV] at hok; simp at hok
      | hnum n2 => rw [sortHV] at hok; simp at hok
      | hstr s2 => rw [sortHV] at hok; simp at hok
      | href id =>
        have hidlt : id < h.length := hcv id (by simp [valRefs])
        rw [sortHV] at hok
        by_cases hmem : id ∈ seen
        · rw [if_pos hmem] at hok
          injection hok with hq
          exact hq.symm
        · rw [if_neg hmem] at hok
          rcases hnode : h[id]? with _ | nd
          · rw [List.getElem?_eq_getElem hidlt] at hnode
            exact Option.noConfusion hnode
          · rw [hnode] at hok
            have hmemnd : nd ∈ h := List.getElem?_mem hnode
            have hnd2 : (id :: seen).Nodup := List.nodup_cons.mpr ⟨hmem, hnd⟩
            have hvalid2 : ∀ i ∈ id :: seen, i < h.length := by
              intro i hi
              rcases List.mem_cons.mp hi with rfl | hi2
              · exact hidlt
              · exact hvalid i hi2
            have hacc2 : h.length + 1 ≤ fuel + (id :: seen).length := by
              simp only [List.length_cons]
              omega
            cases nd with
            | harr items =>
              simp only [] at hok
              rcases hres : sortHL h fuel (id :: seen) items with e2 | ⟨ts, seenB⟩
              · rw [hres] at hok
                simp only [] at hok
                obtain rfl : e2 = e := by
                  injection hok
                refine hlerr fuel ih.1 items (id :: seen) ?_ hnd2 hvalid2 hacc2 _ hres
                intro v2 hv2 i hi
                exact hcl _ hmemnd i (List.mem_flatMap.mpr ⟨v2, hv2, hi⟩)
              · rw [hres] at hok
                simp at hok
            | hobj fields =>
              simp only [] at hok
              rcases hres : sortHF h fuel (id :: seen)
                  (List.insertionSort fieldHLe fields) with e2 | ⟨ts, seenB⟩
              · rw [hres] at hok
                simp only [] at hok
                obtain rfl : e2 = e := by
                  injection hok
                refine hferr fuel ih.1 _ (id :: seen) ?_ hnd2 hvalid2 hacc2 _ hres
                intro f2 hf2 i hi
                have hf2m : f2 ∈ fields :=
                  (List.perm_insertionSort fieldHLe fields).mem_iff.mp hf2
                refine hcl _ hmemnd i (List.mem_flatMap.mpr ⟨f2.2, ?_, hi⟩)
                exact List.mem_map.mpr ⟨f2, hf2m, rfl⟩
              · rw [hres] at hok
                simp at hok
    exact ⟨hv, fun seen vs a b c d => hlerr _ hv vs seen a b c d,
      fun seen fs a b c d => hferr _ hv fs seen a b c d⟩

/-- C7: `stableStringify` is order-independent and total on trees: on
heaps equal up to object-key insertion order (and pairwise-distinct
keys, as in any JS object) the output is byte-identical; every
tree-like value serializes successfully; and on a closed heap every
value that is not tree-like — every value whose traversal revisits a
composite node, in particular every cyclic one — fails with exactly
the "Cyclic reference detected" error. -/
theorem C7_stable_stringify (h₁ h₂ : Heap) (v : HVal)
    (hp : heapPerm h₁ h₂) (hk : nodupKeysH h₁)
    (hcl : ClosedHeap h₁) (hcv : ClosedVal h₁ v) :
    stableStringifyH h₁ v = stableStringifyH h₂ v ∧
    ((∃ used, TLv h₁ v used) → ∃ s, stableStringifyH h₁ v = .ok s) ∧
    (¬ (∃ used, TLv h₁ v used) →
      stableStringifyH h₁ v = .error "Cyclic reference detected") := by
  have hlen : h₁.length = h₂.length := hp.length_eq
  refine ⟨?_, ?_, ?_⟩
  · rw [stableStringifyH, stableStringifyH, ← hlen,
      sortHV_perm h₁ h₂ hp hk]
  · rintro ⟨used, ht⟩
    have hu := TLv_nodup h₁ used.length v used ht (le_refl _)
    have hub : used.length ≤ h₁.length := nodup_valid_length hu.1 hu.2
    obtain ⟨t, seen2, hres, -⟩ :=
      sortHV_total h₁ used.length v used ht (le_refl _) (h₁.length + 1) []
        (by omega) (by simp)
    rw [stableStringifyH, hres]
    exact ⟨_, rfl⟩
  · intro hnt
    rcases hres : sortHV h₁ (h₁.length + 1) [] v with e | ⟨t, seen2⟩
    · have he : e = "Cyclic reference detected" :=
        (sortHV_err_cyclic h₁ hcl (h₁.length + 1)).1 [] v hcv (by simp)
          (by simp) (by simp) e hres
      rw [stableStringifyH, hres, he]
    · obtain ⟨used, htv, -, -⟩ :=
        (sortHV_ok_tl h₁ (h₁.length + 1)).1 [] v t seen2 hres
      exact absurd ⟨used, htv⟩ hnt

/-- A one-object heap with keys inserted as b-then-a. -/
def c7h1 : Heap := [.hobj [("b", .hnum 1), ("a", .hnum 2)]]

/-- The same object with keys inserted as a-then-b. -/
def c7h2 : Heap := [.hobj [("a", .hnum 2), ("b", .hnum 1)]]

theorem C7_witness :
    stableStringifyH c7h1 (.href 0) = stableStringifyH c7h2 (.href 0) ∧
    ((∃ used, TLv c7h1 (.href 0) used) →
      ∃ s, stableStringifyH c7h1 (.href 0) = .ok s) ∧
    (¬ (∃ used, TLv c7h1 (.href 0) used) →
      stableStringifyH c7h1 (.href 0) = .error "Cyclic reference detected") := by
  refine C7_stable_stringify c7h1 c7h2 (.href 0) ?_ ?_ ?_ ?_
  · refine List.Forall₂.cons ?_ List.Forall₂.nil
    exact List.Perm.swap _ _ _
  · intro nd hnd fs hfs
    simp only [c7h1, List.mem_singleton] at hnd
    subst hnd
    injection hfs with h2
    subst h2
    decide
  · intro nd hnd i hi
    simp only [c7h1, List.mem_singleton] at hnd
    subst hnd
    simp [nodeRefs, valRefs] at hi
  · intro i hi
    simp only [valRefs, List.mem_singleton] at hi
    subst hi
    simp [c7h1]

end SKUA
